import Mathlib

/-!
Verification development for the gb-io GenBank codec.

The package exposes a GenBank flat-file parser and writer together with
thin entry points `load`, `iter` and `dump`.  The codec itself (module
`gb_io.lib`, a compiled extension) is not shipped as source in this
repository, so the definitions below are modelled from the written
specification of the codec (data model, section scanner, feature table
parser, location grammar, record assembler, streaming reader and
writer), anchored on the concrete byte-level examples asserted by the
repository's own test-suite (`tests/test_dump.py`, `tests/test_load.py`,
`tests/test_location.py`).

Lines of text are modelled as lists of characters so that every
operation is a plain structural computation.
-/

namespace GB

/-- A line of GenBank text, as a list of characters. -/
abbrev Line := List Char

/-- Characters of a string literal. -/
def str (s : String) : Line := s.data

/-- A run of space characters. -/
def spaces (n : Nat) : Line := List.replicate n ' '

/-- Left-justify a line in a field of width `n` (no truncation). -/
def padRight (l : Line) (n : Nat) : Line := l ++ spaces (n - l.length)

/-- Right-justify a line in a field of width `n` (no truncation). -/
def padLeft (l : Line) (n : Nat) : Line := spaces (n - l.length) ++ l

/-- Decimal digit character for a value below ten. -/
def digitChar (n : Nat) : Char := Char.ofNat (48 + n)

/-- Test for a decimal digit character. -/
def isDigit (c : Char) : Bool := 48 ≤ c.toNat && c.toNat ≤ 57

/-- Numeric value of a decimal digit character. -/
def digitVal (c : Char) : Nat := c.toNat - 48

/-- Decimal digits of a number, most significant first, in front of `acc`.
The first argument is fuel; any fuel above the number itself is enough. -/
def natCharsAux : Nat → Nat → Line → Line
  | 0, _, acc => acc
  | fuel + 1, n, acc =>
    if n < 10 then digitChar n :: acc
    else natCharsAux fuel (n / 10) (digitChar (n % 10) :: acc)

/-- Decimal representation of a number. -/
def natChars (n : Nat) : Line := natCharsAux (n + 1) n []

/-- Parse a non-empty all-digit line as a decimal number. -/
def parseNat? (l : Line) : Option Nat :=
  if l ≠ [] ∧ l.all isDigit then some (l.foldl (fun a c => 10 * a + digitVal c) 0) else none

theorem digitVal_digitChar {n : Nat} (h : n < 10) : digitVal (digitChar n) = n := by
  interval_cases n <;> decide

theorem isDigit_digitChar {n : Nat} (h : n < 10) : isDigit (digitChar n) = true := by
  interval_cases n <;> decide

theorem div_ten_lt {n : Nat} (h : ¬ n < 10) : n / 10 < n :=
  Nat.div_lt_self (Nat.lt_of_lt_of_le (by norm_num) (Nat.le_of_not_lt h)) (by norm_num)

theorem natCharsAux_append (fuel n : Nat) (acc : Line) (h : n < fuel) :
    natCharsAux fuel n acc = natCharsAux fuel n [] ++ acc := by
  induction fuel generalizing n acc with
  | zero => omega
  | succ fuel ih =>
    by_cases h10 : n < 10
    · simp [natCharsAux, h10]
    · have hlt : n / 10 < fuel := Nat.lt_of_lt_of_le (div_ten_lt h10) (by omega)
      simp only [natCharsAux, if_neg h10]
      rw [ih _ _ hlt, ih _ [digitChar (n % 10)] hlt]
      simp

theorem natCharsAux_fuel (f₁ f₂ n : Nat) (acc : Line) (h₁ : n < f₁) (h₂ : n < f₂) :
    natCharsAux f₁ n acc = natCharsAux f₂ n acc := by
  induction n using Nat.strong_induction_on generalizing f₁ f₂ acc with
  | _ n ih =>
    obtain ⟨g₁, rfl⟩ : ∃ g, f₁ = g + 1 := ⟨f₁ - 1, by omega⟩
    obtain ⟨g₂, rfl⟩ : ∃ g, f₂ = g + 1 := ⟨f₂ - 1, by omega⟩
    by_cases h10 : n < 10
    · simp [natCharsAux, h10]
    · simp only [natCharsAux, if_neg h10]
      exact ih (n / 10) (div_ten_lt h10) _ _ _
        (by have := div_ten_lt h10; omega) (by have := div_ten_lt h10; omega)

theorem natChars_lt {n : Nat} (h : n < 10) : natChars n = [digitChar n] := by
  simp [natChars, natCharsAux, h]

theorem natChars_step {n : Nat} (h : ¬ n < 10) :
    natChars n = natChars (n / 10) ++ [digitChar (n % 10)] := by
  have hlt : n / 10 < n := div_ten_lt h
  have hstep : natCharsAux (n + 1) n [] = natCharsAux n (n / 10) [digitChar (n % 10)] := by
    simp [natCharsAux, h]
  conv_lhs => rw [natChars, hstep]
  rw [natCharsAux_append n (n / 10) _ hlt,
    natCharsAux_fuel n (n / 10 + 1) (n / 10) [] hlt (by omega)]
  rfl

theorem natChars_ne_nil (n : Nat) : natChars n ≠ [] := by
  by_cases h : n < 10
  · simp [natChars_lt h]
  · simp [natChars_step h]

theorem natChars_all_digits (n : Nat) : (natChars n).all isDigit = true := by
  induction n using Nat.strong_induction_on with
  | _ n ih =>
    by_cases h : n < 10
    · simp [natChars_lt h, isDigit_digitChar h]
    · have hm : n % 10 < 10 := Nat.mod_lt _ (by norm_num)
      rw [natChars_step h]
      simp [ih (n / 10) (div_ten_lt h), isDigit_digitChar hm]

theorem foldl_natChars (n a : Nat) :
    (natChars n).foldl (fun a c => 10 * a + digitVal c) a =
      a * 10 ^ (natChars n).length + n := by
  induction n using Nat.strong_induction_on generalizing a with
  | _ n ih =>
    by_cases h : n < 10
    · rw [natChars_lt h]
      simp [digitVal_digitChar h]
      ring
    · have hm : n % 10 < 10 := Nat.mod_lt _ (by norm_num)
      rw [natChars_step h, List.foldl_append, ih (n / 10) (div_ten_lt h)]
      simp only [List.foldl_cons, List.foldl_nil, List.length_append, List.length_cons,
        List.length_nil, digitVal_digitChar hm]
      have h1 : a * 10 ^ ((natChars (n / 10)).length + (0 + 1)) =
          10 * (a * 10 ^ (natChars (n / 10)).length) := by ring
      have h2 : 10 * (n / 10) + n % 10 = n := Nat.div_add_mod n 10
      have h3 : 10 * (a * 10 ^ (natChars (n / 10)).length + n / 10) =
          10 * (a * 10 ^ (natChars (n / 10)).length) + 10 * (n / 10) := by ring
      rw [h3, h1]
      omega

theorem parseNat_natChars (n : Nat) : parseNat? (natChars n) = some n := by
  rw [parseNat?, if_pos ⟨natChars_ne_nil n, natChars_all_digits n⟩, foldl_natChars]
  simp

/-- Split a line at every occurrence of a separator character, keeping
empty pieces. -/
def splitCh (sep : Char) : Line → List Line
  | [] => [[]]
  | c :: cs =>
    if c = sep then [] :: splitCh sep cs
    else
      match splitCh sep cs with
      | [] => [[c]]
      | p :: ps => (c :: p) :: ps

/-- Join pieces with a single separator; inverse of `splitCh`. -/
def joinCh (sep : Char) : List Line → Line
  | [] => []
  | [p] => p
  | p :: ps => p ++ sep :: joinCh sep ps

/-- Split a line at every space character, keeping empty pieces. -/
def splitSp : Line → List Line := splitCh ' '

/-- Join pieces with single spaces; inverse of `splitSp`. -/
def joinSp : List Line → Line := joinCh ' '

/-- Whitespace-separated words of a line. -/
def tokens (l : Line) : List Line := (splitSp l).filter (fun p => p ≠ [])

theorem splitCh_ne_nil (sep : Char) (l : Line) : splitCh sep l ≠ [] := by
  cases l with
  | nil => simp [splitCh]
  | cons c cs =>
    by_cases h : c = sep
    · simp [splitCh, h]
    · simp only [splitCh, if_neg h]
      cases splitCh sep cs <;> simp

theorem splitSp_ne_nil (l : Line) : splitSp l ≠ [] := splitCh_ne_nil ' ' l

theorem joinCh_cons (sep : Char) (p : Line) (ps : List Line) (h : ps ≠ []) :
    joinCh sep (p :: ps) = p ++ sep :: joinCh sep ps := by
  cases ps with
  | nil => exact absurd rfl h
  | cons q qs => rfl

theorem joinSp_cons (p : Line) (ps : List Line) (h : ps ≠ []) :
    joinSp (p :: ps) = p ++ ' ' :: joinSp ps := joinCh_cons ' ' p ps h

@[simp] theorem joinCh_nil (sep : Char) : joinCh sep [] = [] := rfl

@[simp] theorem joinCh_single (sep : Char) (p : Line) : joinCh sep [p] = p := rfl

theorem splitCh_sep (sep : Char) (rest : Line) :
    splitCh sep (sep :: rest) = [] :: splitCh sep rest := by
  rw [splitCh]
  simp

theorem splitSp_space (rest : Line) : splitSp (' ' :: rest) = [] :: splitSp rest :=
  splitCh_sep ' ' rest

theorem splitCh_cons_ne (sep : Char) (c : Char) (cs : Line) (h : ¬ c = sep) :
    splitCh sep (c :: cs) =
      (c :: (splitCh sep cs).headI) :: (splitCh sep cs).tail := by
  rw [splitCh, if_neg h]
  rcases hp : splitCh sep cs with _ | ⟨p, ps⟩
  · exact absurd hp (splitCh_ne_nil sep cs)
  · simp

theorem joinCh_splitCh (sep : Char) (l : Line) : joinCh sep (splitCh sep l) = l := by
  induction l with
  | nil => rfl
  | cons c cs ih =>
    by_cases h : c = sep
    · subst h
      rw [splitCh_sep, joinCh_cons _ _ _ (splitCh_ne_nil c cs), ih]
      rfl
    · rw [splitCh_cons_ne sep c cs h]
      rcases hp : splitCh sep cs with _ | ⟨p, ps⟩
      · exact absurd hp (splitCh_ne_nil sep cs)
      · rw [hp] at ih
        cases ps with
        | nil =>
          simp only [joinCh] at ih ⊢
          simp [ih]
        | cons q qs =>
          rw [joinCh_cons _ _ _ (by simp)] at ih
          simp only [List.headI, List.tail]
          rw [joinCh_cons _ _ _ (by simp), ← ih]
          simp

theorem joinSp_splitSp (l : Line) : joinSp (splitSp l) = l := joinCh_splitCh ' ' l

theorem splitCh_word (sep : Char) (w rest : Line)
    (hw : w.all (fun c => c ≠ sep) = true) :
    splitCh sep (w ++ rest) =
      (w ++ (splitCh sep rest).headI) :: (splitCh sep rest).tail := by
  induction w with
  | nil =>
    simp only [List.nil_append]
    rcases h : splitCh sep rest with _ | ⟨p, ps⟩
    · exact absurd h (splitCh_ne_nil sep rest)
    · simp
  | cons c cs ih =>
    simp only [List.all_cons, Bool.and_eq_true, decide_eq_true_eq] at hw
    rw [List.cons_append, splitCh_cons_ne sep c (cs ++ rest) hw.1, ih hw.2]
    simp

theorem splitSp_word (w rest : Line) (hw : w.all (fun c => c ≠ ' ') = true) :
    splitSp (w ++ rest) =
      (w ++ (splitSp rest).headI) :: (splitSp rest).tail := splitCh_word ' ' w rest hw

theorem splitCh_single (sep : Char) (w : Line) (hw : w.all (fun c => c ≠ sep) = true) :
    splitCh sep w = [w] := by
  have := splitCh_word sep w [] hw
  simp only [List.append_nil] at this
  simpa [splitCh] using this

theorem splitSp_spaces (k : Nat) (rest : Line) :
    splitSp (spaces k ++ rest) = List.replicate k [] ++ splitSp rest := by
  induction k with
  | zero => simp [spaces]
  | succ k ih =>
    have : spaces (k + 1) = ' ' :: spaces k := by simp [spaces, List.replicate_succ]
    rw [this, List.cons_append, splitSp_space, ih, List.replicate_succ]
    rfl

theorem tokens_spaces (k : Nat) (rest : Line) :
    tokens (spaces k ++ rest) = tokens rest := by
  rw [tokens, splitSp_spaces, List.filter_append, tokens]
  simp

theorem tokens_word (w rest : Line) (hne : w ≠ [])
    (hw : w.all (fun c => c ≠ ' ') = true)
    (hr : rest = [] ∨ ∃ rest2, rest = ' ' :: rest2) :
    tokens (w ++ rest) = w :: tokens rest := by
  rcases hr with rfl | ⟨rest2, rfl⟩
  · rw [tokens, splitSp_word w [] hw]
    simp [splitSp, splitCh, tokens, hne]
  · rw [tokens, splitSp_word w (' ' :: rest2) hw, splitSp_space]
    simp only [List.headI, List.tail]
    simp only [List.append_nil, List.filter_cons, tokens]
    rw [splitSp_space]
    simp [hne]

/-- Cut a line into chunks of `n` characters (the last may be shorter).
The first argument after `n` is fuel; the line's length is enough. -/
def chunkAux (n : Nat) : Nat → Line → List Line
  | _, [] => []
  | 0, l => [l]
  | fuel + 1, c :: cs => (c :: cs.take (n - 1)) :: chunkAux n fuel (cs.drop (n - 1))

/-- Cut a line into chunks of `n` characters. -/
def chunkList (n : Nat) (l : Line) : List Line := chunkAux n l.length l

theorem chunkAux_flatten (n : Nat) : ∀ (fuel : Nat) (l : Line), (chunkAux n fuel l).flatten = l := by
  intro fuel
  induction fuel with
  | zero =>
    intro l
    cases l <;> simp [chunkAux]
  | succ fuel ih =>
    intro l
    cases l with
    | nil => simp [chunkAux]
    | cons c cs =>
      simp [chunkAux, ih]

theorem chunkList_flatten (n : Nat) (l : Line) : (chunkList n l).flatten = l :=
  chunkAux_flatten n l.length l

theorem chunkAux_ne_nil (n : Nat) :
    ∀ (fuel : Nat) (l : Line), ∀ p ∈ chunkAux n fuel l, p ≠ [] := by
  intro fuel
  induction fuel with
  | zero =>
    intro l p hp
    cases l with
    | nil => simp [chunkAux] at hp
    | cons c cs =>
      simp [chunkAux] at hp
      simp [hp]
  | succ fuel ih =>
    intro l p hp
    cases l with
    | nil => simp [chunkAux] at hp
    | cons c cs =>
      simp only [chunkAux, List.mem_cons] at hp
      rcases hp with rfl | hp
      · simp
      · exact ih _ p hp

/-- Greedy packing: the pieces that fit on the current line of width `w`
given `used` characters already taken, and the remaining pieces. -/
def fitSplit (w : Nat) : Nat → List Line → List Line × List Line
  | _, [] => ([], [])
  | used, p :: ps =>
    if used + 1 + p.length ≤ w then
      ((p :: (fitSplit w (used + 1 + p.length) ps).1),
        (fitSplit w (used + 1 + p.length) ps).2)
    else ([], p :: ps)

/-- Greedy word-wrap of space-separated pieces into lines of width `w`;
each group is non-empty and a piece is never split. -/
def wrapAux (w : Nat) : Nat → List Line → List (List Line)
  | _, [] => []
  | 0, ps => [ps]
  | fuel + 1, p :: ps =>
    (p :: (fitSplit w p.length ps).1) :: wrapAux w fuel (fitSplit w p.length ps).2

/-- Greedy word-wrap of pieces into lines of width `w`. -/
def wrapPieces (w : Nat) (ps : List Line) : List (List Line) := wrapAux w ps.length ps

theorem fitSplit_append (w : Nat) :
    ∀ (ps : List Line) (used : Nat), (fitSplit w used ps).1 ++ (fitSplit w used ps).2 = ps := by
  intro ps
  induction ps with
  | nil => intro used; rfl
  | cons p ps ih =>
    intro used
    by_cases h : used + 1 + p.length ≤ w
    · simp [fitSplit, h, ih]
    · simp [fitSplit, h]

theorem wrapAux_ne_nil (w : Nat) :
    ∀ (fuel : Nat) (ps : List Line), ∀ g ∈ wrapAux w fuel ps, g ≠ [] := by
  intro fuel
  induction fuel with
  | zero =>
    intro ps g hg
    cases ps with
    | nil => simp [wrapAux] at hg
    | cons p ps =>
      simp [wrapAux] at hg
      simp [hg]
  | succ fuel ih =>
    intro ps g hg
    cases ps with
    | nil => simp [wrapAux] at hg
    | cons p ps =>
      simp only [wrapAux, List.mem_cons] at hg
      rcases hg with rfl | hg
      · simp
      · exact ih _ g hg

theorem wrapAux_empty_iff (w : Nat) (fuel : Nat) (ps : List Line) :
    wrapAux w fuel ps = [] ↔ ps = [] := by
  cases fuel with
  | zero => cases ps <;> simp [wrapAux]
  | succ fuel => cases ps <;> simp [wrapAux]

theorem joinSp_cons_append (p : Line) (a b : List Line) (hb : b ≠ []) :
    joinSp (p :: (a ++ b)) = joinSp (p :: a) ++ ' ' :: joinSp b := by
  induction a generalizing p with
  | nil =>
    rw [List.nil_append, joinSp_cons p b hb]
    rfl
  | cons q qs ih =>
    rw [List.cons_append, joinSp_cons p (q :: (qs ++ b)) (by simp),
      joinSp_cons p (q :: qs) (by simp), ih q]
    simp

theorem wrapAux_joinSp (w : Nat) :
    ∀ (fuel : Nat) (ps : List Line),
      joinSp ((wrapAux w fuel ps).map joinSp) = joinSp ps := by
  intro fuel
  induction fuel with
  | zero =>
    intro ps
    cases ps <;> simp [wrapAux, joinSp]
  | succ fuel ih =>
    intro ps
    cases ps with
    | nil => simp [wrapAux, joinSp]
    | cons p ps =>
      simp only [wrapAux, List.map_cons]
      by_cases hb : (fitSplit w p.length ps).2 = []
      · have ha : (fitSplit w p.length ps).1 = ps := by
          have := fitSplit_append w ps p.length
          rw [hb, List.append_nil] at this
          exact this
        rw [hb, ha]
        simp [wrapAux, joinSp]
      · have hmap : (wrapAux w fuel (fitSplit w p.length ps).2).map joinSp ≠ [] := by
          simp [wrapAux_empty_iff, hb]
        rw [joinSp_cons _ _ hmap, ih]
        have hsplit := fitSplit_append w ps p.length
        conv_rhs => rw [← hsplit]
        rw [joinSp_cons_append p _ _ hb]

theorem wrapPieces_joinSp (w : Nat) (ps : List Line) :
    joinSp ((wrapPieces w ps).map joinSp) = joinSp ps :=
  wrapAux_joinSp w ps.length ps


/-!
Data model, modelled from the spec: the `gb_io.lib` extension that
defines `Record`, `Source`, `Reference`, `Feature`, `Qualifier` and the
`Location` variants is not part of the source tree, so the types below
follow §3 of the specification.  Sub-location lists use the dedicated
type `LocList` so that all recursion stays structural.
-/

/-- Strand of a location, reported as "+" or "-". -/
inductive Strand where
  | plus : Strand
  | minus : Strand
deriving DecidableEq, Repr

/-- Reverse a strand. -/
def Strand.flip : Strand → Strand
  | .plus => .minus
  | .minus => .plus

/-- An endpoint of a range: exact, or fuzzy ("at or before" `<`,
"at or after" `>`), retaining the fuzzy flag per endpoint. -/
inductive Pos where
  | exact : Nat → Pos
  | before : Nat → Pos
  | after : Nat → Pos
deriving DecidableEq, Repr

/-- Numeric value of an endpoint (0-based half-open convention). -/
def Pos.val : Pos → Nat
  | .exact n => n
  | .before n => n
  | .after n => n

/-- Fuzzy marker of an endpoint as written in the location grammar. -/
def Pos.mark : Pos → Line
  | .exact _ => []
  | .before _ => ['<']
  | .after _ => ['>']

mutual
/-- Modelled from the spec: the closed tagged-variant coordinate
expression type of the missing `gb_io.lib` extension (§3): Range,
Between, Complement, Join, Order, Bond, OneOf, External. Ranges are
stored 0-based half-open; nesting of Complement is preserved. -/
inductive Location where
  | range : Pos → Pos → Location
  | between : Nat → Location
  | complement : Location → Location
  | join : LocList → Location
  | order : LocList → Location
  | bond : LocList → Location
  | oneOf : LocList → Location
  | external : Line → Location → Location

/-- A list of sub-locations of a combinator location. -/
inductive LocList where
  | nil : LocList
  | cons : Location → LocList → LocList
end

/-- Modelled from the spec: the strand attribute is derived
structurally — "+" by default, flipped by each enclosing Complement. -/
def Location.strand : Location → Strand
  | .complement l => (Location.strand l).flip
  | _ => .plus

/-- Number of Complement constructors wrapped directly around a location. -/
def Location.compDepth : Location → Nat
  | .complement l => Location.compDepth l + 1
  | _ => 0

/-- Wrap a location in `n` nested Complement constructors. -/
def nestComplement : Nat → Location → Location
  | 0, l => l
  | n + 1, l => .complement (nestComplement n l)

/-- Modelled from the spec: a feature qualifier — a key with an optional
value; an ordered sequence of these is kept per feature because keys may
repeat. -/
structure Qualifier where
  key : Line
  value : Option Line
deriving DecidableEq, Repr

/-- Modelled from the spec: a feature table entry — kind, location and
ordered qualifier list. -/
structure Feature where
  kind : Line
  location : Location
  qualifiers : List Qualifier

/-- Modelled from the spec: a calendar date DD-MON-YYYY. -/
structure Date where
  year : Nat
  month : Nat
  day : Nat
deriving DecidableEq, Repr

/-- Modelled from the spec: organism name and ordered taxonomic lineage. -/
structure Source where
  name : Line
  lineage : List Line
deriving DecidableEq, Repr

/-- Modelled from the spec: a literature reference with authors, title,
journal, optional PubMed identifier and optional remark. -/
structure Reference where
  authors : List Line
  title : Option Line
  journal : Option Line
  pubmed : Option Nat
  remark : Option Line
deriving DecidableEq, Repr

/-- Topology of a record: linear or circular. -/
inductive Topology where
  | linear : Topology
  | circular : Topology
deriving DecidableEq, Repr

/-- Topology keyword as written on the LOCUS line. -/
def Topology.chars : Topology → Line
  | .linear => str "linear"
  | .circular => str "circular"

/-- Modelled from the spec: one GenBank entry with the typed fields the
claims exercise — LOCUS metadata (name, molecule type, topology,
division, date), definition, source, references, features and sequence.
The residue count on the LOCUS line is derived from the sequence; the
assembler enforces that a declared count matches it. -/
structure Record where
  name : Line
  molecule_type : Option Line
  topology : Topology
  division : Line
  date : Option Date
  definition : Option Line
  source : Option Source
  references : List Reference
  features : List Feature
  sequence : Line

/-!
Writer (spec §4.6): serialize a Record into GenBank text with the exact
column layout asserted by `tests/test_dump.py::TestDump.test_python_record`.
-/

/-- Month abbreviations for LOCUS dates. -/
def monthNames : List Line :=
  [str "JAN", str "FEB", str "MAR", str "APR", str "MAY", str "JUN",
   str "JUL", str "AUG", str "SEP", str "OCT", str "NOV", str "DEC"]

/-- Two-digit zero-padded day number. -/
def pad2 (n : Nat) : Line := if n < 10 then '0' :: natChars n else natChars n

/-- Date as written on the LOCUS line: DD-MON-YYYY. -/
def dateChars (d : Date) : Line :=
  pad2 d.day ++ '-' :: (monthNames.getD (d.month - 1) []) ++ '-' :: natChars d.year

/-- Start endpoint as written (1-based inclusive with fuzzy marker). -/
def startChars (p : Pos) : Line := p.mark ++ natChars (p.val + 1)

/-- End endpoint as written (1-based inclusive with fuzzy marker). -/
def endChars (p : Pos) : Line := p.mark ++ natChars p.val

mutual
/-- Location expression in the written grammar (spec §4.1). -/
def locChars : Location → Line
  | .range lo hi => startChars lo ++ '.' :: '.' :: endChars hi
  | .between n => natChars n ++ '^' :: natChars (n + 1)
  | .complement l => str "complement(" ++ locChars l ++ [')']
  | .join ls => str "join(" ++ locListChars ls ++ [')']
  | .order ls => str "order(" ++ locListChars ls ++ [')']
  | .bond ls => str "bond(" ++ locListChars ls ++ [')']
  | .oneOf ls => str "one-of(" ++ locListChars ls ++ [')']
  | .external acc l => acc ++ ':' :: locChars l

/-- Comma-separated sub-locations. -/
def locListChars : LocList → Line
  | .nil => []
  | .cons l .nil => locChars l
  | .cons l ls => locChars l ++ ',' :: locListChars ls
end

/-- Date segment of the LOCUS line (empty when absent). -/
def dateTailChars : Option Date → Line
  | none => []
  | some d => ' ' :: dateChars d

/-- LOCUS line with an explicitly declared residue count (fixed-width
name field, right-justified count, molecule type, topology, division and
date, byte-exact per the classic layout). -/
def locusLineD (r : Record) (declared : Nat) : Line :=
  str "LOCUS       " ++ padRight r.name 16 ++ padLeft (natChars declared) 12 ++
    str " bp " ++ padRight (r.molecule_type.getD []) 10 ++ ' ' :: r.topology.chars ++
    ' ' :: r.division ++ dateTailChars r.date

/-- A single-line section with its 12-column keyword prefix. -/
def optSection (kw : String) : Option Line → List Line
  | none => []
  | some v => [str kw ++ v]

/-- Join entries with a separator followed by one space. -/
def joinSepSp (sep : Char) : List Line → Line
  | [] => []
  | [x] => x
  | x :: xs => x ++ sep :: ' ' :: joinSepSp sep xs

/-- SOURCE section: organism name, with the lineage on an ORGANISM
sub-line joined by "; ". -/
def sourceLines : Option Source → List Line
  | none => []
  | some s =>
    (str "SOURCE      " ++ s.name) ::
      (if s.lineage = [] then []
       else [str "  ORGANISM  " ++ joinSepSp ';' s.lineage])

/-- PUBMED sub-line of a reference (its keyword is indented one column
further than the other sub-keywords). -/
def pubmedSeg : Option Nat → List Line
  | none => []
  | some n => [str "   PUBMED   " ++ natChars n]

/-- One REFERENCE block, numbered from 1 in file order. -/
def referenceLines (idx : Nat) (r : Reference) : List Line :=
  (str "REFERENCE   " ++ natChars idx) ::
    ((if r.authors = [] then []
      else [str "  AUTHORS   " ++ joinSepSp ',' r.authors]) ++
     optSection "  TITLE     " r.title ++
     optSection "  JOURNAL   " r.journal ++
     pubmedSeg r.pubmed ++
     optSection "  REMARK    " r.remark)

/-- All REFERENCE blocks of a record. -/
def referencesLines (rs : List Reference) : List Line :=
  (rs.enumFrom 1).flatMap fun p => referenceLines p.1 p.2

/-- Full logical text of a qualifier before wrapping:
"/key", or "/key=\"value\"" for a valued qualifier. -/
def qualFull (q : Qualifier) : Line :=
  '/' :: q.key ++
    (match q.value with
     | none => []
     | some v => '=' :: '"' :: v ++ ['"'])

/-- Width available for feature qualifier content: 79-column lines with
a 21-column indent. -/
def qualWidth : Nat := 58

/-- Lines of one qualifier, wrapped to the fixed width and indented to
column 21.  A "/translation" value is hard-wrapped at the width (its
residue string has no word breaks); every other qualifier is
word-wrapped, breaking only at spaces. -/
def qualLines (q : Qualifier) : List Line :=
  if q.key = str "translation" then
    (chunkList qualWidth (qualFull q)).map (fun l => spaces 21 ++ l)
  else
    (wrapPieces qualWidth (splitSp (qualFull q))).map (fun g => spaces 21 ++ joinSp g)

/-- Lines of one feature: key at column 5 in a 16-wide field, location
at column 21, then the qualifiers. -/
def featureLines (f : Feature) : List Line :=
  (spaces 5 ++ padRight f.kind 16 ++ locChars f.location) :: f.qualifiers.flatMap qualLines

/-- FEATURES section (omitted when there are no features). -/
def featuresSection : List Feature → List Line
  | [] => []
  | f :: fs =>
    (str "FEATURES             Location/Qualifiers") :: (f :: fs).flatMap featureLines

/-- Body lines of the ORIGIN block: 60 residues per line as six groups
of ten, each line prefixed by its right-justified 1-based position.
The first argument is fuel; the sequence length is enough. -/
def originBodyAux : Nat → Nat → Line → List Line
  | _, _, [] => []
  | 0, pos, s =>
    [padLeft (natChars pos) 9 ++ ((chunkList 10 s).map (fun g => ' ' :: g)).flatten]
  | fuel + 1, pos, c :: cs =>
    (padLeft (natChars pos) 9 ++
        ((chunkList 10 (c :: cs.take 59)).map (fun g => ' ' :: g)).flatten) ::
      originBodyAux fuel (pos + 60) (cs.drop 59)

/-- ORIGIN section (omitted when the sequence is empty). -/
def originSection (s : Line) : List Line :=
  if s = [] then [] else (str "ORIGIN      ") :: originBodyAux s.length 1 s

/-- Body of one record (no terminator), with an explicit declared
residue count on the LOCUS line. -/
def dumpBodyD (r : Record) (declared : Nat) : List Line :=
  locusLineD r declared ::
    (optSection "DEFINITION  " r.definition ++
     sourceLines r.source ++
     referencesLines r.references ++
     featuresSection r.features ++
     originSection r.sequence)

/-- All lines of one record, terminated by "//". -/
def dumpRecordLines (r : Record) : List Line :=
  dumpBodyD r r.sequence.length ++ [str "//"]

/-- Modelled from the spec: the writer behind `gb_io.dump` — serialize
an ordered list of records, each followed by its own terminator. -/
def dump (rs : List Record) : List Line :=
  rs.flatMap dumpRecordLines

/-- The record built in
`tests/test_dump.py::TestDump.test_python_record`. -/
def testRecord : Record :=
  { name := str "Test sequence"
    molecule_type := none
    topology := .linear
    division := str "UNK"
    date := some ⟨2024, 4, 1⟩
    definition := none
    source := some ⟨str "Testus organismae", []⟩
    references := []
    features := [⟨str "CDS", .range (.exact 0) (.exact 3),
      [⟨str "translation", some (str "M")⟩]⟩]
    sequence := str "ATGC" }

/-!
Parser (spec §4.2-§4.5): section scanner, field parsers, feature table
parser, location grammar parser, record assembler, streaming reader.
All are modelled from the spec, since the `gb_io.lib` extension is not
in the source tree.
-/

/-- Leading lines that are not section starts, and the remainder. -/
def takeNonLabel (p : Line → Bool) : List Line → List Line × List Line
  | [] => ([], [])
  | l :: ls =>
    if p l then ([], l :: ls)
    else (l :: (takeNonLabel p ls).1, (takeNonLabel p ls).2)

/-- Group lines into blocks, each starting at a line satisfying `p`
(continuation lines do not satisfy `p`).  The Nat is fuel; the number of
lines is enough. -/
def groupByLabel (p : Line → Bool) : Nat → List Line → List (List Line)
  | _, [] => []
  | 0, ls => [ls]
  | fuel + 1, l :: ls =>
    (l :: (takeNonLabel p ls).1) :: groupByLabel p fuel (takeNonLabel p ls).2

theorem takeNonLabel_spec (p : Line → Bool) (xs rest : List Line)
    (hx : ∀ l ∈ xs, p l = false)
    (hr : rest = [] ∨ p (rest.headI) = true) :
    takeNonLabel p (xs ++ rest) = (xs, rest) := by
  induction xs with
  | nil =>
    rcases hr with rfl | hr
    · rfl
    · cases rest with
      | nil => rfl
      | cons r rs =>
        simp only [List.headI] at hr
        simp [takeNonLabel, hr]
  | cons x xs ih =>
    have hx0 : p x = false := hx x (by simp)
    simp only [List.cons_append, takeNonLabel, hx0, Bool.false_eq_true, if_false,
      List.append_eq]
    rw [ih (fun l hl => hx l (by simp [hl]))]

/-- A block decomposition: every block non-empty, starting with a label
line, with only continuation lines after it. -/
def GoodBlocks (p : Line → Bool) (gs : List (List Line)) : Prop :=
  ∀ g ∈ gs, g ≠ [] ∧ p g.headI = true ∧ ∀ l ∈ g.tail, p l = false

theorem length_flatten_ge (gs : List (List Line)) (h : ∀ g ∈ gs, g ≠ []) :
    gs.length ≤ gs.flatten.length := by
  induction gs with
  | nil => simp
  | cons g gs ih =>
    have hg : g ≠ [] := h g (by simp)
    have : 1 ≤ g.length := by
      cases g with
      | nil => exact absurd rfl hg
      | cons x xs => simp
    simp only [List.flatten_cons, List.length_cons, List.length_append]
    have := ih (fun g hg => h g (by simp [hg]))
    omega

theorem groupByLabel_flatten (p : Line → Bool) :
    ∀ (gs : List (List Line)), GoodBlocks p gs →
      ∀ fuel, gs.length ≤ fuel → groupByLabel p fuel gs.flatten = gs := by
  intro gs
  induction gs with
  | nil =>
    intro _ fuel _
    cases fuel <;> rfl
  | cons g gs ih =>
    intro hgs fuel hfuel
    obtain ⟨hg, hlab, hcont⟩ := hgs g (by simp)
    obtain ⟨x, xs, rfl⟩ : ∃ x xs, g = x :: xs := by
      cases g with
      | nil => exact absurd rfl hg
      | cons x xs => exact ⟨x, xs, rfl⟩
    obtain ⟨f, rfl⟩ : ∃ f, fuel = f + 1 := ⟨fuel - 1, by simp at hfuel; omega⟩
    have hgs2 : GoodBlocks p gs := fun g2 hg2 => hgs g2 (by simp [hg2])
    have hrest : gs.flatten = [] ∨ p (gs.flatten.headI) = true := by
      cases gs with
      | nil => simp
      | cons g2 gs2 =>
        obtain ⟨hg2, hlab2, _⟩ := hgs2 g2 (by simp)
        obtain ⟨y, ys, rfl⟩ : ∃ y ys, g2 = y :: ys := by
          cases g2 with
          | nil => exact absurd rfl hg2
          | cons y ys => exact ⟨y, ys, rfl⟩
        right
        simpa using hlab2
    have hcont2 : ∀ l ∈ xs, p l = false := by
      intro l hl
      exact hcont l (by simpa using hl)
    have htake := takeNonLabel_spec p xs gs.flatten hcont2 hrest
    simp only [List.flatten_cons, List.cons_append, groupByLabel, List.append_eq]
    rw [htake]
    rw [ih hgs2 f (by simp at hfuel; omega)]

/-- Characters allowed in the residue alphabet (letters plus gap and
ambiguity symbols). -/
def isResidue (c : Char) : Bool := c.isAlpha || c = '-' || c = '*' || c = '.'

/-- Identifier characters of the location grammar (accessions and
combinator keywords). -/
def isIdChar (c : Char) : Bool :=
  c.isAlpha || isDigit c || c = '-' || c = '_' || c = '.'

/-- Numeric value of an all-digit line. -/
def natVal (l : Line) : Nat := l.foldl (fun a c => 10 * a + digitVal c) 0

theorem natVal_natChars (n : Nat) : natVal (natChars n) = n := by
  rw [natVal, foldl_natChars]
  simp

/-- Parse an optional fuzzy endpoint marker. -/
def parseFuzzy (s : Line) : (Nat → Pos) × Bool × Line :=
  match s with
  | [] => (Pos.exact, false, [])
  | c :: t =>
    if c = '<' then (Pos.before, true, t)
    else if c = '>' then (Pos.after, true, t)
    else (Pos.exact, false, c :: t)

/-- Parse a range, single-base or between-site expression, converting
1-based inclusive text to the 0-based half-open representation. -/
def parseSimple (s : Line) : Option (Location × Line) :=
  let f1 := parseFuzzy s
  let d1 := f1.2.2.takeWhile isDigit
  let s2 := f1.2.2.dropWhile isDigit
  if d1 = [] then none
  else
    let a := natVal d1
    if s2.take 2 = ['.', '.'] then
      let f2 := parseFuzzy (s2.drop 2)
      let d2 := f2.2.2.takeWhile isDigit
      let s5 := f2.2.2.dropWhile isDigit
      if d2 = [] then none
      else if a = 0 then none
      else some (.range (f1.1 (a - 1)) (f2.1 (natVal d2)), s5)
    else if s2.take 1 = ['^'] then
      if f1.2.1 then none
      else
        let d2 := (s2.drop 1).takeWhile isDigit
        let s5 := (s2.drop 1).dropWhile isDigit
        if d2 = [] then none
        else if natVal d2 = a + 1 then some (.between a, s5) else none
    else if a = 0 then none
    else some (.range (f1.1 (a - 1)) (Pos.exact a), s2)

/-- Close a parenthesized single-location combinator. -/
def closeParen (res : Option (Location × Line)) (k : Location → Location) :
    Option (Location × Line) :=
  match res with
  | some (l, ')' :: rest3) => some (k l, rest3)
  | _ => none

/-- Close a parenthesized location-list combinator. -/
def closeParenL (res : Option (LocList × Line)) (k : LocList → Location) :
    Option (Location × Line) :=
  match res with
  | some (ls, ')' :: rest3) => some (k ls, rest3)
  | _ => none

/-- Apply a location transformer to a parse result. -/
def bindLoc (res : Option (Location × Line)) (k : Location → Location) :
    Option (Location × Line) :=
  match res with
  | some (l, rest3) => some (k l, rest3)
  | none => none

/-- Prepend a parsed location to a parsed tail list. -/
def consLoc (l : Location) (res : Option (LocList × Line)) :
    Option (LocList × Line) :=
  match res with
  | some (ls, rest3) => some (.cons l ls, rest3)
  | none => none

mutual
/-- Recursive-descent parser for the location grammar; the first
argument is fuel. -/
def parseLocF : Nat → Line → Option (Location × Line)
  | 0, _ => none
  | fuel + 1, s =>
    match s with
    | [] => none
    | c :: _ =>
      if c = '<' ∨ c = '>' ∨ isDigit c = true then parseSimple s
      else
        let id := s.takeWhile isIdChar
        let rest := s.dropWhile isIdChar
        if id = [] then none
        else
          match rest with
          | '(' :: rest2 =>
            if id = str "complement" then closeParen (parseLocF fuel rest2) .complement
            else if id = str "join" then closeParenL (parseLocListF fuel rest2) .join
            else if id = str "order" then closeParenL (parseLocListF fuel rest2) .order
            else if id = str "bond" then closeParenL (parseLocListF fuel rest2) .bond
            else if id = str "one-of" then closeParenL (parseLocListF fuel rest2) .oneOf
            else none
          | ':' :: rest2 => bindLoc (parseLocF fuel rest2) (.external id)
          | _ => none

/-- Parse a non-empty comma-separated list of locations. -/
def parseLocListF : Nat → Line → Option (LocList × Line)
  | 0, _ => none
  | fuel + 1, s =>
    match parseLocF fuel s with
    | none => none
    | some (l, rest) =>
      match rest with
      | ',' :: rest2 => consLoc l (parseLocListF fuel rest2)
      | _ => some (.cons l .nil, rest)
end

/-- Parse a complete location expression (spec §4.1). -/
def parseLoc (s : Line) : Option Location :=
  match parseLocF (s.length + 1) s with
  | some (l, []) => some l
  | _ => none

mutual
/-- Well-formedness of a location for the writer: combinator lists are
non-empty and external accessions are valid identifiers that cannot be
confused with a number. -/
def locWF : Location → Bool
  | .range _ _ => true
  | .between _ => true
  | .complement l => locWF l
  | .join ls => locListWF ls
  | .order ls => locListWF ls
  | .bond ls => locListWF ls
  | .oneOf ls => locListWF ls
  | .external acc l =>
    acc.all isIdChar &&
    (match acc with
     | [] => false
     | a :: _ => !isDigit a) && locWF l

/-- Well-formedness of a combinator sub-location list (non-empty). -/
def locListWF : LocList → Bool
  | .nil => false
  | .cons l .nil => locWF l
  | .cons l ls => locWF l && locListWF ls
end

mutual
/-- Structural size of a location, used as parser fuel. -/
def locSize : Location → Nat
  | .range _ _ => 1
  | .between _ => 1
  | .complement l => locSize l + 1
  | .join ls => locListSize ls + 1
  | .order ls => locListSize ls + 1
  | .bond ls => locListSize ls + 1
  | .oneOf ls => locListSize ls + 1
  | .external _ l => locSize l + 1

/-- Structural size of a location list. -/
def locListSize : LocList → Nat
  | .nil => 1
  | .cons l ls => locSize l + locListSize ls
end

theorem ne_of_pred {p : Char → Bool} {c d : Char} (hc : p c = true) (hd : p d = false) :
    c ≠ d := by
  intro he
  rw [he, hd] at hc
  cases hc

theorem headI_append_ne_nil (a b : Line) (h : a ≠ []) : (a ++ b).headI = a.headI := by
  cases a with
  | nil => exact absurd rfl h
  | cons c cs => rfl

theorem takeWhile_all_append (p : Char → Bool) (l t : Line)
    (hl : l.all p = true) (ht : t = [] ∨ p t.headI = false) :
    (l ++ t).takeWhile p = l ∧ (l ++ t).dropWhile p = t := by
  induction l with
  | nil =>
    simp only [List.nil_append]
    rcases ht with rfl | ht
    · simp
    · cases t with
      | nil => simp
      | cons c cs =>
        simp only [List.headI] at ht
        constructor
        · simp [List.takeWhile_cons, ht]
        · simp [List.dropWhile_cons, ht]
  | cons c cs ih =>
    simp only [List.all_cons, Bool.and_eq_true] at hl
    constructor
    · rw [List.cons_append, List.takeWhile_cons, hl.1]
      simp [(ih hl.2).1]
    · rw [List.cons_append, List.dropWhile_cons, hl.1]
      simp [(ih hl.2).2]

/-- Characters that may legally follow a complete location. -/
def stopChar (c : Char) : Bool := c = ',' || c = ')'

/-- A location's trailing context: empty or a stop character. -/
def endOk : Line → Bool
  | [] => true
  | c :: _ => stopChar c

/-- A location list's trailing context: empty or a closing parenthesis. -/
def endOkL : Line → Bool
  | [] => true
  | c :: _ => c = ')'

theorem stopChar_not_digit {c : Char} (h : stopChar c = true) : isDigit c = false := by
  simp only [stopChar, Bool.or_eq_true, decide_eq_true_eq] at h
  rcases h with rfl | rfl <;> decide

theorem endOk_not_digit {t : Line} (h : endOk t = true) :
    t = [] ∨ isDigit t.headI = false := by
  cases t with
  | nil => exact Or.inl rfl
  | cons c cs => exact Or.inr (stopChar_not_digit h)

/-- Endpoint constructor selected by a fuzzy marker. -/
def posMk : Pos → (Nat → Pos)
  | .exact _ => Pos.exact
  | .before _ => Pos.before
  | .after _ => Pos.after

/-- Whether an endpoint carries a fuzzy marker. -/
def posFz : Pos → Bool
  | .exact _ => false
  | .before _ => true
  | .after _ => true

theorem posMk_val (p : Pos) : posMk p p.val = p := by
  cases p <;> rfl

theorem natChars_headI_digit (k : Nat) : isDigit (natChars k).headI = true := by
  have hall := natChars_all_digits k
  rcases hk : natChars k with _ | ⟨d, ds⟩
  · exact absurd hk (natChars_ne_nil k)
  · rw [hk] at hall
    simp only [List.all_cons, Bool.and_eq_true] at hall
    simpa using hall.1

theorem parseFuzzy_pos (p : Pos) (k : Nat) (t : Line) :
    parseFuzzy (p.mark ++ natChars k ++ t) = (posMk p, posFz p, natChars k ++ t) := by
  cases p with
  | exact n =>
    simp only [Pos.mark, List.nil_append]
    rcases hk : natChars k with _ | ⟨d, ds⟩
    · exact absurd hk (natChars_ne_nil k)
    · have hd : isDigit d = true := by
        have := natChars_headI_digit k
        rw [hk] at this
        simpa using this
      have h1 : d ≠ '<' := ne_of_pred hd (by decide)
      have h2 : d ≠ '>' := ne_of_pred hd (by decide)
      simp [parseFuzzy, h1, h2, posMk, posFz]
  | before n =>
    simp [Pos.mark, parseFuzzy, posMk, posFz]
  | after n =>
    simp [Pos.mark, parseFuzzy, posMk, posFz]

theorem parseSimple_range (lo hi : Pos) (rest : Line) (hend : endOk rest = true) :
    parseSimple (locChars (.range lo hi) ++ rest) = some (.range lo hi, rest) := by
  have hshape : locChars (.range lo hi) ++ rest =
      lo.mark ++ natChars (lo.val + 1) ++
        ('.' :: '.' :: (hi.mark ++ natChars hi.val ++ rest)) := by
    simp [locChars, startChars, endChars, List.append_assoc]
  rw [hshape, parseSimple, parseFuzzy_pos lo (lo.val + 1)]
  have htw := takeWhile_all_append isDigit (natChars (lo.val + 1))
    ('.' :: '.' :: (hi.mark ++ natChars hi.val ++ rest))
    (natChars_all_digits _) (Or.inr (by simp [List.headI]; decide))
  simp only [htw.1, htw.2]
  rw [if_neg (natChars_ne_nil _)]
  simp only [List.take, List.drop, if_true]
  rw [parseFuzzy_pos hi hi.val]
  have htw2 := takeWhile_all_append isDigit (natChars hi.val) rest
    (natChars_all_digits _) (endOk_not_digit hend)
  simp only [htw2.1, htw2.2]
  rw [if_neg (natChars_ne_nil _), if_neg (by simp [natVal_natChars])]
  simp [natVal_natChars, posMk_val]

theorem parseSimple_between (n : Nat) (rest : Line) (hend : endOk rest = true) :
    parseSimple (locChars (.between n) ++ rest) = some (.between n, rest) := by
  have hshape : locChars (.between n) ++ rest =
      (Pos.exact 0).mark ++ natChars n ++ ('^' :: (natChars (n + 1) ++ rest)) := by
    simp [locChars, Pos.mark, List.append_assoc]
  rw [hshape, parseSimple, parseFuzzy_pos (Pos.exact 0) n]
  have htw := takeWhile_all_append isDigit (natChars n)
    ('^' :: (natChars (n + 1) ++ rest)) (natChars_all_digits _)
    (Or.inr (by simp [List.headI]; decide))
  simp only [htw.1, htw.2]
  rw [if_neg (natChars_ne_nil _)]
  have hne : ('^' :: (natChars (n + 1) ++ rest)).take 2 ≠ ['.', '.'] := by
    intro hcontra
    have h1 : '^' = '.' := by
      have h2 := congrArg List.headI hcontra
      simp only [List.headI] at h2
      exact h2
    exact absurd h1 (by decide)
  rw [if_neg hne]
  simp only [List.take, List.drop, if_true]
  simp only [posFz, Bool.false_eq_true, if_false]
  have htw2 := takeWhile_all_append isDigit (natChars (n + 1)) rest
    (natChars_all_digits _) (endOk_not_digit hend)
  simp only [htw2.1, htw2.2]
  rw [if_neg (natChars_ne_nil _)]
  simp [natVal_natChars]

theorem locSize_pos (l : Location) : 1 ≤ locSize l := by
  cases l <;> simp [locSize]

theorem locListSize_pos (ls : LocList) : 1 ≤ locListSize ls := by
  cases ls with
  | nil => simp [locListSize]
  | cons l ls =>
    have := locSize_pos l
    simp [locListSize]
    omega

theorem locChars_ne_nil (l : Location) : locChars l ≠ [] := by
  cases l <;>
    simp [locChars, startChars, List.append_eq_nil, natChars_ne_nil]

theorem endOk_paren (t : Line) : endOk (')' :: t) = true := rfl

theorem endOk_comma (t : Line) : endOk (',' :: t) = true := rfl

theorem endOk_of_endOkL {t : Line} (h : endOkL t = true) : endOk t = true := by
  cases t with
  | nil => rfl
  | cons c cs =>
    simp only [endOkL, decide_eq_true_eq] at h
    subst h
    rfl

theorem ne_nil_of_append_loc (l : Location) (rest : Line) :
    ∃ c cs, locChars l ++ rest = c :: cs := by
  rcases hl : locChars l ++ rest with _ | ⟨c, cs⟩
  · rw [List.append_eq_nil] at hl
    exact absurd hl.1 (locChars_ne_nil l)
  · exact ⟨c, cs, rfl⟩

mutual
theorem parseLocF_inv : ∀ (l : Location) (rest : Line) (fuel : Nat),
    locWF l = true → locSize l ≤ fuel → endOk rest = true →
    parseLocF fuel (locChars l ++ rest) = some (l, rest)
  | .range lo hi, rest, fuel, _, hsz, hend => by
    obtain ⟨f, rfl⟩ : ∃ f, fuel = f + 1 :=
      ⟨fuel - 1, by simp [locSize] at hsz; omega⟩
    obtain ⟨c, cs, hcons⟩ := ne_nil_of_append_loc (.range lo hi) rest
    have hc : c = (locChars (Location.range lo hi)).headI := by
      have h2 := headI_append_ne_nil (locChars (Location.range lo hi)) rest
        (locChars_ne_nil _)
      rw [hcons] at h2
      exact h2
    have hnum : c = '<' ∨ c = '>' ∨ isDigit c = true := by
      rw [hc]
      cases lo with
      | exact n =>
        right; right
        have h3 : (locChars (Location.range (Pos.exact n) hi)).headI =
            (natChars (n + 1)).headI := by
          simp only [locChars, startChars, Pos.mark, Pos.val, List.nil_append,
            List.append_assoc]
          exact headI_append_ne_nil _ _ (natChars_ne_nil _)
        rw [h3]
        exact natChars_headI_digit _
      | before n =>
        left
        simp [locChars, startChars, Pos.mark]
      | after n =>
        right; left
        simp [locChars, startChars, Pos.mark]
    rw [hcons]
    simp only [parseLocF]
    rw [if_pos hnum, ← hcons]
    exact parseSimple_range lo hi rest hend
  | .between n, rest, fuel, _, hsz, hend => by
    obtain ⟨f, rfl⟩ : ∃ f, fuel = f + 1 :=
      ⟨fuel - 1, by simp [locSize] at hsz; omega⟩
    obtain ⟨c, cs, hcons⟩ := ne_nil_of_append_loc (.between n) rest
    have hc : c = (locChars (Location.between n)).headI := by
      have h2 := headI_append_ne_nil (locChars (Location.between n)) rest
        (locChars_ne_nil _)
      rw [hcons] at h2
      exact h2
    have hnum : c = '<' ∨ c = '>' ∨ isDigit c = true := by
      rw [hc]
      right; right
      have h3 : (locChars (Location.between n)).headI = (natChars n).headI := by
        simp only [locChars, List.append_assoc]
        exact headI_append_ne_nil _ _ (natChars_ne_nil _)
      rw [h3]
      exact natChars_headI_digit _
    rw [hcons]
    simp only [parseLocF]
    rw [if_pos hnum, ← hcons]
    exact parseSimple_between n rest hend
  | .complement inner, rest, fuel, hwf, hsz, hend => by
    obtain ⟨f, rfl⟩ : ∃ f, fuel = f + 1 :=
      ⟨fuel - 1, by have := locSize_pos (Location.complement inner); omega⟩
    have hsz2 : locSize inner ≤ f := by simp [locSize] at hsz; omega
    have hwf2 : locWF inner = true := by simpa [locWF] using hwf
    have hshape : locChars (Location.complement inner) ++ rest =
        str "complement(" ++ (locChars inner ++ (')' :: rest)) := by
      simp [locChars, List.append_assoc]
    rw [hshape]
    have IH := parseLocF_inv inner (')' :: rest) f hwf2 hsz2 (endOk_paren rest)
    show closeParen (parseLocF f (locChars inner ++ (')' :: rest)))
        Location.complement = some (Location.complement inner, rest)
    rw [IH]
    rfl
  | .join ls, rest, fuel, hwf, hsz, hend => by
    obtain ⟨f, rfl⟩ : ∃ f, fuel = f + 1 :=
      ⟨fuel - 1, by have := locSize_pos (Location.join ls); omega⟩
    have hsz2 : locListSize ls ≤ f := by simp [locSize] at hsz; omega
    have hwf2 : locListWF ls = true := by simpa [locWF] using hwf
    have hshape : locChars (Location.join ls) ++ rest =
        str "join(" ++ (locListChars ls ++ (')' :: rest)) := by
      simp [locChars, List.append_assoc]
    rw [hshape]
    have IH := parseLocListF_inv ls (')' :: rest) f hwf2 hsz2 rfl
    show closeParenL (parseLocListF f (locListChars ls ++ (')' :: rest)))
        Location.join = some (Location.join ls, rest)
    rw [IH]
    rfl
  | .order ls, rest, fuel, hwf, hsz, hend => by
    obtain ⟨f, rfl⟩ : ∃ f, fuel = f + 1 :=
      ⟨fuel - 1, by have := locSize_pos (Location.order ls); omega⟩
    have hsz2 : locListSize ls ≤ f := by simp [locSize] at hsz; omega
    have hwf2 : locListWF ls = true := by simpa [locWF] using hwf
    have hshape : locChars (Location.order ls) ++ rest =
        str "order(" ++ (locListChars ls ++ (')' :: rest)) := by
      simp [locChars, List.append_assoc]
    rw [hshape]
    have IH := parseLocListF_inv ls (')' :: rest) f hwf2 hsz2 rfl
    show closeParenL (parseLocListF f (locListChars ls ++ (')' :: rest)))
        Location.order = some (Location.order ls, rest)
    rw [IH]
    rfl
  | .bond ls, rest, fuel, hwf, hsz, hend => by
    obtain ⟨f, rfl⟩ : ∃ f, fuel = f + 1 :=
      ⟨fuel - 1, by have := locSize_pos (Location.bond ls); omega⟩
    have hsz2 : locListSize ls ≤ f := by simp [locSize] at hsz; omega
    have hwf2 : locListWF ls = true := by simpa [locWF] using hwf
    have hshape : locChars (Location.bond ls) ++ rest =
        str "bond(" ++ (locListChars ls ++ (')' :: rest)) := by
      simp [locChars, List.append_assoc]
    rw [hshape]
    have IH := parseLocListF_inv ls (')' :: rest) f hwf2 hsz2 rfl
    show closeParenL (parseLocListF f (locListChars ls ++ (')' :: rest)))
        Location.bond = some (Location.bond ls, rest)
    rw [IH]
    rfl
  | .oneOf ls, rest, fuel, hwf, hsz, hend => by
    obtain ⟨f, rfl⟩ : ∃ f, fuel = f + 1 :=
      ⟨fuel - 1, by have := locSize_pos (Location.oneOf ls); omega⟩
    have hsz2 : locListSize ls ≤ f := by simp [locSize] at hsz; omega
    have hwf2 : locListWF ls = true := by simpa [locWF] using hwf
    have hshape : locChars (Location.oneOf ls) ++ rest =
        str "one-of(" ++ (locListChars ls ++ (')' :: rest)) := by
      simp [locChars, List.append_assoc]
    rw [hshape]
    have IH := parseLocListF_inv ls (')' :: rest) f hwf2 hsz2 rfl
    show closeParenL (parseLocListF f (locListChars ls ++ (')' :: rest)))
        Location.oneOf = some (Location.oneOf ls, rest)
    rw [IH]
    rfl
  | .external acc inner, rest, fuel, hwf, hsz, hend => by
    obtain ⟨f, rfl⟩ : ∃ f, fuel = f + 1 :=
      ⟨fuel - 1, by have := locSize_pos (Location.external acc inner); omega⟩
    have hsz2 : locSize inner ≤ f := by simp [locSize] at hsz; omega
    simp only [locWF, Bool.and_eq_true] at hwf
    obtain ⟨⟨hall, hhead⟩, hwf2⟩ := hwf
    obtain ⟨a, as, rfl⟩ : ∃ a as, acc = a :: as := by
      cases acc with
      | nil => simp at hhead
      | cons a as => exact ⟨a, as, rfl⟩
    have hida : isIdChar a = true := by
      simp only [List.all_cons, Bool.and_eq_true] at hall
      exact hall.1
    have hdig : isDigit a = false := by
      have h5 : (!isDigit a) = true := hhead
      simpa using h5
    have hshape : locChars (Location.external (a :: as) inner) ++ rest =
        a :: (as ++ (':' :: (locChars inner ++ rest))) := by
      simp [locChars, List.append_assoc]
    rw [hshape]
    simp only [parseLocF]
    have hnot : ¬ (a = '<' ∨ a = '>' ∨ isDigit a = true) := by
      push_neg
      refine ⟨ne_of_pred hida (by decide), ne_of_pred hida (by decide), ?_⟩
      simp [hdig]
    rw [if_neg hnot]
    have htw := takeWhile_all_append isIdChar (a :: as)
      (':' :: (locChars inner ++ rest)) hall
      (Or.inr (by simp only [List.headI]; decide))
    have htw1 := htw.1
    have htw2 := htw.2
    rw [List.cons_append] at htw1 htw2
    rw [htw1, htw2]
    rw [if_neg (by simp)]
    have IH := parseLocF_inv inner rest f hwf2 hsz2 hend
    show bindLoc (parseLocF f (locChars inner ++ rest))
        (Location.external (a :: as)) = some (Location.external (a :: as) inner, rest)
    rw [IH]
    rfl

theorem parseLocListF_inv : ∀ (ls : LocList) (rest : Line) (fuel : Nat),
    locListWF ls = true → locListSize ls ≤ fuel → endOkL rest = true →
    parseLocListF fuel (locListChars ls ++ rest) = some (ls, rest)
  | .nil, _, _, hwf, _, _ => by simp [locListWF] at hwf
  | .cons l .nil, rest, fuel, hwf, hsz, hend => by
    obtain ⟨f, rfl⟩ : ∃ f, fuel = f + 1 :=
      ⟨fuel - 1, by have := locListSize_pos (LocList.cons l .nil); omega⟩
    have hszl : locSize l ≤ f := by simp [locListSize] at hsz; omega
    have hwfl : locWF l = true := by simpa [locListWF] using hwf
    simp only [locListChars, parseLocListF]
    rw [parseLocF_inv l rest f hwfl hszl (endOk_of_endOkL hend)]
    cases rest with
    | nil => rfl
    | cons c cs =>
      simp only [endOkL, decide_eq_true_eq] at hend
      subst hend
      rfl
  | .cons l (.cons l2 ls2), rest, fuel, hwf, hsz, hend => by
    obtain ⟨f, rfl⟩ : ∃ f, fuel = f + 1 :=
      ⟨fuel - 1, by have := locListSize_pos (LocList.cons l (.cons l2 ls2)); omega⟩
    have hpos1 := locSize_pos l
    have hpos2 := locListSize_pos (LocList.cons l2 ls2)
    have hszl : locSize l ≤ f := by simp [locListSize] at hsz hpos2 ⊢; omega
    have hszt : locListSize (LocList.cons l2 ls2) ≤ f := by
      simp [locListSize] at hsz ⊢
      omega
    simp only [locListWF, Bool.and_eq_true] at hwf
    have hshape : locListChars (LocList.cons l (.cons l2 ls2)) ++ rest =
        locChars l ++ (',' :: (locListChars (LocList.cons l2 ls2) ++ rest)) := by
      simp [locListChars, List.append_assoc]
    rw [hshape]
    simp only [parseLocListF]
    rw [parseLocF_inv l (',' :: (locListChars (LocList.cons l2 ls2) ++ rest)) f
      hwf.1 hszl (endOk_comma _)]
    show consLoc l (parseLocListF f (locListChars (LocList.cons l2 ls2) ++ rest)) =
      some (LocList.cons l (.cons l2 ls2), rest)
    rw [parseLocListF_inv (LocList.cons l2 ls2) rest f hwf.2 hszt hend]
    rfl
end

mutual
theorem locSize_le : ∀ (l : Location), locSize l ≤ (locChars l).length + 1
  | .range lo hi => by simp [locSize]
  | .between n => by simp [locSize]
  | .complement inner => by
    have := locSize_le inner
    have hlen : (str "complement(").length = 11 := rfl
    have hlen2 : ([')'] : Line).length = 1 := rfl
    simp only [locSize, locChars, List.length_append]
    omega
  | .join ls => by
    have := locListSize_le ls
    have hlen : (str "join(").length = 5 := rfl
    have hlen2 : ([')'] : Line).length = 1 := rfl
    simp only [locSize, locChars, List.length_append]
    omega
  | .order ls => by
    have := locListSize_le ls
    have hlen : (str "order(").length = 6 := rfl
    have hlen2 : ([')'] : Line).length = 1 := rfl
    simp only [locSize, locChars, List.length_append]
    omega
  | .bond ls => by
    have := locListSize_le ls
    have hlen : (str "bond(").length = 5 := rfl
    have hlen2 : ([')'] : Line).length = 1 := rfl
    simp only [locSize, locChars, List.length_append]
    omega
  | .oneOf ls => by
    have := locListSize_le ls
    have hlen : (str "one-of(").length = 7 := rfl
    have hlen2 : ([')'] : Line).length = 1 := rfl
    simp only [locSize, locChars, List.length_append]
    omega
  | .external acc inner => by
    have := locSize_le inner
    simp only [locSize, locChars, List.length_append, List.length_cons]
    omega

theorem locListSize_le : ∀ (ls : LocList), locListSize ls ≤ (locListChars ls).length + 2
  | .nil => by simp [locListSize]
  | .cons l .nil => by
    have := locSize_le l
    simp only [locListSize, locListChars, locListSize]
    omega
  | .cons l (.cons l2 ls2) => by
    have h1 := locSize_le l
    have h2 := locListSize_le (LocList.cons l2 ls2)
    have hd : locListSize (LocList.cons l2 ls2) = locSize l2 + locListSize ls2 := rfl
    simp only [locListSize, locListChars, List.length_append, List.length_cons]
    omega
end

theorem parseLoc_locChars (l : Location) (hwf : locWF l = true) :
    parseLoc (locChars l) = some l := by
  rw [parseLoc]
  have h := parseLocF_inv l [] ((locChars l).length + 1) hwf (locSize_le l) rfl
  rw [List.append_nil] at h
  rw [h]

/-- Parse error taxonomy (spec §7): syntax and validation errors. -/
inductive ParseErr where
  | badLocus : ParseErr
  | badDate : ParseErr
  | badLocation : ParseErr
  | badQualifier : ParseErr
  | badSequence : ParseErr
  | badReference : ParseErr
  | noLocus : ParseErr
  | truncated : ParseErr
  | lengthMismatch : Nat → Nat → ParseErr
deriving DecidableEq, Repr

/-- Index (1-based) of a month abbreviation. -/
def monthIndexAux : List Line → Nat → Line → Option Nat
  | [], _, _ => none
  | m :: ms, i, x => if m = x then some i else monthIndexAux ms (i + 1) x

/-- Look a month abbreviation up in the month table. -/
def monthIndex (x : Line) : Option Nat := monthIndexAux monthNames 1 x

/-- Upper-case a line (for case-insensitive month matching). -/
def toUpperLine (l : Line) : Line := l.map Char.toUpper

/-- Parse a DD-MON-YYYY date; the month abbreviation is matched
case-insensitively and an out-of-range day is a hard error. -/
def parseDate (l : Line) : Except ParseErr Date :=
  match splitCh '-' l with
  | [dd, mon, yy] =>
    match parseNat? dd, monthIndex (toUpperLine mon), parseNat? yy with
    | some day, some month, some year =>
      if 1 ≤ day ∧ day ≤ 31 then .ok ⟨year, month, day⟩ else .error .badDate
    | _, _, _ => .error .badDate
  | _ => .error .badDate

/-- Recognize a topology keyword. -/
def parseTopology (t : Line) : Option Topology :=
  if t = str "linear" then some .linear
  else if t = str "circular" then some .circular
  else none

/-- Typed fields of a LOCUS line. -/
structure LocusInfo where
  name : Line
  declared : Nat
  molecule_type : Option Line
  topology : Topology
  division : Line
  date : Option Date

/-- Division, then an optional date token. -/
def finishLocus (name : Line) (len : Nat) (mol : Option Line) (topo : Topology) :
    List Line → Except ParseErr LocusInfo
  | [dv] => .ok ⟨name, len, mol, topo, dv, none⟩
  | [dv, d] =>
    match parseDate d with
    | .ok date => .ok ⟨name, len, mol, topo, dv, some date⟩
    | .error e => .error e
  | _ => .error .badLocus

/-- Fixed-column LOCUS tokenizer (spec §4.4): name, residue count,
"bp", optional molecule type, topology, division, optional date. -/
def parseLocusFields (toks : List Line) : Except ParseErr LocusInfo :=
  match toks with
  | _ :: name :: lenTok :: bp :: rest =>
    if bp = str "bp" then
      match parseNat? lenTok with
      | none => .error .badLocus
      | some len =>
        match rest with
        | t :: rest2 =>
          match parseTopology t with
          | some topo => finishLocus name len none topo rest2
          | none =>
            match rest2 with
            | t2 :: rest3 =>
              match parseTopology t2 with
              | some topo => finishLocus name len (some t) topo rest3
              | none => .error .badLocus
            | [] => .error .badLocus
        | [] => .error .badLocus
    else .error .badLocus
  | _ => .error .badLocus

/-- Parse a LOCUS line. -/
def parseLocus (l : Line) : Except ParseErr LocusInfo := parseLocusFields (tokens l)

/-- Strip leading spaces. -/
def stripLead (l : Line) : Line := l.dropWhile (fun c => c = ' ')

/-- Split at a separator and strip the spaces that follow it. -/
def splitStrip (sep : Char) (l : Line) : List Line := (splitCh sep l).map stripLead

/-- Content of a 12-column-prefixed section line. -/
def drop12 (l : Line) : Line := l.drop 12

/-- A reference or source sub-label line has a non-space among its
first 12 columns. -/
def isSubLabel (l : Line) : Bool := !((l.take 12).all (fun c => c = ' '))

/-- A continuation line is empty or starts with a space. -/
def isContLine (l : Line) : Bool :=
  match l with
  | [] => true
  | c :: _ => c = ' '

/-- Parse the SOURCE section: organism name from the label line, the
lineage from an ORGANISM sub-line (joined entries split at "; "). -/
def parseSource (g : List Line) : Source :=
  match g with
  | [] => ⟨[], []⟩
  | first :: conts =>
    let subs := groupByLabel isSubLabel conts.length conts
    let lineage := subs.foldl (fun acc sub =>
      match sub with
      | [] => acc
      | sl :: _ =>
        if (tokens sl).headI = str "ORGANISM" then splitStrip ';' (drop12 sl) else acc) []
    ⟨drop12 first, lineage⟩

/-- Fold one sub-block (AUTHORS, TITLE, JOURNAL, PUBMED, REMARK) into a
reference under construction. -/
def parseRefSub (r : Reference) (sub : List Line) : Except ParseErr Reference :=
  match sub with
  | [] => .ok r
  | sl :: _ =>
    let kw := (tokens sl).headI
    let content := drop12 sl
    if kw = str "AUTHORS" then .ok { r with authors := splitStrip ',' content }
    else if kw = str "TITLE" then .ok { r with title := some content }
    else if kw = str "JOURNAL" then .ok { r with journal := some content }
    else if kw = str "PUBMED" then
      match parseNat? content with
      | some n => .ok { r with pubmed := some n }
      | none => .error .badReference
    else if kw = str "REMARK" then .ok { r with remark := some content }
    else .ok r

/-- Parse one REFERENCE block (the numbering on the label line is
positional and ignored). -/
def parseReference (g : List Line) : Except ParseErr Reference :=
  match g with
  | [] => .ok ⟨[], none, none, none, none⟩
  | _ :: conts =>
    (groupByLabel isSubLabel conts.length conts).foldlM parseRefSub
      ⟨[], none, none, none, none⟩

/-- A feature key line: five spaces, then a non-space at column 5. -/
def isFeatureStart (l : Line) : Bool :=
  (l.take 5 = spaces 5) &&
    (match l.drop 5 with
     | [] => false
     | c :: _ => decide (c ≠ ' '))

/-- A qualifier content line starts with a slash. -/
def isQualStart : Line → Bool
  | [] => false
  | c :: _ => c = '/'

/-- Parse one qualifier from its grouped content lines: continuation
lines of a "/translation" value are concatenated directly, every other
multi-line value is rejoined with single spaces; a surrounding pair of
double quotes is stripped (spec §4.3). -/
def parseQualGroup (g : List Line) : Except ParseErr Qualifier :=
  match g with
  | [] => .error .badQualifier
  | g0 :: conts =>
    match g0 with
    | '/' :: krest =>
      let key := krest.takeWhile (fun c => c ≠ '=')
      let full := if key = str "translation" then (g0 :: conts).flatten
        else joinSp (g0 :: conts)
      match full with
      | '/' :: rest =>
        let key2 := rest.takeWhile (fun c => c ≠ '=')
        let after := rest.dropWhile (fun c => c ≠ '=')
        match after with
        | '=' :: v =>
          if 2 ≤ v.length ∧ v.headI = '"' ∧ v.getLast? = some '"' then
            .ok ⟨key2, some ((v.drop 1).dropLast)⟩
          else .ok ⟨key2, some v⟩
        | _ => .ok ⟨key2, none⟩
      | _ => .error .badQualifier
    | _ => .error .badQualifier

/-- Parse one feature: key and location from the key line (plus any
location continuation lines), then the qualifier groups. -/
def parseFeature (g : List Line) : Except ParseErr Feature :=
  match g with
  | [] => .error .badLocation
  | f0 :: conts =>
    let contents := conts.map (fun l => l.drop 21)
    let locConts := (takeNonLabel isQualStart contents).1
    let qlines := (takeNonLabel isQualStart contents).2
    match tokens f0 with
    | [kind, locStr] =>
      match parseLoc (locStr ++ locConts.flatten) with
      | some loc =>
        match (groupByLabel isQualStart qlines.length qlines).mapM parseQualGroup with
        | .ok quals => .ok ⟨kind, loc, quals⟩
        | .error e => .error e
      | none => .error .badLocation
    | _ => .error .badLocation

/-- Parse the FEATURES section into its ordered feature list. -/
def parseFeatures (g : List Line) : Except ParseErr (List Feature) :=
  match g with
  | [] => .ok []
  | _ :: body =>
    (groupByLabel isFeatureStart body.length body).mapM parseFeature

/-- Strip the position prefix and whitespace of one ORIGIN line. -/
def parseSeqLine (l : Line) : Line :=
  ((l.dropWhile (fun c => c = ' ')).dropWhile isDigit).filter (fun c => c ≠ ' ')

/-- Parse the ORIGIN section, validating the residue alphabet. -/
def parseOrigin (g : List Line) : Except ParseErr Line :=
  match g with
  | [] => .ok []
  | _ :: body =>
    let s := body.flatMap parseSeqLine
    if s.all isResidue then .ok s else .error .badSequence

/-- A record under assembly. -/
structure PartialRecord where
  locus : LocusInfo
  definition : Option Line
  source : Option Source
  references : List Reference
  features : List Feature
  sequence : Line

/-- Keyword of a scanned section. -/
def sectionKeyword (g : List Line) : Line := (tokens g.headI).headI

/-- Route one scanned section to its field parser (spec §4.4); unknown
sections are dropped. -/
def applySection (pr : PartialRecord) (g : List Line) : Except ParseErr PartialRecord :=
  let kw := sectionKeyword g
  if kw = str "DEFINITION" then .ok { pr with definition := some (drop12 g.headI) }
  else if kw = str "SOURCE" then .ok { pr with source := some (parseSource g) }
  else if kw = str "REFERENCE" then
    match parseReference g with
    | .ok r => .ok { pr with references := pr.references ++ [r] }
    | .error e => .error e
  else if kw = str "FEATURES" then
    match parseFeatures g with
    | .ok fs => .ok { pr with features := fs }
    | .error e => .error e
  else if kw = str "ORIGIN" then
    match parseOrigin g with
    | .ok s => .ok { pr with sequence := s }
    | .error e => .error e
  else .ok pr

/-- Enforce the declared-length invariant and build the record
(spec §3/§4.4): a declared residue count different from the assembled
sequence length is a validation error, not silently corrected. -/
def finalize (pr : PartialRecord) : Except ParseErr Record :=
  if pr.locus.declared = pr.sequence.length then
    .ok ⟨pr.locus.name, pr.locus.molecule_type, pr.locus.topology, pr.locus.division,
      pr.locus.date, pr.definition, pr.source, pr.references, pr.features, pr.sequence⟩
  else .error (.lengthMismatch pr.locus.declared pr.sequence.length)

/-- Parse the body of one record (its lines without the terminator):
scan sections, assemble, finalize.  Fail-fast: the first error aborts
and no partial record is produced. -/
def parseRecordBody (body : List Line) : Except ParseErr Record :=
  match groupByLabel (fun l => !(isContLine l)) body.length body with
  | [] => .error .noLocus
  | g :: gs =>
    if sectionKeyword g = str "LOCUS" then
      match parseLocus g.headI with
      | .ok locus =>
        match gs.foldlM applySection ⟨locus, none, none, [], [], []⟩ with
        | .ok pr => finalize pr
        | .error e => .error e
      | .error e => .error e
    else .error .noLocus

/-- Lines of the next record body and the lines after its terminator
(`none` when no terminator is present). -/
def takeBody : List Line → List Line × Option (List Line)
  | [] => ([], none)
  | l :: ls =>
    if l = str "//" then ([], some ls)
    else ((l :: (takeBody ls).1), (takeBody ls).2)

/-- Split a stream of lines into complete record bodies and the
leftover after the last terminator.  The Nat is fuel; the number of
lines is enough. -/
def splitRecsF : Nat → List Line → List (List Line) × List Line
  | _, [] => ([], [])
  | 0, ls => ([], ls)
  | fuel + 1, l :: ls =>
    match takeBody (l :: ls) with
    | (body, some rest) =>
      ((body :: (splitRecsF fuel rest).1), (splitRecsF fuel rest).2)
    | (_, none) => ([], l :: ls)

/-- A line of nothing but spaces. -/
def isBlank (l : Line) : Bool := l.all (fun c => c = ' ')

/-- Modelled from the spec: `gb_io.load` over a stream of lines — parse
every complete record eagerly; non-blank trailing lines without a
terminator are a truncation error. -/
def load (lines : List Line) : Except ParseErr (List Record) :=
  let sp := splitRecsF lines.length lines
  if sp.2.all isBlank then sp.1.mapM parseRecordBody
  else .error .truncated

/-- Modelled from the spec: one pull of the streaming record reader —
the next record (or error) and the remaining lines, or `none` at a
clean end of stream. -/
def readerNext (lines : List Line) : Option (Except ParseErr Record × List Line) :=
  match takeBody lines with
  | (body, some rest) => some (parseRecordBody body, rest)
  | (_, none) => if lines.all isBlank then none else some (.error .truncated, [])

/-- Drive the streaming reader to exhaustion; the Nat is fuel. -/
def iterAux : Nat → List Line → Except ParseErr (List Record)
  | 0, _ => .error .truncated
  | fuel + 1, lines =>
    match readerNext lines with
    | none => .ok []
    | some (.error e, _) => .error e
    | some (.ok r, rest) =>
      match iterAux fuel rest with
      | .ok rs => .ok (r :: rs)
      | .error e => .error e

/-- Modelled from the spec: `gb_io.iter` — the lazy record sequence,
collected in order by repeatedly pulling the streaming reader. -/
def iter (lines : List Line) : Except ParseErr (List Record) :=
  iterAux (lines.length + 1) lines

/-- A load failure: an I/O error of the underlying stream propagated
unchanged, or the codec's own syntax/validation error. -/
inductive LoadErr (ε : Type) where
  | io : ε → LoadErr ε
  | syntaxErr : ParseErr → LoadErr ε

/-- Modelled from the spec (§4.5): the streaming reader over a chunked
source whose reads may fail.  Lines are buffered; each complete record
is parsed as soon as its terminator arrives (fail-fast on syntax
errors); a failing read propagates its error object unchanged. -/
def loadChunks {ε : Type} : List (Except ε (List Line)) → List Line →
    Except (LoadErr ε) (List Record)
  | [], buffer =>
    match load buffer with
    | .ok rs => .ok rs
    | .error e => .error (.syntaxErr e)
  | .error e :: _, _ => .error (.io e)
  | .ok chunk :: rest, buffer =>
    let buf2 := buffer ++ chunk
    let sp := splitRecsF buf2.length buf2
    match sp.1.mapM parseRecordBody with
    | .error e => .error (.syntaxErr e)
    | .ok rs =>
      match loadChunks rest sp.2 with
      | .ok rs2 => .ok (rs ++ rs2)
      | .error e => .error e

/-- Modelled from the spec: `gb_io.load` over a raw chunked stream. -/
def loadStream {ε : Type} (chunks : List (Except ε (List Line))) :
    Except (LoadErr ε) (List Record) :=
  loadChunks chunks []

/-- Modelled from the spec (§6): what a file-system path names. -/
inductive PathTarget where
  | file : List Line → PathTarget
  | directory : PathTarget
  | missing : PathTarget
  | unwritable : PathTarget

/-- OS-level I/O errors surfaced by the path adapters. -/
inductive OSErr where
  | isADirectory : OSErr
  | notFound : OSErr
  | permissionDenied : OSErr
deriving DecidableEq, Repr

/-- A path-level load failure: an OS error or a codec error. -/
inductive LoadPathErr where
  | os : OSErr → LoadPathErr
  | syntaxErr : ParseErr → LoadPathErr

/-- Modelled from the spec (§6): `load` from a file-system path —
directories and missing or unreadable files surface as OS errors,
never as silent successes. -/
def loadPath (target : PathTarget) : Except LoadPathErr (List Record) :=
  match target with
  | .file contents =>
    match load contents with
    | .ok rs => .ok rs
    | .error e => .error (.syntaxErr e)
  | .directory => .error (.os .isADirectory)
  | .missing => .error (.os .notFound)
  | .unwritable => .error (.os .permissionDenied)

/-- Modelled from the spec (§6): `dump` to a file-system path — the
records are serialized to the destination; directories and unwritable
destinations surface as OS errors, never as silent no-ops. -/
def dumpPath (target : PathTarget) (rs : List Record) : Except OSErr (List Line) :=
  match target with
  | .file _ => .ok (dump rs)
  | .missing => .ok (dump rs)
  | .directory => .error .isADirectory
  | .unwritable => .error .permissionDenied

/-!
Well-formedness of a record for the writer (spec §4.6 failure modes:
"writing fails if handed a value outside a field's representable
range").  A record produced by the parser from a well-formed file
satisfies these conditions; they are exactly what fixed-column layout
and wrapping can represent faithfully.
-/

/-- A single whitespace-free token. -/
def isWordTok (l : Line) : Bool := (decide (l ≠ [])) && l.all (fun c => c ≠ ' ')

/-- A list entry joined by a separator: non-empty, free of the
separator, not starting with a space. -/
def wfEntry (sep : Char) (l : Line) : Bool :=
  (decide (l ≠ [])) && l.all (fun c => c ≠ sep) && decide (l.headI ≠ ' ')

/-- Valid calendar date fields. -/
def wfDate (d : Date) : Bool :=
  decide (1 ≤ d.day) && decide (d.day ≤ 31) && decide (1 ≤ d.month) && decide (d.month ≤ 12)

/-- Well-formed qualifier: a representable key, and a value whose
wrapped lines can never be mistaken for a new qualifier. -/
def wfQualifier (q : Qualifier) : Bool :=
  (decide (q.key ≠ [])) && q.key.all (fun c => c ≠ ' ' && c ≠ '=') &&
  (match q.value with
   | none => true
   | some v =>
     if q.key = str "translation" then v.all (fun c => c ≠ '/')
     else ((splitSp (qualFull q)).tail).all (fun p => decide (p.headI ≠ '/')))

/-- Well-formed feature: token key fitting its column, well-formed
location, well-formed qualifiers. -/
def wfFeature (f : Feature) : Bool :=
  isWordTok f.kind && decide (f.kind.length ≤ 15) && locWF f.location &&
    f.qualifiers.all wfQualifier

/-- Well-formed reference: representable author entries. -/
def wfReference (r : Reference) : Bool :=
  r.authors.all (wfEntry ',')

/-- Well-formed source: representable lineage entries. -/
def wfSource (s : Source) : Bool :=
  s.lineage.all (wfEntry ';')

/-- Modelled from the spec: a record the writer can represent
faithfully in the fixed-column GenBank layout. -/
def WFRecord (r : Record) : Bool :=
  isWordTok r.name &&
  (match r.molecule_type with
   | none => true
   | some m => isWordTok m && decide (m ≠ str "linear") && decide (m ≠ str "circular")) &&
  isWordTok r.division &&
  (match r.date with
   | none => true
   | some d => wfDate d) &&
  (match r.source with
   | none => true
   | some s => wfSource s) &&
  r.references.all wfReference &&
  r.features.all wfFeature &&
  r.sequence.all isResidue &&
  decide (r.sequence.length < 100000000)

theorem ne_term_of_headI {l : Line} (h : l.headI ≠ '/') : l ≠ str "//" := by
  intro he
  subst he
  exact h rfl

theorem spaces_merge (a b : Nat) (x : Line) :
    spaces a ++ (spaces b ++ x) = spaces (a + b) ++ x := by
  rw [spaces, spaces, spaces, ← List.append_assoc, ← List.replicate_add]

theorem spaces_succ_cons (k : Nat) : spaces (k + 1) = ' ' :: spaces k := by
  simp [spaces, List.replicate_succ]

theorem spaces_pos_cons {k : Nat} (h : 1 ≤ k) : spaces k = ' ' :: spaces (k - 1) := by
  obtain ⟨j, rfl⟩ : ∃ j, k = j + 1 := ⟨k - 1, by omega⟩
  simp [spaces_succ_cons]

theorem drop_prefix_append (a b : Line) : (a ++ b).drop a.length = b := by
  simp

theorem headI_spaces_append (k : Nat) (x : Line) (h : 1 ≤ k) :
    (spaces k ++ x).headI = ' ' := by
  rw [spaces_pos_cons h]
  rfl

theorem natChars_length_le {n k : Nat} (hk : 1 ≤ k) (h : n < 10 ^ k) :
    (natChars n).length ≤ k := by
  induction n using Nat.strong_induction_on generalizing k with
  | _ n ih =>
    by_cases h10 : n < 10
    · simp [natChars_lt h10]
      omega
    · have hk2 : 2 ≤ k := by
        by_contra hcon
        have : k = 1 := by omega
        subst this
        simp at h
        omega
      have hdiv : n / 10 < 10 ^ (k - 1) := by
        have h2 : 10 ^ k = 10 ^ (k - 1) * 10 := by
          conv_lhs => rw [show k = (k - 1) + 1 by omega]
          rw [Nat.pow_succ]
        rw [Nat.div_lt_iff_lt_mul (by norm_num)]
        omega
      have := ih (n / 10) (div_ten_lt h10) (k := k - 1) (by omega) hdiv
      rw [natChars_step h10]
      simp only [List.length_append, List.length_cons, List.length_nil]
      omega

theorem parseNat_pad2 {d : Nat} : parseNat? (pad2 d) = some d := by
  rw [pad2]
  by_cases h : d < 10
  · rw [if_pos h, parseNat?]
    rw [if_pos ⟨by simp, by simp [natChars_all_digits]; decide⟩]
    simp only [List.foldl_cons]
    have h0 : (10 * 0 + digitVal '0' : Nat) = 0 := by decide
    rw [h0, foldl_natChars]
    simp
  · rw [if_neg h]
    exact parseNat_natChars d

theorem pad2_no_space (d : Nat) : (pad2 d).all (fun c => c ≠ ' ') = true := by
  have hdig : (pad2 d).all isDigit = true := by
    rw [pad2]
    by_cases h : d < 10
    · simp [h, natChars_all_digits]
      decide
    · simp [h, natChars_all_digits]
  rw [List.all_eq_true] at hdig ⊢
  intro c hc
  have := hdig c hc
  simp only [decide_eq_true_eq]
  exact ne_of_pred this (by decide)

theorem pad2_ne_nil (d : Nat) : pad2 d ≠ [] := by
  rw [pad2]
  by_cases h : d < 10
  · simp [h]
  · simp [h, natChars_ne_nil]

theorem natChars_no_space (n : Nat) : (natChars n).all (fun c => c ≠ ' ') = true := by
  have hdig := natChars_all_digits n
  rw [List.all_eq_true] at hdig ⊢
  intro c hc
  simp only [decide_eq_true_eq]
  exact ne_of_pred (hdig c hc) (by decide)

theorem natChars_no_dash (n : Nat) : (natChars n).all (fun c => c ≠ '-') = true := by
  have hdig := natChars_all_digits n
  rw [List.all_eq_true] at hdig ⊢
  intro c hc
  simp only [decide_eq_true_eq]
  exact ne_of_pred (hdig c hc) (by decide)

theorem pad2_no_dash (d : Nat) : (pad2 d).all (fun c => c ≠ '-') = true := by
  rw [pad2]
  by_cases h : d < 10
  · simp only [if_pos h, List.all_cons, Bool.and_eq_true]
    exact ⟨by decide, natChars_no_dash d⟩
  · rw [if_neg h]
    exact natChars_no_dash d

theorem month_facts (m : Nat) (h1 : 1 ≤ m) (h2 : m ≤ 12) :
    (monthNames.getD (m - 1) []).all (fun c => c ≠ '-') = true ∧
    (monthNames.getD (m - 1) []).all (fun c => c ≠ ' ') = true ∧
    (monthNames.getD (m - 1) []) ≠ [] ∧
    monthIndex (toUpperLine (monthNames.getD (m - 1) [])) = some m := by
  interval_cases m <;> exact ⟨by decide, by decide, by decide, by decide⟩

theorem isWordTok_spec {l : Line} (h : isWordTok l = true) :
    l ≠ [] ∧ l.all (fun c => c ≠ ' ') = true := by
  rw [isWordTok, Bool.and_eq_true, decide_eq_true_eq] at h
  exact h

theorem dateChars_no_space (d : Date) (h3 : 1 ≤ d.month) (h4 : d.month ≤ 12) :
    (dateChars d).all (fun c => c ≠ ' ') = true := by
  obtain ⟨_, hm2, _, _⟩ := month_facts d.month h3 h4
  have hsh : dateChars d = pad2 d.day ++
      ('-' :: (monthNames.getD (d.month - 1) [] ++ ('-' :: natChars d.year))) := by
    rw [dateChars]
    simp [List.append_assoc]
  rw [hsh]
  simp only [List.all_append, List.all_cons, Bool.and_eq_true]
  exact ⟨pad2_no_space d.day, by decide, hm2, by decide, natChars_no_space d.year⟩

theorem dateChars_ne_nil (d : Date) : dateChars d ≠ [] := by
  rw [dateChars]
  simp [pad2_ne_nil]

theorem parseDate_dateChars (d : Date) (hwf : wfDate d = true) :
    parseDate (dateChars d) = .ok d := by
  have hfields : (1 ≤ d.day ∧ d.day ≤ 31) ∧ 1 ≤ d.month ∧ d.month ≤ 12 := by
    simp [wfDate] at hwf
    tauto
  obtain ⟨⟨h1, h2⟩, h3, h4⟩ := hfields
  obtain ⟨hm1, hm2, hm3, hm4⟩ := month_facts d.month h3 h4
  have hshape : dateChars d = pad2 d.day ++
      ('-' :: ((monthNames.getD (d.month - 1) []) ++ ('-' :: natChars d.year))) := by
    rw [dateChars]
    simp [List.append_assoc]
  have s3 : splitCh '-' (natChars d.year) = [natChars d.year] :=
    splitCh_single '-' _ (natChars_no_dash d.year)
  have s2 : splitCh '-' ((monthNames.getD (d.month - 1) []) ++ ('-' :: natChars d.year)) =
      (monthNames.getD (d.month - 1) []) :: [natChars d.year] := by
    rw [splitCh_word '-' _ _ hm1, splitCh_sep, s3]
    simp
  have s1 : splitCh '-' (dateChars d) =
      [pad2 d.day, monthNames.getD (d.month - 1) [], natChars d.year] := by
    rw [hshape, splitCh_word '-' _ _ (pad2_no_dash d.day), splitCh_sep, s2]
    simp
  rw [parseDate, s1]
  show (match parseNat? (pad2 d.day),
      monthIndex (toUpperLine (monthNames.getD (d.month - 1) [])),
      parseNat? (natChars d.year) with
    | some day, some month, some year =>
      if 1 ≤ day ∧ day ≤ 31 then Except.ok ⟨year, month, day⟩
      else Except.error ParseErr.badDate
    | _, _, _ => Except.error ParseErr.badDate) = Except.ok d
  rw [parseNat_pad2, hm4, parseNat_natChars]
  show (if 1 ≤ d.day ∧ d.day ≤ 31 then Except.ok (⟨d.year, d.month, d.day⟩ : Date)
    else Except.error ParseErr.badDate) = Except.ok d
  rw [if_pos ⟨h1, h2⟩]

theorem parseTopology_chars (t : Topology) : parseTopology t.chars = some t := by
  cases t <;> rfl

theorem topoChars_tok (t : Topology) :
    t.chars ≠ [] ∧ t.chars.all (fun c => c ≠ ' ') = true := by
  cases t <;> exact ⟨by decide, by decide⟩

/-- Date token of the LOCUS line (empty when absent). -/
def dateTailToks : Option Date → List Line
  | none => []
  | some d => [dateChars d]

/-- Molecule-type token of the LOCUS line (empty when absent). -/
def molToks : Option Line → List Line
  | none => []
  | some m => [m]

theorem tokens_date_tail (w : Line) (hw : w ≠ []) (hns : w.all (fun c => c ≠ ' ') = true)
    (date : Option Date) (hd : match date with | none => True | some d => wfDate d = true) :
    tokens (w ++ dateTailChars date) = w :: dateTailToks date := by
  cases date with
  | none =>
    rw [dateTailChars, tokens_word w [] hw hns (Or.inl rfl)]
    rfl
  | some d =>
    have hfields : 1 ≤ d.month ∧ d.month ≤ 12 := by
      simp [wfDate] at hd
      tauto
    rw [dateTailChars, tokens_word w _ hw hns (Or.inr ⟨dateChars d, rfl⟩)]
    have : (' ' :: dateChars d) = spaces 1 ++ dateChars d := by
      simp [spaces, List.replicate]
    rw [this, tokens_spaces]
    have hlast := tokens_word (dateChars d) [] (dateChars_ne_nil d)
      (dateChars_no_space d hfields.1 hfields.2) (Or.inl rfl)
    rw [List.append_nil] at hlast
    rw [hlast]
    rfl

theorem spaces_append_exists (k : Nat) (h : 1 ≤ k) (x : Line) :
    ∃ t, spaces k ++ x = ' ' :: t :=
  ⟨spaces (k - 1) ++ x, by rw [spaces_pos_cons h]; rfl⟩

theorem cons_space_eq_spaces (x : Line) : (' ' :: x) = spaces 1 ++ x := by
  simp [spaces, List.replicate]

theorem tokens_locusLineD (r : Record) (n : Nat)
    (hname : isWordTok r.name = true)
    (hmol : match r.molecule_type with
            | none => True
            | some m => isWordTok m = true)
    (hdate : match r.date with | none => True | some d => wfDate d = true)
    (hdiv : isWordTok r.division = true)
    (hn : (natChars n).length ≤ 11) :
    tokens (locusLineD r n) =
      [str "LOCUS", r.name, natChars n, str "bp"] ++ molToks r.molecule_type ++
      [r.topology.chars, r.division] ++ dateTailToks r.date := by
  obtain ⟨hname1, hname2⟩ := isWordTok_spec hname
  obtain ⟨hdiv1, hdiv2⟩ := isWordTok_spec hdiv
  have htopo := topoChars_tok r.topology
  have hdivtok := tokens_date_tail r.division hdiv1 hdiv2 r.date hdate
  have htopotok : tokens (r.topology.chars ++ (' ' :: (r.division ++
      dateTailChars r.date))) =
      r.topology.chars :: r.division :: dateTailToks r.date := by
    rw [tokens_word _ _ htopo.1 htopo.2 (Or.inr ⟨_, rfl⟩),
      cons_space_eq_spaces, tokens_spaces, hdivtok]
  have hshape : locusLineD r n =
      str "LOCUS" ++ (spaces 7 ++ (r.name ++
        (spaces ((16 - r.name.length) + (12 - (natChars n).length)) ++ (natChars n ++
          (' ' :: (str "bp" ++ (' ' :: (padRight (r.molecule_type.getD []) 10 ++
            (' ' :: (r.topology.chars ++ (' ' :: (r.division ++
              dateTailChars r.date)))))))))))) := by
    rw [locusLineD,
      show padRight r.name 16 = r.name ++ spaces (16 - r.name.length) from rfl,
      show padLeft (natChars n) 12 =
        spaces (12 - (natChars n).length) ++ natChars n from rfl,
      show str "LOCUS       " = str "LOCUS" ++ spaces 7 from by decide,
      show str " bp " = ' ' :: (str "bp" ++ [' ']) from by decide]
    simp only [List.append_assoc, List.cons_append, List.singleton_append,
      List.nil_append]
    rw [spaces_merge]
  rw [hshape]
  rw [tokens_word (str "LOCUS") _ (by decide) (by decide)
    (Or.inr (spaces_append_exists 7 (by norm_num) _))]
  rw [tokens_spaces]
  have hksp : 1 ≤ (16 - r.name.length) + (12 - (natChars n).length) := by omega
  rw [tokens_word r.name _ hname1 hname2 (Or.inr (spaces_append_exists _ hksp _))]
  rw [tokens_spaces]
  rw [tokens_word (natChars n) _ (natChars_ne_nil n) (natChars_no_space n)
    (Or.inr ⟨_, rfl⟩)]
  rw [cons_space_eq_spaces, tokens_spaces]
  rw [tokens_word (str "bp") _ (by decide) (by decide) (Or.inr ⟨_, rfl⟩)]
  rw [cons_space_eq_spaces, tokens_spaces]
  cases hmolv : r.molecule_type with
  | none =>
    simp only [Option.getD_none]
    rw [show padRight ([] : Line) 10 = spaces 10 from by simp [padRight, spaces],
      cons_space_eq_spaces, spaces_merge, tokens_spaces, htopotok]
    rfl
  | some m =>
    rw [hmolv] at hmol
    obtain ⟨hm1, hm2⟩ := isWordTok_spec hmol
    simp only [Option.getD_some]
    rw [show padRight m 10 = m ++ spaces (10 - m.length) from rfl]
    rw [List.append_assoc, cons_space_eq_spaces, spaces_merge]
    rw [tokens_word m _ hm1 hm2
      (Or.inr (spaces_append_exists _ (by omega) _))]
    rw [tokens_spaces, htopotok]
    rfl

theorem parseTopology_not (m : Line) (h1 : m ≠ str "linear") (h2 : m ≠ str "circular") :
    parseTopology m = none := by
  rw [parseTopology, if_neg h1, if_neg h2]

theorem parseLocus_locusLineD (r : Record) (n : Nat)
    (hname : isWordTok r.name = true)
    (hmol : match r.molecule_type with
            | none => True
            | some m => isWordTok m = true ∧ m ≠ str "linear" ∧ m ≠ str "circular")
    (hdate : match r.date with | none => True | some d => wfDate d = true)
    (hdiv : isWordTok r.division = true)
    (hn : (natChars n).length ≤ 11) :
    parseLocus (locusLineD r n) =
      .ok ⟨r.name, n, r.molecule_type, r.topology, r.division, r.date⟩ := by
  have hmol2 : match r.molecule_type with
      | none => True
      | some m => isWordTok m = true := by
    cases hm : r.molecule_type with
    | none => trivial
    | some m =>
      rw [hm] at hmol
      exact hmol.1
  rw [parseLocus, tokens_locusLineD r n hname hmol2 hdate hdiv hn]
  cases hmolv : r.molecule_type with
  | none =>
    cases hdatev : r.date with
    | none =>
      simp only [molToks, dateTailToks, List.append_nil, List.nil_append,
        List.cons_append]
      simp only [parseLocusFields, parseNat_natChars, parseTopology_chars,
        finishLocus]
      simp
    | some d =>
      rw [hdatev] at hdate
      simp only [molToks, dateTailToks, List.append_nil, List.nil_append,
        List.cons_append]
      simp only [parseLocusFields, parseNat_natChars, parseTopology_chars,
        finishLocus, parseDate_dateChars d hdate]
      simp
  | some m =>
    rw [hmolv] at hmol
    have hpt := parseTopology_not m hmol.2.1 hmol.2.2
    cases hdatev : r.date with
    | none =>
      simp only [molToks, dateTailToks, List.append_nil, List.nil_append,
        List.cons_append]
      simp only [parseLocusFields, parseNat_natChars, parseTopology_chars,
        finishLocus, hpt]
      simp
    | some d =>
      rw [hdatev] at hdate
      simp only [molToks, dateTailToks, List.append_nil, List.nil_append,
        List.cons_append]
      simp only [parseLocusFields, parseNat_natChars, parseTopology_chars,
        finishLocus, hpt, parseDate_dateChars d hdate]
      simp

/-- Content lines of a qualifier before the 21-column indent is added. -/
def rawQualLines (q : Qualifier) : List Line :=
  if q.key = str "translation" then chunkList qualWidth (qualFull q)
  else (wrapPieces qualWidth (splitSp (qualFull q))).map joinSp

theorem qualLines_eq (q : Qualifier) :
    qualLines q = (rawQualLines q).map (fun l => spaces 21 ++ l) := by
  rw [qualLines, rawQualLines]
  by_cases h : q.key = str "translation"
  · rw [if_pos h, if_pos h]
  · rw [if_neg h, if_neg h, List.map_map]
    rfl

theorem drop21_spaces (x : Line) : (spaces 21 ++ x).drop 21 = x := by
  have h := drop_prefix_append (spaces 21) x
  have hlen : (spaces 21).length = 21 := by simp [spaces]
  rw [hlen] at h
  exact h

theorem qualLines_stripped (q : Qualifier) :
    (qualLines q).map (fun l => l.drop 21) = rawQualLines q := by
  rw [qualLines_eq, List.map_map]
  have : ((fun l => List.drop 21 l) ∘ fun l => spaces 21 ++ l) = id := by
    funext x
    simp [drop21_spaces]
  rw [this, List.map_id]

theorem takeWhile_all (p : Char → Bool) (l : Line) (h : l.all p = true) :
    l.takeWhile p = l ∧ l.dropWhile p = [] := by
  have := takeWhile_all_append p l [] h (Or.inl rfl)
  simpa using this

theorem getLast?_concat_char (l : Line) (a : Char) : (l ++ [a]).getLast? = some a := by
  simp

theorem qualFull_flag_shape (q : Qualifier) (hv : q.value = none) :
    qualFull q = '/' :: q.key := by
  rw [qualFull, hv]
  simp

theorem qualFull_val_shape (q : Qualifier) (v : Line) (hv : q.value = some v) :
    qualFull q = '/' :: (q.key ++ ('=' :: ('"' :: (v ++ ['"'])))) := by
  rw [qualFull, hv]
  simp

theorem parse_qualFull (q : Qualifier) ( _hkey : q.key ≠ [])
    (hkeyc : q.key.all (fun c => c ≠ ' ' && c ≠ '=') = true) :
    (match qualFull q with
     | '/' :: rest =>
       let key2 := rest.takeWhile (fun c => c ≠ '=')
       let after := rest.dropWhile (fun c => c ≠ '=')
       match after with
       | '=' :: v =>
         if 2 ≤ v.length ∧ v.headI = '"' ∧ v.getLast? = some '"' then
           Except.ok (⟨key2, some ((v.drop 1).dropLast)⟩ : Qualifier)
         else Except.ok ⟨key2, some v⟩
       | _ => Except.ok ⟨key2, none⟩
     | _ => Except.error ParseErr.badQualifier) = Except.ok q := by
  have hkeyeq : q.key.all (fun c => c ≠ '=') = true := by
    rw [List.all_eq_true] at hkeyc ⊢
    intro c hc
    have := hkeyc c hc
    simp only [Bool.and_eq_true, decide_eq_true_eq] at this
    simp [this.2]
  cases hv : q.value with
  | none =>
    rw [qualFull_flag_shape q hv]
    have htk := takeWhile_all (fun c => c ≠ '=') q.key hkeyeq
    simp only [htk.1, htk.2]
    rw [← hv]
  | some v =>
    rw [qualFull_val_shape q v hv]
    have htk := takeWhile_all_append (fun c => c ≠ '=') q.key
      ('=' :: ('"' :: (v ++ ['"']))) hkeyeq (Or.inr (by simp [List.headI]))
    simp only [htk.1, htk.2]
    have hcond : 2 ≤ ('"' :: (v ++ ['"'])).length ∧
        ('"' :: (v ++ ['"'])).headI = '"' ∧
        ('"' :: (v ++ ['"'])).getLast? = some '"' := by
      refine ⟨by simp, rfl, ?_⟩
      rw [← List.cons_append]
      exact getLast?_concat_char _ _
    rw [if_pos hcond]
    have hstrip : ((('"' :: (v ++ ['"'])).drop 1).dropLast) = v := by
      simp only [List.drop_one, List.tail_cons]
      rw [show (v ++ ['"']) = v.concat '"' from by simp]
      simp
    rw [hstrip, ← hv]

theorem joinSp_cons_head (c : Char) (p : Line) (gs : List Line) :
    joinSp ((c :: p) :: gs) = c :: joinSp (p :: gs) := by
  cases gs with
  | nil => rfl
  | cons g gs =>
    rw [joinSp_cons (c :: p) (g :: gs) (by simp), joinSp_cons p (g :: gs) (by simp)]
    rfl

theorem joinSp_append_head (a b : Line) (gs : List Line) :
    joinSp ((a ++ b) :: gs) = a ++ joinSp (b :: gs) := by
  cases gs with
  | nil => rfl
  | cons g gs =>
    rw [joinSp_cons (a ++ b) (g :: gs) (by simp), joinSp_cons b (g :: gs) (by simp)]
    simp

theorem wfQualifier_spec {q : Qualifier} (h : wfQualifier q = true) :
    q.key ≠ [] ∧ q.key.all (fun c => c ≠ ' ' && c ≠ '=') = true ∧
      (match q.value with
       | none => true
       | some v =>
         if q.key = str "translation" then v.all (fun c => c ≠ '/')
         else ((splitSp (qualFull q)).tail).all (fun p => decide (p.headI ≠ '/'))) = true := by
  rw [wfQualifier, Bool.and_eq_true, Bool.and_eq_true, decide_eq_true_eq] at h
  exact ⟨h.1.1, h.1.2, h.2⟩

theorem key_all_ne_eq {q : Qualifier}
    (h : q.key.all (fun c => c ≠ ' ' && c ≠ '=') = true) :
    q.key.all (fun c => c ≠ '=') = true ∧ q.key.all (fun c => c ≠ ' ') = true := by
  rw [List.all_eq_true] at h
  refine ⟨?_, ?_⟩
  · rw [List.all_eq_true]
    intro c hc
    have h2 := h c hc
    simp only [Bool.and_eq_true, decide_eq_true_eq] at h2
    simp [h2.2]
  · rw [List.all_eq_true]
    intro c hc
    have h2 := h c hc
    simp only [Bool.and_eq_true, decide_eq_true_eq] at h2
    simp [h2.1]

theorem parseQualGroup_trans (q : Qualifier) (hq : wfQualifier q = true)
    (hT : q.key = str "translation") :
    parseQualGroup (rawQualLines q) = .ok q := by
  obtain ⟨hkey1, hkey2, hval⟩ := wfQualifier_spec hq
  obtain ⟨ft, hft⟩ : ∃ ft, qualFull q = '/' :: ft :=
    ⟨q.key ++ (match q.value with
      | none => []
      | some v => '=' :: '"' :: v ++ ['"']), by rw [qualFull]; rfl⟩
  have hchunk : chunkList 58 ('/' :: ft) =
      ('/' :: ft.take 57) :: chunkAux 58 ft.length (ft.drop 57) := by
    simp [chunkList, chunkAux]
  have hflat : (('/' :: ft.take 57) :: chunkAux 58 ft.length (ft.drop 57)).flatten =
      qualFull q := by
    rw [← hchunk, hft]
    exact chunkList_flatten 58 ('/' :: ft)
  have hprelim : (ft.take 57).takeWhile (fun c => c ≠ '=') = q.key := by
    cases hv : q.value with
    | none =>
      have hfteq : ft = q.key := by
        have h2 := hft
        rw [qualFull_flag_shape q hv] at h2
        exact (List.cons.inj h2.symm).2
      rw [hfteq, hT]
      decide
    | some v =>
      have hfteq : ft = (str "translation" ++ ['=']) ++ ('"' :: (v ++ ['"'])) := by
        have h2 := hft
        rw [qualFull_val_shape q v hv, hT] at h2
        have h3 := (List.cons.inj h2.symm).2
        rw [h3]
        simp
      rw [hfteq, List.take_append_eq_append_take]
      rw [List.take_of_length_le (by decide)]
      have htw := takeWhile_all_append (fun c => c ≠ '=') (str "translation")
        ('=' :: (('"' :: (v ++ ['"'])).take (57 - (str "translation" ++ ['=']).length)))
        (by decide) (Or.inr (by simp [List.headI]))
      rw [show (str "translation" ++ ['=']) ++
          ('"' :: (v ++ ['"'])).take (57 - (str "translation" ++ ['=']).length) =
          str "translation" ++
            ('=' :: (('"' :: (v ++ ['"'])).take (57 - (str "translation" ++ ['=']).length)))
        from by simp]
      rw [htw.1, hT]
  rw [rawQualLines, if_pos hT, qualWidth, hft, hchunk]
  show (match (if (ft.take 57).takeWhile (fun c => c ≠ '=') = str "translation"
      then (('/' :: ft.take 57) :: chunkAux 58 ft.length (ft.drop 57)).flatten
      else joinSp (('/' :: ft.take 57) :: chunkAux 58 ft.length (ft.drop 57))) with
    | '/' :: rest =>
      let key2 := rest.takeWhile (fun c => c ≠ '=')
      let after := rest.dropWhile (fun c => c ≠ '=')
      match after with
      | '=' :: v =>
        if 2 ≤ v.length ∧ v.headI = '"' ∧ v.getLast? = some '"' then
          Except.ok (⟨key2, some ((v.drop 1).dropLast)⟩ : Qualifier)
        else Except.ok ⟨key2, some v⟩
      | _ => Except.ok ⟨key2, none⟩
    | _ => Except.error ParseErr.badQualifier) = Except.ok q
  rw [hprelim, if_pos hT, hflat]
  exact parse_qualFull q hkey1 hkey2

theorem parseQualGroup_wrap (q : Qualifier) (hq : wfQualifier q = true)
    (hT : q.key ≠ str "translation") :
    parseQualGroup (rawQualLines q) = .ok q := by
  obtain ⟨hkey1, hkey2, hval⟩ := wfQualifier_spec hq
  obtain ⟨hkeyeq, hkeysp⟩ := key_all_ne_eq hkey2
  cases hv : q.value with
  | none =>
    have hfullns : (qualFull q).all (fun c => c ≠ ' ') = true := by
      rw [qualFull_flag_shape q hv]
      simp only [List.all_cons, Bool.and_eq_true]
      exact ⟨by decide, hkeysp⟩
    have hsingle : splitSp (qualFull q) = [qualFull q] :=
      splitCh_single ' ' _ hfullns
    have hraw : rawQualLines q = [qualFull q] := by
      rw [rawQualLines, if_neg hT, qualWidth, hsingle]
      rw [show wrapPieces 58 [qualFull q] = [[qualFull q]] from by
        simp [wrapPieces, wrapAux, fitSplit]]
      simp [joinSp]
    rw [hraw, qualFull_flag_shape q hv]
    have htk := takeWhile_all (fun c => c ≠ '=') q.key hkeyeq
    show (match (if (q.key).takeWhile (fun c => c ≠ '=') = str "translation"
        then [('/' :: q.key)].flatten
        else joinSp ['/' :: q.key]) with
      | '/' :: rest =>
        let key2 := rest.takeWhile (fun c => c ≠ '=')
        let after := rest.dropWhile (fun c => c ≠ '=')
        match after with
        | '=' :: v =>
          if 2 ≤ v.length ∧ v.headI = '"' ∧ v.getLast? = some '"' then
            Except.ok (⟨key2, some ((v.drop 1).dropLast)⟩ : Qualifier)
          else Except.ok ⟨key2, some v⟩
        | _ => Except.ok ⟨key2, none⟩
      | _ => Except.error ParseErr.badQualifier) = Except.ok q
    rw [htk.1, if_neg hT]
    rw [show joinSp ['/' :: q.key] = '/' :: q.key from rfl]
    rw [show ('/' :: q.key) = qualFull q from (qualFull_flag_shape q hv).symm]
    exact parse_qualFull q hkey1 hkey2
  | some v =>
    have hw0ns : (('/' :: (q.key ++ ['='])) : Line).all (fun c => c ≠ ' ') = true := by
      simp only [List.all_cons, List.all_append, Bool.and_eq_true]
      exact ⟨by decide, hkeysp, by decide⟩
    have hshape2 : qualFull q = ('/' :: (q.key ++ ['='])) ++ ('"' :: (v ++ ['"'])) := by
      rw [qualFull_val_shape q v hv]
      simp
    have hsplit := splitSp_word ('/' :: (q.key ++ ['='])) ('"' :: (v ++ ['"'])) hw0ns
    rw [← hshape2] at hsplit
    have hwrap : wrapPieces 58 (splitSp (qualFull q)) =
        ((('/' :: (q.key ++ ['='])) ++ (splitSp ('"' :: (v ++ ['"']))).headI) ::
            (fitSplit 58 (('/' :: (q.key ++ ['='])) ++
              (splitSp ('"' :: (v ++ ['"']))).headI).length
              ((splitSp ('"' :: (v ++ ['"']))).tail)).1) ::
          wrapAux 58 ((splitSp ('"' :: (v ++ ['"']))).tail).length
            (fitSplit 58 (('/' :: (q.key ++ ['='])) ++
              (splitSp ('"' :: (v ++ ['"']))).headI).length
              ((splitSp ('"' :: (v ++ ['"']))).tail)).2 := by
      rw [hsplit, wrapPieces]
      simp [wrapAux]
    have hg0 : joinSp ((('/' :: (q.key ++ ['='])) ++
        (splitSp ('"' :: (v ++ ['"']))).headI) ::
          (fitSplit 58 (('/' :: (q.key ++ ['='])) ++
            (splitSp ('"' :: (v ++ ['"']))).headI).length
            ((splitSp ('"' :: (v ++ ['"']))).tail)).1) =
        '/' :: (q.key ++ ('=' :: joinSp ((splitSp ('"' :: (v ++ ['"']))).headI ::
          (fitSplit 58 (('/' :: (q.key ++ ['='])) ++
            (splitSp ('"' :: (v ++ ['"']))).headI).length
            ((splitSp ('"' :: (v ++ ['"']))).tail)).1))) := by
      rw [show (('/' :: (q.key ++ ['='])) ++ (splitSp ('"' :: (v ++ ['"']))).headI) =
          '/' :: ((q.key ++ ['=']) ++ (splitSp ('"' :: (v ++ ['"']))).headI) from rfl]
      rw [joinSp_cons_head, joinSp_append_head]
      simp
    rw [rawQualLines, if_neg hT, qualWidth, hwrap]
    simp only [List.map_cons]
    rw [hg0]
    have htkp := takeWhile_all_append (fun c => c ≠ '=') q.key
      ('=' :: joinSp ((splitSp ('"' :: (v ++ ['"']))).headI ::
        (fitSplit 58 (('/' :: (q.key ++ ['='])) ++
          (splitSp ('"' :: (v ++ ['"']))).headI).length
          ((splitSp ('"' :: (v ++ ['"']))).tail)).1))
      hkeyeq (Or.inr (by simp [List.headI]))
    show (match (if (q.key ++ ('=' :: joinSp ((splitSp ('"' :: (v ++ ['"']))).headI ::
          (fitSplit 58 (('/' :: (q.key ++ ['='])) ++
            (splitSp ('"' :: (v ++ ['"']))).headI).length
            ((splitSp ('"' :: (v ++ ['"']))).tail)).1))).takeWhile
              (fun c => c ≠ '=') = str "translation"
        then (('/' :: (q.key ++ ('=' :: joinSp ((splitSp ('"' :: (v ++ ['"']))).headI ::
          (fitSplit 58 (('/' :: (q.key ++ ['='])) ++
            (splitSp ('"' :: (v ++ ['"']))).headI).length
            ((splitSp ('"' :: (v ++ ['"']))).tail)).1)))) ::
          (wrapAux 58 ((splitSp ('"' :: (v ++ ['"']))).tail).length
            (fitSplit 58 (('/' :: (q.key ++ ['='])) ++
              (splitSp ('"' :: (v ++ ['"']))).headI).length
              ((splitSp ('"' :: (v ++ ['"']))).tail)).2).map joinSp).flatten
        else joinSp (('/' :: (q.key ++ ('=' :: joinSp ((splitSp ('"' :: (v ++ ['"']))).headI ::
          (fitSplit 58 (('/' :: (q.key ++ ['='])) ++
            (splitSp ('"' :: (v ++ ['"']))).headI).length
            ((splitSp ('"' :: (v ++ ['"']))).tail)).1)))) ::
          (wrapAux 58 ((splitSp ('"' :: (v ++ ['"']))).tail).length
            (fitSplit 58 (('/' :: (q.key ++ ['='])) ++
              (splitSp ('"' :: (v ++ ['"']))).headI).length
              ((splitSp ('"' :: (v ++ ['"']))).tail)).2).map joinSp)) with
      | '/' :: rest =>
        let key2 := rest.takeWhile (fun c => c ≠ '=')
        let after := rest.dropWhile (fun c => c ≠ '=')
        match after with
        | '=' :: v2 =>
          if 2 ≤ v2.length ∧ v2.headI = '"' ∧ v2.getLast? = some '"' then
            Except.ok (⟨key2, some ((v2.drop 1).dropLast)⟩ : Qualifier)
          else Except.ok ⟨key2, some v2⟩
        | _ => Except.ok ⟨key2, none⟩
      | _ => Except.error ParseErr.badQualifier) = Except.ok q
    rw [htkp.1, if_neg hT]
    have hback : joinSp (('/' :: (q.key ++ ('=' :: joinSp ((splitSp ('"' :: (v ++ ['"']))).headI ::
        (fitSplit 58 (('/' :: (q.key ++ ['='])) ++
          (splitSp ('"' :: (v ++ ['"']))).headI).length
          ((splitSp ('"' :: (v ++ ['"']))).tail)).1)))) ::
        (wrapAux 58 ((splitSp ('"' :: (v ++ ['"']))).tail).length
          (fitSplit 58 (('/' :: (q.key ++ ['='])) ++
            (splitSp ('"' :: (v ++ ['"']))).headI).length
            ((splitSp ('"' :: (v ++ ['"']))).tail)).2).map joinSp) = qualFull q := by
      rw [← hg0, ← List.map_cons, ← hwrap, wrapPieces_joinSp, joinSp_splitSp]
    rw [hback]
    exact parse_qualFull q hkey1 hkey2

theorem parseQualGroup_raw (q : Qualifier) (hq : wfQualifier q = true) :
    parseQualGroup (rawQualLines q) = .ok q := by
  by_cases hT : q.key = str "translation"
  · exact parseQualGroup_trans q hq hT
  · exact parseQualGroup_wrap q hq hT

theorem wrapAux_flatten (w : Nat) :
    ∀ (fuel : Nat) (ps : List Line), (wrapAux w fuel ps).flatten = ps := by
  intro fuel
  induction fuel with
  | zero =>
    intro ps
    cases ps <;> simp [wrapAux]
  | succ fuel ih =>
    intro ps
    cases ps with
    | nil => simp [wrapAux]
    | cons p ps =>
      simp only [wrapAux, List.flatten_cons, ih, List.cons_append]
      rw [fitSplit_append]

theorem wrapPieces_cons (w : Nat) (p0 : Line) (t : List Line) :
    wrapPieces w (p0 :: t) =
      (p0 :: (fitSplit w p0.length t).1) ::
        wrapAux w t.length (fitSplit w p0.length t).2 := by
  rw [wrapPieces]
  simp [wrapAux]

theorem isQualStart_false_of_no_slash (p : Line) (h : Not (List.Mem '/' p)) :
    isQualStart p = false := by
  cases p with
  | nil => rfl
  | cons c cs =>
    have hc : c ≠ '/' := fun he => h (he ▸ List.mem_cons_self c cs)
    simp [isQualStart, hc]

theorem isQualStart_joinSp (g : List Line) (hg : ∀ p ∈ g, p.headI ≠ '/') :
    isQualStart (joinSp g) = false := by
  cases g with
  | nil => rfl
  | cons p gs =>
    cases p with
    | nil =>
      cases gs with
      | nil => rfl
      | cons r rs =>
        rw [show joinSp ([] :: r :: rs) = ' ' :: joinSp (r :: rs) from
          joinSp_cons [] (r :: rs) (by simp)]
        simp [isQualStart]
    | cons c cs =>
      rw [joinSp_cons_head]
      have hc : c ≠ '/' := by
        have := hg (c :: cs) (by simp)
        simpa using this
      simp [isQualStart, hc]

theorem qualFull_tail_no_slash (q : Qualifier) (hq : wfQualifier q = true)
    (hT : q.key = str "translation") :
    (qualFull q).tail.all (fun c => c ≠ '/') = true := by
  obtain ⟨_, _, hval⟩ := wfQualifier_spec hq
  cases hv : q.value with
  | none =>
    rw [qualFull_flag_shape q hv, List.tail_cons, hT]
    decide
  | some v =>
    have hval2 : (v.all fun c => decide (c ≠ '/')) = true := by
      rw [hv] at hval
      simpa [hT] using hval
    rw [qualFull_val_shape q v hv, List.tail_cons, hT]
    simp only [List.all_append, List.all_cons, Bool.and_eq_true]
    refine ⟨by decide, by decide, by decide, ?_, by decide⟩
    rw [List.all_eq_true] at hval2 ⊢
    intro c hc
    simpa using hval2 c hc

theorem rawQualLines_good (q : Qualifier) (hq : wfQualifier q = true) :
    rawQualLines q ≠ [] ∧ isQualStart (rawQualLines q).headI = true ∧
      ∀ l ∈ (rawQualLines q).tail, isQualStart l = false := by
  obtain ⟨hkey1, hkey2, hval⟩ := wfQualifier_spec hq
  obtain ⟨hkeyeq, hkeysp⟩ := key_all_ne_eq hkey2
  by_cases hT : q.key = str "translation"
  · obtain ⟨ft, hft⟩ : ∃ ft, qualFull q = '/' :: ft :=
      ⟨q.key ++ (match q.value with
        | none => []
        | some v => '=' :: '"' :: v ++ ['"']), by rw [qualFull]; rfl⟩
    have hchunk : rawQualLines q =
        ('/' :: ft.take 57) :: chunkAux 58 ft.length (ft.drop 57) := by
      rw [rawQualLines, if_pos hT, qualWidth, hft]
      simp [chunkList, chunkAux]
    rw [hchunk]
    refine ⟨by simp, by simp [isQualStart], ?_⟩
    intro l hl
    have hftall : ft.all (fun c => c ≠ '/') = true := by
      have := qualFull_tail_no_slash q hq hT
      rw [hft, List.tail_cons] at this
      exact this
    apply isQualStart_false_of_no_slash
    intro hmem
    have hflat : l ∈ (chunkAux 58 ft.length (ft.drop 57)) := by
      simpa using hl
    have hx : List.Mem '/' (chunkAux 58 ft.length (ft.drop 57)).flatten :=
      List.mem_flatten.2 ⟨l, hflat, hmem⟩
    rw [chunkAux_flatten] at hx
    have hx2 : List.Mem '/' ft := List.mem_of_mem_drop hx
    rw [List.all_eq_true] at hftall
    have := hftall '/' hx2
    simp at this
  · cases hv : q.value with
    | none =>
      have hfullns : (qualFull q).all (fun c => c ≠ ' ') = true := by
        rw [qualFull_flag_shape q hv]
        simp only [List.all_cons, Bool.and_eq_true]
        exact ⟨by decide, hkeysp⟩
      have hraw : rawQualLines q = [qualFull q] := by
        have hsingle : splitSp (qualFull q) = [qualFull q] :=
          splitCh_single ' ' _ hfullns
        rw [rawQualLines, if_neg hT, qualWidth, hsingle]
        rw [show wrapPieces 58 [qualFull q] = [[qualFull q]] from by
          simp [wrapPieces, wrapAux, fitSplit]]
        simp [joinSp]
      rw [hraw, qualFull_flag_shape q hv]
      exact ⟨by simp, by simp [isQualStart], by simp⟩
    | some v =>
      obtain ⟨p0, t, hps⟩ : ∃ p0 t, splitSp (qualFull q) = ('/' :: p0) :: t := by
        rw [qualFull_val_shape q v hv]
        rw [show ('/' :: (q.key ++ '=' :: '"' :: (v ++ ['"']))) =
            ('/' : Char) :: (q.key ++ '=' :: '"' :: (v ++ ['"'])) from rfl]
        rw [splitSp, splitCh_cons_ne ' ' '/' _ (by decide)]
        exact ⟨_, _, rfl⟩
      have htail : ∀ p ∈ t, p.headI ≠ '/' := by
        have hval2 : ((splitSp (qualFull q)).tail.all
            fun p => decide (List.headI p ≠ '/')) = true := by
          rw [hv] at hval
          simpa [hT] using hval
        rw [hps, List.tail_cons, List.all_eq_true] at hval2
        intro p hp
        have := hval2 p hp
        simpa using this
      have hraw : rawQualLines q =
          joinSp (('/' :: p0) :: (fitSplit 58 ('/' :: p0).length t).1) ::
            (wrapAux 58 t.length (fitSplit 58 ('/' :: p0).length t).2).map joinSp := by
        rw [rawQualLines, if_neg hT, qualWidth, hps, wrapPieces_cons]
        simp
      rw [hraw]
      refine ⟨by simp, ?_, ?_⟩
      · rw [List.headI_cons, joinSp_cons_head]
        simp [isQualStart]
      · intro l hl
        rw [List.tail_cons, List.mem_map] at hl
        obtain ⟨g, hg, rfl⟩ := hl
        apply isQualStart_joinSp
        intro p hp
        have hpin : p ∈ (fitSplit 58 ('/' :: p0).length t).2 := by
          have := List.mem_flatten.2 ⟨g, hg, hp⟩
          rw [wrapAux_flatten] at this
          exact this
        have hpt : p ∈ t := by
          have := fitSplit_append 58 t ('/' :: p0).length
          rw [← this]
          exact List.mem_append.2 (Or.inr hpin)
        exact htail p hpt

theorem rawQualLines_ne_nil (q : Qualifier) (hq : wfQualifier q = true) :
    rawQualLines q ≠ [] := (rawQualLines_good q hq).1

theorem group_quals (quals : List Qualifier) (h : quals.all wfQualifier = true)
    (fuel : Nat) (hfuel : quals.length ≤ fuel) :
    groupByLabel isQualStart fuel (quals.flatMap rawQualLines) =
      quals.map rawQualLines := by
  have hwf : ∀ q ∈ quals, wfQualifier q = true := by
    rw [List.all_eq_true] at h
    exact h
  have hflat : quals.flatMap rawQualLines = (quals.map rawQualLines).flatten := by
    simp [List.flatMap_def]
  rw [hflat]
  apply groupByLabel_flatten
  · intro g hg
    rw [List.mem_map] at hg
    obtain ⟨q, hq, rfl⟩ := hg
    exact rawQualLines_good q (hwf q hq)
  · calc (quals.map rawQualLines).length = quals.length := by simp
      _ ≤ fuel := hfuel

theorem mapM_parseQual (quals : List Qualifier) (h : quals.all wfQualifier = true) :
    (quals.map rawQualLines).mapM parseQualGroup = .ok quals := by
  induction quals with
  | nil => rfl
  | cons q qs ih =>
    rw [List.all_cons, Bool.and_eq_true] at h
    rw [List.map_cons, List.mapM_cons, parseQualGroup_raw q h.1, ih h.2]
    rfl

theorem all_imp {p q : Char → Bool} (h : ∀ c, p c = true → q c = true)
    (l : Line) (hl : l.all p = true) : l.all q = true := by
  rw [List.all_eq_true] at hl ⊢
  exact fun c hc => h c (hl c hc)

theorem mark_no_space (p : Pos) : (p.mark).all (fun c => c ≠ ' ') = true := by
  cases p <;> simp +decide [Pos.mark]

theorem idChar_no_space (l : Line) (h : l.all isIdChar = true) :
    l.all (fun c => c ≠ ' ') = true := by
  apply all_imp _ _ h
  intro c hc
  rcases eq_or_ne c ' ' with rfl | hne
  · exact absurd hc (by decide)
  · simp [hne]

theorem no_space_mem {l : Line} (h : l.all (fun c => c ≠ ' ') = true) :
    ∀ x ∈ l, ¬ x = ' ' := by
  rw [List.all_eq_true] at h
  intro x hx
  simpa using h x hx

mutual
theorem locChars_no_space : ∀ (l : Location), locWF l = true →
    (locChars l).all (fun c => c ≠ ' ') = true
  | .range lo hi, _ => by
    have h1 := no_space_mem (mark_no_space lo)
    have h2 := no_space_mem (mark_no_space hi)
    have h3 := no_space_mem (natChars_no_space (lo.val + 1))
    have h4 := no_space_mem (natChars_no_space hi.val)
    simp +decide [locChars, startChars, endChars]
    exact ⟨h1, h3, h2, h4⟩
  | .between n, _ => by
    have h1 := no_space_mem (natChars_no_space n)
    have h2 := no_space_mem (natChars_no_space (n + 1))
    simp +decide [locChars]
    exact ⟨h1, h2⟩
  | .complement l, h => by
    have hl := no_space_mem (locChars_no_space l h)
    simp +decide [locChars]
    exact hl
  | .join ls, h => by
    have hl := no_space_mem (locListChars_no_space ls h)
    simp +decide [locChars]
    exact hl
  | .order ls, h => by
    have hl := no_space_mem (locListChars_no_space ls h)
    simp +decide [locChars]
    exact hl
  | .bond ls, h => by
    have hl := no_space_mem (locListChars_no_space ls h)
    simp +decide [locChars]
    exact hl
  | .oneOf ls, h => by
    have hl := no_space_mem (locListChars_no_space ls h)
    simp +decide [locChars]
    exact hl
  | .external acc l, h => by
    simp only [locWF, Bool.and_eq_true] at h
    have h1 := no_space_mem (idChar_no_space acc h.1.1)
    have h2 := no_space_mem (locChars_no_space l h.2)
    simp +decide [locChars]
    exact ⟨h1, h2⟩

theorem locListChars_no_space : ∀ (ls : LocList), locListWF ls = true →
    (locListChars ls).all (fun c => c ≠ ' ') = true
  | .nil, _ => by simp [locListChars]
  | .cons l .nil, h => by
    simp only [locListWF] at h
    simpa [locListChars] using locChars_no_space l h
  | .cons l (.cons l2 ls), h => by
    simp only [locListWF, Bool.and_eq_true] at h
    have h1 := no_space_mem (locChars_no_space l h.1)
    have h2 := no_space_mem (locListChars_no_space (.cons l2 ls) h.2)
    simp +decide [locListChars]
    exact ⟨h1, h2⟩
end

theorem tokens_single (w : Line) (hne : w ≠ [])
    (hw : w.all (fun c => c ≠ ' ') = true) : tokens w = [w] := by
  have h := tokens_word w [] hne hw (Or.inl rfl)
  simpa using h

theorem tokens_featureKey (kind : Line) (loc : Location)
    (hk : isWordTok kind = true) (hlen : kind.length ≤ 15)
    (hwf : locWF loc = true) :
    tokens (spaces 5 ++ padRight kind 16 ++ locChars loc) =
      [kind, locChars loc] := by
  obtain ⟨hne, hnsp⟩ := isWordTok_spec hk
  simp only [List.append_assoc]
  rw [tokens_spaces, padRight]
  obtain ⟨m, hm⟩ : ∃ m, 16 - kind.length = m + 1 := ⟨15 - kind.length, by omega⟩
  rw [hm, List.append_assoc]
  rw [show spaces (m + 1) ++ locChars loc = ' ' :: (spaces m ++ locChars loc) from by
    simp [spaces, List.replicate_succ]]
  rw [tokens_word kind _ hne hnsp (Or.inr ⟨_, rfl⟩)]
  rw [show (' ' :: (spaces m ++ locChars loc)) = spaces (m + 1) ++ locChars loc from by
    simp [spaces, List.replicate_succ]]
  rw [tokens_spaces, tokens_single _ (locChars_ne_nil loc) (locChars_no_space loc hwf)]

theorem contents_eq (quals : List Qualifier) :
    (quals.flatMap qualLines).map (fun l => l.drop 21) =
      quals.flatMap rawQualLines := by
  induction quals with
  | nil => rfl
  | cons q qs ih =>
    simp only [List.flatMap_cons, List.map_append, ih, qualLines_stripped]

theorem takeNonLabel_quals (quals : List Qualifier)
    (h : quals.all wfQualifier = true) :
    takeNonLabel isQualStart (quals.flatMap rawQualLines) =
      ([], quals.flatMap rawQualLines) := by
  cases quals with
  | nil => rfl
  | cons q qs =>
    rw [List.all_cons, Bool.and_eq_true] at h
    have hgood := rawQualLines_good q h.1
    have h0 := takeNonLabel_spec isQualStart [] ((q :: qs).flatMap rawQualLines)
      (by simp) (Or.inr ?_)
    · simpa using h0
    · obtain ⟨x, xs, hx⟩ : ∃ x xs, rawQualLines q = x :: xs := by
        rcases hr : rawQualLines q with _ | ⟨x, xs⟩
        · exact absurd hr hgood.1
        · exact ⟨x, xs, rfl⟩
      rw [List.flatMap_cons, hx]
      rw [hx] at hgood
      simpa using hgood.2.1

theorem wfFeature_spec {f : Feature} (h : wfFeature f = true) :
    isWordTok f.kind = true ∧ f.kind.length ≤ 15 ∧ locWF f.location = true ∧
      f.qualifiers.all wfQualifier = true := by
  rw [wfFeature, Bool.and_eq_true, Bool.and_eq_true, Bool.and_eq_true,
    decide_eq_true_eq] at h
  exact ⟨h.1.1.1, h.1.1.2, h.1.2, h.2⟩

theorem quals_length_le (quals : List Qualifier)
    (h : quals.all wfQualifier = true) :
    quals.length ≤ (quals.flatMap rawQualLines).length := by
  have hwf : ∀ q ∈ quals, wfQualifier q = true := List.all_eq_true.1 h
  have hfl : quals.flatMap rawQualLines = (quals.map rawQualLines).flatten := by
    simp [List.flatMap_def]
  rw [hfl]
  have h2 := length_flatten_ge (quals.map rawQualLines) ?_
  · simpa using h2
  · intro g hg
    rw [List.mem_map] at hg
    obtain ⟨q, hq, rfl⟩ := hg
    exact rawQualLines_ne_nil q (hwf q hq)

theorem parseFeature_featureLines (f : Feature) (hf : wfFeature f = true) :
    parseFeature (featureLines f) = .ok f := by
  obtain ⟨hk, hlen, hloc, hq⟩ := wfFeature_spec hf
  obtain ⟨kind, loc, quals⟩ := f
  simp only at hk hlen hloc hq
  rw [featureLines]
  show (match tokens (spaces 5 ++ padRight kind 16 ++ locChars loc) with
    | [k, locStr] =>
      match parseLoc (locStr ++
          (takeNonLabel isQualStart
            ((quals.flatMap qualLines).map (fun l => l.drop 21))).1.flatten) with
      | some loc2 =>
        match (groupByLabel isQualStart
            (takeNonLabel isQualStart
              ((quals.flatMap qualLines).map (fun l => l.drop 21))).2.length
            (takeNonLabel isQualStart
              ((quals.flatMap qualLines).map (fun l => l.drop 21))).2).mapM
            parseQualGroup with
        | .ok quals2 => .ok ⟨k, loc2, quals2⟩
        | .error e => .error e
      | none => .error .badLocation
    | _ => .error .badLocation) = Except.ok (⟨kind, loc, quals⟩ : Feature)
  rw [contents_eq, takeNonLabel_quals quals hq]
  rw [tokens_featureKey kind loc hk hlen hloc]
  show (match parseLoc (locChars loc ++ ([] : List Line).flatten) with
    | some loc2 =>
      match (groupByLabel isQualStart (quals.flatMap rawQualLines).length
          (quals.flatMap rawQualLines)).mapM parseQualGroup with
      | .ok quals2 => .ok ⟨kind, loc2, quals2⟩
      | .error e => .error e
    | none => .error .badLocation) = Except.ok (⟨kind, loc, quals⟩ : Feature)
  rw [show (([] : List Line).flatten) = ([] : Line) from rfl, List.append_nil,
    parseLoc_locChars loc hloc]
  show (match (groupByLabel isQualStart (quals.flatMap rawQualLines).length
      (quals.flatMap rawQualLines)).mapM parseQualGroup with
    | .ok quals2 => Except.ok (⟨kind, loc, quals2⟩ : Feature)
    | .error e => .error e) = Except.ok (⟨kind, loc, quals⟩ : Feature)
  rw [group_quals quals hq _ (quals_length_le quals hq), mapM_parseQual quals hq]

theorem take_prefix_append (a b : Line) : (a ++ b).take a.length = a := by
  simp

theorem isFeatureStart_spaces5 (x : Line) :
    isFeatureStart (spaces 5 ++ x) =
      (match x with | [] => false | c :: _ => decide (c ≠ ' ')) := by
  rw [isFeatureStart]
  have h1 : (spaces 5 ++ x).take 5 = spaces 5 := by
    rw [show (5 : Nat) = (spaces 5).length from by simp [spaces]]
    exact take_prefix_append _ _
  have h2 : (spaces 5 ++ x).drop 5 = x := by
    rw [show (5 : Nat) = (spaces 5).length from by simp [spaces]]
    exact drop_prefix_append _ _
  rw [h1, h2]
  simp only [decide_True, Bool.true_and]
  cases x <;> simp

theorem isFeatureStart_key (kind rest : Line) (hk : isWordTok kind = true) :
    isFeatureStart (spaces 5 ++ padRight kind 16 ++ rest) = true := by
  obtain ⟨hne, hnsp⟩ := isWordTok_spec hk
  obtain ⟨k, ks, rfl⟩ : ∃ k ks, kind = k :: ks := by
    rcases kind with _ | ⟨k, ks⟩
    · exact absurd rfl hne
    · exact ⟨k, ks, rfl⟩
  rw [List.append_assoc, isFeatureStart_spaces5]
  rw [show padRight (k :: ks) 16 ++ rest =
    k :: (ks ++ spaces (16 - (k :: ks).length) ++ rest) from by simp [padRight]]
  have hk0 : k ≠ ' ' := by
    have := no_space_mem hnsp k (by simp)
    simpa using this
  simp [hk0]

theorem isFeatureStart_qual (y : Line) :
    isFeatureStart (spaces 21 ++ y) = false := by
  rw [show (21 : Nat) = 5 + 16 from rfl, ← spaces_merge, isFeatureStart_spaces5]
  rw [show spaces 16 ++ y = ' ' :: (spaces 15 ++ y) from by
    rw [spaces_succ_cons 15]; rfl]
  simp

theorem featureLines_good (fs : List Feature) (h : fs.all wfFeature = true) :
    GoodBlocks isFeatureStart (fs.map featureLines) := by
  have hwf : ∀ f ∈ fs, wfFeature f = true := List.all_eq_true.1 h
  intro g hg
  rw [List.mem_map] at hg
  obtain ⟨f, hf, rfl⟩ := hg
  obtain ⟨hk, _, _, hq⟩ := wfFeature_spec (hwf f hf)
  refine ⟨by simp [featureLines], ?_, ?_⟩
  · rw [featureLines, List.headI_cons]
    exact isFeatureStart_key f.kind (locChars f.location) hk
  · intro l hl
    rw [featureLines, List.tail_cons, List.mem_flatMap] at hl
    obtain ⟨q, hql, hlq⟩ := hl
    rw [qualLines_eq] at hlq
    rw [List.mem_map] at hlq
    obtain ⟨raw, _, rfl⟩ := hlq
    exact isFeatureStart_qual raw

theorem featureLines_flat_len (fs : List Feature) :
    fs.length ≤ (fs.flatMap featureLines).length := by
  have hfl : fs.flatMap featureLines = (fs.map featureLines).flatten := by
    simp [List.flatMap_def]
  rw [hfl]
  have h2 := length_flatten_ge (fs.map featureLines) ?_
  · simpa using h2
  · intro g hg
    rw [List.mem_map] at hg
    obtain ⟨f, _, rfl⟩ := hg
    simp [featureLines]

theorem mapM_parseFeature (fs : List Feature) (h : fs.all wfFeature = true) :
    (fs.map featureLines).mapM parseFeature = .ok fs := by
  induction fs with
  | nil => rfl
  | cons f fs ih =>
    rw [List.all_cons, Bool.and_eq_true] at h
    rw [List.map_cons, List.mapM_cons, parseFeature_featureLines f h.1, ih h.2]
    rfl

theorem parseFeatures_section (fs : List Feature) (h : fs.all wfFeature = true) :
    parseFeatures (featuresSection fs) = .ok fs := by
  cases fs with
  | nil => rfl
  | cons f fs' =>
    rw [featuresSection, parseFeatures]
    have hfl : (f :: fs').flatMap featureLines =
        ((f :: fs').map featureLines).flatten := by
      simp [List.flatMap_def]
    rw [hfl, groupByLabel_flatten isFeatureStart _ (featureLines_good _ h) _ ?_]
    · exact mapM_parseFeature _ h
    · rw [← hfl]
      have h2 := featureLines_flat_len (f :: fs')
      simpa using h2

theorem stripLead_id (l : Line) (h : l.headI ≠ ' ') : stripLead l = l := by
  cases l with
  | nil => rfl
  | cons c cs =>
    simp only [List.headI] at h
    simp [stripLead, List.dropWhile_cons, h]

theorem stripLead_space_cons (l : Line) : stripLead (' ' :: l) = stripLead l := by
  simp [stripLead, List.dropWhile_cons]

theorem wfEntry_spec {sep : Char} {l : Line} (h : wfEntry sep l = true) :
    l ≠ [] ∧ l.all (fun c => c ≠ sep) = true ∧ l.headI ≠ ' ' := by
  rw [wfEntry, Bool.and_eq_true, Bool.and_eq_true, decide_eq_true_eq,
    decide_eq_true_eq] at h
  exact ⟨h.1.1, h.1.2, h.2⟩

theorem splitStrip_join (sep : Char) (hsep : ¬ (' ' = sep)) :
    ∀ (xs : List Line), xs ≠ [] → xs.all (wfEntry sep) = true →
      splitStrip sep (joinSepSp sep xs) = xs
  | [], h, _ => absurd rfl h
  | [x], _, hwf => by
    have hx : wfEntry sep x = true := by simpa using hwf
    obtain ⟨hne, hnosep, hhead⟩ := wfEntry_spec hx
    rw [show joinSepSp sep [x] = x from rfl, splitStrip,
      splitCh_single sep x hnosep]
    simp [stripLead_id x hhead]
  | x :: y :: ys, _, hwf => by
    rw [List.all_cons, Bool.and_eq_true] at hwf
    obtain ⟨hne, hnosep, hhead⟩ := wfEntry_spec hwf.1
    have ih := splitStrip_join sep hsep (y :: ys) (by simp) hwf.2
    rw [show joinSepSp sep (x :: y :: ys) =
      x ++ sep :: ' ' :: joinSepSp sep (y :: ys) from rfl]
    rw [splitStrip, splitCh_word sep x _ hnosep, splitCh_sep,
      splitCh_cons_ne sep ' ' _ hsep]
    simp only [List.headI, List.tail, List.append_nil, List.map_cons]
    rw [stripLead_id x hhead, stripLead_space_cons]
    rcases hsp : splitCh sep (joinSepSp sep (y :: ys)) with _ | ⟨p1, ps⟩
    · exact absurd hsp (splitCh_ne_nil sep _)
    · rw [splitStrip, hsp] at ih
      simp only [List.map_cons] at ih
      simp only [List.headI, List.tail]
      rw [ih]

theorem isSubLabel_append (p x : Line) (hlen : p.length = 12)
    (hns : p.all (fun c => c = ' ') = false) : isSubLabel (p ++ x) = true := by
  rw [isSubLabel, show (12 : Nat) = p.length from hlen.symm, take_prefix_append,
    hns]
  rfl

theorem mem_optSection {kw : String} {v : Option Line} {l : Line}
    (h : l ∈ optSection kw v) : ∃ x, l = str kw ++ x := by
  cases v with
  | none => simp [optSection] at h
  | some t =>
    simp [optSection] at h
    exact ⟨t, h⟩

theorem flatten_singletons (ls : List Line) :
    (ls.map (fun l => [l])).flatten = ls := by
  induction ls with
  | nil => rfl
  | cons a as ih =>
    simp only [List.map_cons, List.flatten_cons, ih]
    rfl

theorem groups_singletons (p : Line → Bool) (ls : List Line)
    (h : ∀ l ∈ ls, p l = true) (fuel : Nat) (hf : ls.length ≤ fuel) :
    groupByLabel p fuel ls = ls.map (fun l => [l]) := by
  have hfl := flatten_singletons ls
  calc groupByLabel p fuel ls
      = groupByLabel p fuel (ls.map (fun l => [l])).flatten := by rw [hfl]
    _ = ls.map (fun l => [l]) := by
        apply groupByLabel_flatten
        · intro g hg
          rw [List.mem_map] at hg
          obtain ⟨l, hl, rfl⟩ := hg
          exact ⟨by simp, h l hl, by simp⟩
        · simpa using hf

theorem tokens_headI_pref (a b : Nat) (kw : String) (x : Line)
    (h1 : str kw ≠ []) (h2 : (str kw).all (fun c => c ≠ ' ') = true) :
    (tokens (spaces a ++ (str kw ++ (spaces (b + 1) ++ x)))).headI = str kw := by
  rw [tokens_spaces, tokens_word (str kw) _ h1 h2
    (Or.inr ⟨spaces b ++ x, by rw [spaces_succ_cons b]; rfl⟩)]
  rfl

theorem drop12_pref (p x : Line) (h : p.length = 12) : drop12 (p ++ x) = x := by
  rw [drop12, ← h, drop_prefix_append]

theorem parseRefSub_eq (r0 : Reference) (sl : Line) (rest : List Line) :
    parseRefSub r0 (sl :: rest) =
      (if (tokens sl).headI = str "AUTHORS" then
        .ok { r0 with authors := splitStrip ',' (drop12 sl) }
       else if (tokens sl).headI = str "TITLE" then
        .ok { r0 with title := some (drop12 sl) }
       else if (tokens sl).headI = str "JOURNAL" then
        .ok { r0 with journal := some (drop12 sl) }
       else if (tokens sl).headI = str "PUBMED" then
         (match parseNat? (drop12 sl) with
          | some n => .ok { r0 with pubmed := some n }
          | none => .error .badReference)
       else if (tokens sl).headI = str "REMARK" then
        .ok { r0 with remark := some (drop12 sl) }
       else .ok r0) := rfl

theorem parseRefSub_authors (r0 : Reference) (x : Line) :
    parseRefSub r0 [str "  AUTHORS   " ++ x] =
      .ok { r0 with authors := splitStrip ',' x } := by
  have hkw : (tokens (str "  AUTHORS   " ++ x)).headI = str "AUTHORS" := by
    rw [show str "  AUTHORS   " ++ x =
      spaces 2 ++ (str "AUTHORS" ++ (spaces (2 + 1) ++ x)) from rfl]
    exact tokens_headI_pref 2 2 "AUTHORS" x (by decide) (by decide)
  have hdrop : drop12 (str "  AUTHORS   " ++ x) = x :=
    drop12_pref _ _ (by decide)
  rw [parseRefSub_eq, hkw, hdrop]
  simp +decide

theorem parseRefSub_title (r0 : Reference) (x : Line) :
    parseRefSub r0 [str "  TITLE     " ++ x] =
      .ok { r0 with title := some x } := by
  have hkw : (tokens (str "  TITLE     " ++ x)).headI = str "TITLE" := by
    rw [show str "  TITLE     " ++ x =
      spaces 2 ++ (str "TITLE" ++ (spaces (4 + 1) ++ x)) from rfl]
    exact tokens_headI_pref 2 4 "TITLE" x (by decide) (by decide)
  have hdrop : drop12 (str "  TITLE     " ++ x) = x :=
    drop12_pref _ _ (by decide)
  rw [parseRefSub_eq, hkw, hdrop]
  simp +decide

theorem parseRefSub_journal (r0 : Reference) (x : Line) :
    parseRefSub r0 [str "  JOURNAL   " ++ x] =
      .ok { r0 with journal := some x } := by
  have hkw : (tokens (str "  JOURNAL   " ++ x)).headI = str "JOURNAL" := by
    rw [show str "  JOURNAL   " ++ x =
      spaces 2 ++ (str "JOURNAL" ++ (spaces (2 + 1) ++ x)) from rfl]
    exact tokens_headI_pref 2 2 "JOURNAL" x (by decide) (by decide)
  have hdrop : drop12 (str "  JOURNAL   " ++ x) = x :=
    drop12_pref _ _ (by decide)
  rw [parseRefSub_eq, hkw, hdrop]
  simp +decide

theorem parseRefSub_pubmed (r0 : Reference) (n : Nat) :
    parseRefSub r0 [str "   PUBMED   " ++ natChars n] =
      .ok { r0 with pubmed := some n } := by
  have hkw : (tokens (str "   PUBMED   " ++ natChars n)).headI = str "PUBMED" := by
    rw [show str "   PUBMED   " ++ natChars n =
      spaces 3 ++ (str "PUBMED" ++ (spaces (2 + 1) ++ natChars n)) from rfl]
    exact tokens_headI_pref 3 2 "PUBMED" (natChars n) (by decide) (by decide)
  have hdrop : drop12 (str "   PUBMED   " ++ natChars n) = natChars n :=
    drop12_pref _ _ (by decide)
  rw [parseRefSub_eq, hkw, hdrop, parseNat_natChars]
  simp +decide

theorem parseRefSub_remark (r0 : Reference) (x : Line) :
    parseRefSub r0 [str "  REMARK    " ++ x] =
      .ok { r0 with remark := some x } := by
  have hkw : (tokens (str "  REMARK    " ++ x)).headI = str "REMARK" := by
    rw [show str "  REMARK    " ++ x =
      spaces 2 ++ (str "REMARK" ++ (spaces (3 + 1) ++ x)) from rfl]
    exact tokens_headI_pref 2 3 "REMARK" x (by decide) (by decide)
  have hdrop : drop12 (str "  REMARK    " ++ x) = x :=
    drop12_pref _ _ (by decide)
  rw [parseRefSub_eq, hkw, hdrop]
  simp +decide

theorem foldlM_append_except {α : Type} (f : α → List Line → Except ParseErr α) :
    ∀ (l1 l2 : List (List Line)) (b : α),
      (l1 ++ l2).foldlM f b = (l1.foldlM f b) >>= fun b1 => l2.foldlM f b1 := by
  intro l1
  induction l1 with
  | nil =>
    intro l2 b
    rfl
  | cons x l1 ih =>
    intro l2 b
    have hc : ∀ (l : List (List Line)) (b0 : α),
        (x :: l).foldlM f b0 = f b0 x >>= fun b1 => l.foldlM f b1 := fun _ _ => rfl
    rw [List.cons_append, hc, hc]
    cases hfb : f b x with
    | error e => rfl
    | ok b1 =>
      show (l1 ++ l2).foldlM f b1 =
        (l1.foldlM f b1) >>= fun b2 => l2.foldlM f b2
      exact ih l2 b1

theorem foldlM_seg (seg rest : List (List Line)) (r0 r1 : Reference)
    (h : seg.foldlM parseRefSub r0 = .ok r1) :
    (seg ++ rest).foldlM parseRefSub r0 = rest.foldlM parseRefSub r1 := by
  rw [foldlM_append_except, h]
  rfl

theorem foldlM_singleton (g : List Line) (r0 : Reference) :
    ([g] : List (List Line)).foldlM parseRefSub r0 = parseRefSub r0 g := by
  show parseRefSub r0 g >>= (fun b => pure b) = parseRefSub r0 g
  cases parseRefSub r0 g <;> rfl

theorem parseSource_sourceLines (s : Source) (hs : wfSource s = true) :
    parseSource (sourceLines (some s)) = s := by
  obtain ⟨name, lineage⟩ := s
  have hlin : lineage.all (wfEntry ';') = true := by
    simpa [wfSource] using hs
  cases lineage with
  | nil =>
    rw [show sourceLines (some ⟨name, []⟩) =
      [str "SOURCE      " ++ name] from by simp [sourceLines]]
    show (⟨drop12 (str "SOURCE      " ++ name), []⟩ : Source) = ⟨name, []⟩
    rw [drop12_pref _ _ (by decide)]
  | cons y ys =>
    rw [show sourceLines (some ⟨name, y :: ys⟩) =
      [str "SOURCE      " ++ name,
        str "  ORGANISM  " ++ joinSepSp ';' (y :: ys)] from by simp [sourceLines]]
    have hkw : (tokens (str "  ORGANISM  " ++ joinSepSp ';' (y :: ys))).headI =
        str "ORGANISM" := by
      rw [show str "  ORGANISM  " ++ joinSepSp ';' (y :: ys) =
        spaces 2 ++ (str "ORGANISM" ++ (spaces (1 + 1) ++ joinSepSp ';' (y :: ys)))
        from rfl]
      exact tokens_headI_pref 2 1 "ORGANISM" _ (by decide) (by decide)
    show (⟨drop12 (str "SOURCE      " ++ name),
      if (tokens (str "  ORGANISM  " ++ joinSepSp ';' (y :: ys))).headI =
          str "ORGANISM" then
        splitStrip ';' (drop12 (str "  ORGANISM  " ++ joinSepSp ';' (y :: ys)))
      else []⟩ : Source) = ⟨name, y :: ys⟩
    rw [hkw, if_pos rfl, drop12_pref _ _ (by decide), drop12_pref _ _ (by decide),
      splitStrip_join ';' (by decide) (y :: ys) (by simp) hlin]

theorem parseReference_referenceLines (idx : Nat) (r : Reference)
    (hr : wfReference r = true) :
    parseReference (referenceLines idx r) = .ok r := by
  obtain ⟨authors, title, journal, pubmed, remark⟩ := r
  have hauth : authors.all (wfEntry ',') = true := by
    simpa [wfReference] using hr
  clear hr
  have hpr : ∀ (lbl : Line) (conts : List Line), parseReference (lbl :: conts) =
      (groupByLabel isSubLabel conts.length conts).foldlM parseRefSub
        ⟨[], none, none, none, none⟩ := fun _ _ => rfl
  rw [referenceLines, hpr]
  have hsub : ∀ l ∈ ((if authors = [] then ([] : List Line)
        else [str "  AUTHORS   " ++ joinSepSp ',' authors]) ++
      optSection "  TITLE     " title ++
      optSection "  JOURNAL   " journal ++
      pubmedSeg pubmed ++
      optSection "  REMARK    " remark), isSubLabel l = true := by
    intro l hl
    simp only [List.mem_append] at hl
    rcases hl with ((((hl | hl) | hl) | hl) | hl)
    · cases authors with
      | nil => simp at hl
      | cons a as =>
        rw [if_neg (by simp)] at hl
        simp at hl
        rw [hl]
        exact isSubLabel_append _ _ (by decide) (by decide)
    · obtain ⟨x, rfl⟩ := mem_optSection hl
      exact isSubLabel_append _ _ (by decide) (by decide)
    · obtain ⟨x, rfl⟩ := mem_optSection hl
      exact isSubLabel_append _ _ (by decide) (by decide)
    · cases pubmed with
      | none => simp [pubmedSeg] at hl
      | some n =>
        simp [pubmedSeg] at hl
        rw [hl]
        exact isSubLabel_append _ _ (by decide) (by decide)
    · obtain ⟨x, rfl⟩ := mem_optSection hl
      exact isSubLabel_append _ _ (by decide) (by decide)
  rw [groups_singletons isSubLabel _ hsub _ le_rfl]
  clear hsub
  simp only [List.map_append, List.append_assoc]
  have hA : ((if authors = [] then ([] : List Line)
      else [str "  AUTHORS   " ++ joinSepSp ',' authors]).map
        (fun l => [l])).foldlM parseRefSub ⟨[], none, none, none, none⟩ =
      .ok ⟨authors, none, none, none, none⟩ := by
    rcases hac : authors with _ | ⟨a, as⟩
    · rfl
    · rw [if_neg (by simp)]
      simp only [List.map_cons, List.map_nil]
      rw [foldlM_singleton, parseRefSub_authors,
        splitStrip_join ',' (by decide) (a :: as) (by simp) (hac ▸ hauth)]
  have hT : ((optSection "  TITLE     " title).map (fun l => [l])).foldlM
      parseRefSub ⟨authors, none, none, none, none⟩ =
      .ok ⟨authors, title, none, none, none⟩ := by
    cases title with
    | none => rfl
    | some t =>
      simp only [optSection, List.map_cons, List.map_nil]
      rw [foldlM_singleton, parseRefSub_title]
  have hJ : ((optSection "  JOURNAL   " journal).map (fun l => [l])).foldlM
      parseRefSub ⟨authors, title, none, none, none⟩ =
      .ok ⟨authors, title, journal, none, none⟩ := by
    cases journal with
    | none => rfl
    | some j =>
      simp only [optSection, List.map_cons, List.map_nil]
      rw [foldlM_singleton, parseRefSub_journal]
  have hP : (((pubmedSeg pubmed).map (fun l => [l])).foldlM
        parseRefSub ⟨authors, title, journal, none, none⟩) =
      .ok ⟨authors, title, journal, pubmed, none⟩ := by
    cases pubmed with
    | none => rfl
    | some n =>
      simp only [pubmedSeg, List.map_cons, List.map_nil]
      rw [foldlM_singleton, parseRefSub_pubmed]
  have hR : ((optSection "  REMARK    " remark).map (fun l => [l])).foldlM
      parseRefSub ⟨authors, title, journal, pubmed, none⟩ =
      .ok ⟨authors, title, journal, pubmed, remark⟩ := by
    cases remark with
    | none => rfl
    | some x =>
      simp only [optSection, List.map_cons, List.map_nil]
      rw [foldlM_singleton, parseRefSub_remark]
  rw [foldlM_seg _ _ _ _ hA, foldlM_seg _ _ _ _ hT, foldlM_seg _ _ _ _ hJ,
    foldlM_seg _ _ _ _ hP, hR]

theorem digit_ne_space {c : Char} (h : isDigit c = true) : ¬ (c = ' ') := by
  intro he
  subst he
  exact absurd h (by decide)

theorem residue_ne_space {c : Char} (h : isResidue c = true) : ¬ (c = ' ') := by
  intro he
  subst he
  exact absurd h (by decide)

theorem filter_groups (chunks : List Line)
    (h : ∀ ch ∈ chunks, ch.all (fun c => c ≠ ' ') = true) :
    ((chunks.map (fun g => ' ' :: g)).flatten).filter (fun c => c ≠ ' ') =
      chunks.flatten := by
  induction chunks with
  | nil => rfl
  | cons ch chunks ih =>
    simp only [List.map_cons, List.flatten_cons, List.filter_append,
      List.filter_cons]
    rw [show (decide ¬(' ' = ' ')) = false from by decide]
    simp only [Bool.false_eq_true, if_false]
    rw [ih (fun g hg => h g (by simp [hg])),
      List.filter_eq_self.2 ?_]
    intro a ha
    have := h ch (by simp)
    rw [List.all_eq_true] at this
    exact this a ha

theorem parseSeqLine_origin (pos : Nat) (t : Line) (hne : t ≠ [])
    (hnsp : t.all (fun c => c ≠ ' ') = true) :
    parseSeqLine (padLeft (natChars pos) 9 ++
      ((chunkList 10 t).map (fun g => ' ' :: g)).flatten) = t := by
  obtain ⟨c, cs, rfl⟩ : ∃ c cs, t = c :: cs := by
    rcases t with _ | ⟨c, cs⟩
    · exact absurd rfl hne
    · exact ⟨c, cs, rfl⟩
  have hchunk : chunkList 10 (c :: cs) =
      (c :: cs.take 9) :: chunkAux 10 cs.length (cs.drop 9) := by
    simp [chunkList, chunkAux]
  have hG : ((chunkList 10 (c :: cs)).map (fun g => ' ' :: g)).flatten =
      ' ' :: ((c :: cs.take 9) ++
        ((chunkAux 10 cs.length (cs.drop 9)).map (fun g => ' ' :: g)).flatten) := by
    rw [hchunk]
    simp
  rw [parseSeqLine, padLeft, List.append_assoc]
  have hd1 := takeWhile_all_append (fun c => c = ' ')
    (spaces (9 - (natChars pos).length))
    (natChars pos ++ ((chunkList 10 (c :: cs)).map (fun g => ' ' :: g)).flatten)
    (by simp [spaces]) (Or.inr ?_)
  · rw [hd1.2]
    have hd2 := takeWhile_all_append isDigit (natChars pos)
      (((chunkList 10 (c :: cs)).map (fun g => ' ' :: g)).flatten)
      (natChars_all_digits pos) (Or.inr ?_)
    · rw [hd2.2]
      rw [filter_groups _ ?_, chunkList_flatten]
      intro ch hch
      rw [List.all_eq_true]
      intro a ha
      have hmem : a ∈ (chunkList 10 (c :: cs)).flatten := List.mem_flatten.2 ⟨ch, hch, ha⟩
      rw [chunkList_flatten] at hmem
      rw [List.all_eq_true] at hnsp
      exact hnsp a hmem
    · rw [hG]
      simp only [List.headI]
      decide
  · have hh : (natChars pos ++
        ((chunkList 10 (c :: cs)).map (fun g => ' ' :: g)).flatten).headI =
        (natChars pos).headI := headI_append_ne_nil _ _ (natChars_ne_nil pos)
    rw [hh]
    have := digit_ne_space (natChars_headI_digit pos)
    simp [this]

theorem originBody_parse :
    ∀ (fuel : Nat) (s : Line) (pos : Nat), s.all (fun c => c ≠ ' ') = true →
      (originBodyAux fuel pos s).flatMap parseSeqLine = s := by
  intro fuel
  induction fuel with
  | zero =>
    intro s pos hs
    cases s with
    | nil => rfl
    | cons c cs =>
      rw [show originBodyAux 0 pos (c :: cs) =
        [padLeft (natChars pos) 9 ++
          ((chunkList 10 (c :: cs)).map (fun g => ' ' :: g)).flatten] from rfl]
      simp only [List.flatMap_cons, List.flatMap_nil, List.append_nil]
      exact parseSeqLine_origin pos (c :: cs) (by intro hf; cases hf) hs
  | succ fuel ih =>
    intro s pos hs
    cases s with
    | nil => rfl
    | cons c cs =>
      rw [show originBodyAux (fuel + 1) pos (c :: cs) =
        (padLeft (natChars pos) 9 ++
          ((chunkList 10 (c :: cs.take 59)).map (fun g => ' ' :: g)).flatten) ::
          originBodyAux fuel (pos + 60) (cs.drop 59) from rfl]
      simp only [List.flatMap_cons]
      rw [List.all_cons, Bool.and_eq_true] at hs
      have h1 : (c :: cs.take 59).all (fun c => c ≠ ' ') = true := by
        rw [List.all_cons, Bool.and_eq_true]
        refine ⟨hs.1, ?_⟩
        rw [List.all_eq_true] at hs ⊢
        intro a ha
        exact hs.2 a (List.mem_of_mem_take ha)
      have h2 : (cs.drop 59).all (fun c => c ≠ ' ') = true := by
        rw [List.all_eq_true] at hs ⊢
        intro a ha
        exact hs.2 a (List.mem_of_mem_drop ha)
      rw [parseSeqLine_origin (pos) (c :: cs.take 59) (by intro hf; cases hf) h1,
        ih _ _ h2]
      rw [show (c :: cs.take 59) ++ cs.drop 59 = c :: (cs.take 59 ++ cs.drop 59) from
        rfl, List.take_append_drop]

theorem residues_no_space {s : Line} (h : s.all isResidue = true) :
    s.all (fun c => c ≠ ' ') = true := by
  apply all_imp _ _ h
  intro c hc
  have := residue_ne_space hc
  simp [this]

theorem parseOrigin_originSection (s : Line) (hres : s.all isResidue = true) :
    parseOrigin (originSection s) = .ok s := by
  by_cases hs : s = []
  · subst hs
    rfl
  · rw [originSection, if_neg hs]
    show (if ((originBodyAux s.length 1 s).flatMap parseSeqLine).all isResidue then
        Except.ok ((originBodyAux s.length 1 s).flatMap parseSeqLine)
      else Except.error ParseErr.badSequence) = .ok s
    rw [originBody_parse s.length s 1 (residues_no_space hres), hres]
    rfl

/-- A section's group list: absent sections contribute no group. -/
def optGroup (ls : List Line) : List (List Line) :=
  if ls = [] then [] else [ls]

theorem optGroup_flatten (ls : List Line) : (optGroup ls).flatten = ls := by
  rw [optGroup]
  by_cases h : ls = []
  · rw [if_pos h, h]
    rfl
  · rw [if_neg h]
    simp

theorem mem_optGroup {ls g : List Line} (h : g ∈ optGroup ls) :
    g = ls ∧ ls ≠ [] := by
  rw [optGroup] at h
  by_cases he : ls = []
  · rw [if_pos he] at h
    simp at h
  · rw [if_neg he] at h
    simp at h
    exact ⟨h, he⟩

theorem isContLine_space (k : Nat) (x : Line) (h : 1 ≤ k) :
    isContLine (spaces k ++ x) = true := by
  rw [spaces_pos_cons h]
  rfl

theorem WFRecord_spec {r : Record} (h : WFRecord r = true) :
    isWordTok r.name = true ∧
    (match r.molecule_type with
     | none => True
     | some m => isWordTok m = true ∧ m ≠ str "linear" ∧ m ≠ str "circular") ∧
    isWordTok r.division = true ∧
    (match r.date with | none => True | some d => wfDate d = true) ∧
    (match r.source with | none => True | some s => wfSource s = true) ∧
    r.references.all wfReference = true ∧
    r.features.all wfFeature = true ∧
    r.sequence.all isResidue = true ∧
    r.sequence.length < 100000000 := by
  rw [WFRecord] at h
  rw [Bool.and_eq_true, Bool.and_eq_true, Bool.and_eq_true, Bool.and_eq_true,
    Bool.and_eq_true, Bool.and_eq_true, Bool.and_eq_true, Bool.and_eq_true] at h
  obtain ⟨⟨⟨⟨⟨⟨⟨⟨h1, h2⟩, h3⟩, h4⟩, h5⟩, h6⟩, h7⟩, h8⟩, h9⟩ := h
  refine ⟨h1, ?_, h3, ?_, ?_, h6, h7, h8, by simpa using h9⟩
  · rcases hm : r.molecule_type with _ | m
    · trivial
    · rw [hm] at h2
      rw [Bool.and_eq_true, Bool.and_eq_true, decide_eq_true_eq,
        decide_eq_true_eq] at h2
      exact ⟨h2.1.1, h2.1.2, h2.2⟩
  · rcases hd : r.date with _ | d
    · trivial
    · rw [hd] at h4
      exact h4
  · rcases hs : r.source with _ | s
    · trivial
    · rw [hs] at h5
      exact h5

theorem originBodyAux_cont : ∀ (fuel pos : Nat) (s : Line), 1 ≤ pos →
    pos + s.length ≤ 100000000 →
    ∀ l ∈ originBodyAux fuel pos s, isContLine l = true := by
  have hline : ∀ (pos : Nat) (G : Line), 1 ≤ pos → pos < 100000000 →
      isContLine (padLeft (natChars pos) 9 ++ G) = true := by
    intro pos G h1 h2
    have hlen : (natChars pos).length ≤ 8 :=
      natChars_length_le (by omega) (by omega)
    rw [padLeft, List.append_assoc]
    exact isContLine_space _ _ (by omega)
  intro fuel
  induction fuel with
  | zero =>
    intro pos s h1 h2 l hl
    cases s with
    | nil => simp [originBodyAux] at hl
    | cons c cs =>
      rw [show originBodyAux 0 pos (c :: cs) =
        [padLeft (natChars pos) 9 ++
          ((chunkList 10 (c :: cs)).map (fun g => ' ' :: g)).flatten] from rfl] at hl
      simp only [List.mem_singleton] at hl
      subst hl
      exact hline pos _ h1 (by simp at h2; omega)
  | succ fuel ih =>
    intro pos s h1 h2 l hl
    cases s with
    | nil => simp [originBodyAux] at hl
    | cons c cs =>
      rw [show originBodyAux (fuel + 1) pos (c :: cs) =
        (padLeft (natChars pos) 9 ++
          ((chunkList 10 (c :: cs.take 59)).map (fun g => ' ' :: g)).flatten) ::
          originBodyAux fuel (pos + 60) (cs.drop 59) from rfl] at hl
      rw [List.mem_cons] at hl
      rcases hl with rfl | hl
      · exact hline pos _ h1 (by simp at h2; omega)
      · by_cases hcs : cs.drop 59 = []
        · rw [hcs] at hl
          simp [originBodyAux] at hl
        · have hlen : 59 < cs.length := by
            by_contra hc
            exact hcs (List.drop_eq_nil_of_le (by omega))
          refine ih (pos + 60) (cs.drop 59) (by omega) ?_ l hl
          have : (cs.drop 59).length = cs.length - 59 := by simp
          simp only [List.length_cons] at h2
          omega

theorem applySection_eq (pr : PartialRecord) (g : List Line) :
    applySection pr g =
      (if sectionKeyword g = str "DEFINITION" then
        .ok { pr with definition := some (drop12 g.headI) }
       else if sectionKeyword g = str "SOURCE" then
        .ok { pr with source := some (parseSource g) }
       else if sectionKeyword g = str "REFERENCE" then
        match parseReference g with
        | .ok r => .ok { pr with references := pr.references ++ [r] }
        | .error e => .error e
       else if sectionKeyword g = str "FEATURES" then
        match parseFeatures g with
        | .ok fs => .ok { pr with features := fs }
        | .error e => .error e
       else if sectionKeyword g = str "ORIGIN" then
        match parseOrigin g with
        | .ok s => .ok { pr with sequence := s }
        | .error e => .error e
       else .ok pr) := rfl

theorem sectionKeyword_definition (d : Line) :
    sectionKeyword [str "DEFINITION  " ++ d] = str "DEFINITION" := by
  show (tokens (str "DEFINITION  " ++ d)).headI = str "DEFINITION"
  rw [show str "DEFINITION  " ++ d =
    spaces 0 ++ (str "DEFINITION" ++ (spaces (1 + 1) ++ d)) from rfl]
  exact tokens_headI_pref 0 1 "DEFINITION" d (by decide) (by decide)

theorem sectionKeyword_source (s : Source) :
    sectionKeyword (sourceLines (some s)) = str "SOURCE" := by
  show (tokens (str "SOURCE      " ++ s.name)).headI = str "SOURCE"
  rw [show str "SOURCE      " ++ s.name =
    spaces 0 ++ (str "SOURCE" ++ (spaces (5 + 1) ++ s.name)) from rfl]
  exact tokens_headI_pref 0 5 "SOURCE" s.name (by decide) (by decide)

theorem sectionKeyword_reference (idx : Nat) (r : Reference) :
    sectionKeyword (referenceLines idx r) = str "REFERENCE" := by
  show (tokens (str "REFERENCE   " ++ natChars idx)).headI = str "REFERENCE"
  rw [show str "REFERENCE   " ++ natChars idx =
    spaces 0 ++ (str "REFERENCE" ++ (spaces (2 + 1) ++ natChars idx)) from rfl]
  exact tokens_headI_pref 0 2 "REFERENCE" (natChars idx) (by decide) (by decide)

theorem sectionKeyword_features (f : Feature) (fs : List Feature) :
    sectionKeyword (featuresSection (f :: fs)) = str "FEATURES" := by
  show (tokens (str "FEATURES             Location/Qualifiers")).headI =
    str "FEATURES"
  rw [show str "FEATURES             Location/Qualifiers" =
    spaces 0 ++ (str "FEATURES" ++
      (spaces (12 + 1) ++ str "Location/Qualifiers")) from rfl]
  exact tokens_headI_pref 0 12 "FEATURES" _ (by decide) (by decide)

theorem sectionKeyword_origin (s : Line) (hs : s ≠ []) :
    sectionKeyword (originSection s) = str "ORIGIN" := by
  rw [originSection, if_neg hs]
  show (tokens (str "ORIGIN      ")).headI = str "ORIGIN"
  decide

theorem applySection_definition (pr : PartialRecord) (d : Line) :
    applySection pr [str "DEFINITION  " ++ d] =
      .ok { pr with definition := some d } := by
  rw [applySection_eq, sectionKeyword_definition, if_pos rfl]
  rw [show ([str "DEFINITION  " ++ d] : List Line).headI =
    str "DEFINITION  " ++ d from rfl, drop12_pref _ _ (by decide)]

theorem applySection_source (pr : PartialRecord) (s : Source)
    (hs : wfSource s = true) :
    applySection pr (sourceLines (some s)) = .ok { pr with source := some s } := by
  rw [applySection_eq, sectionKeyword_source]
  rw [if_neg (by decide), if_pos rfl, parseSource_sourceLines s hs]

theorem applySection_reference (pr : PartialRecord) (idx : Nat) (r : Reference)
    (hr : wfReference r = true) :
    applySection pr (referenceLines idx r) =
      .ok { pr with references := pr.references ++ [r] } := by
  rw [applySection_eq, sectionKeyword_reference]
  rw [if_neg (by decide), if_neg (by decide), if_pos rfl,
    parseReference_referenceLines idx r hr]

theorem applySection_features (pr : PartialRecord) (f : Feature)
    (fs : List Feature) (hwf : (f :: fs).all wfFeature = true) :
    applySection pr (featuresSection (f :: fs)) =
      .ok { pr with features := f :: fs } := by
  rw [applySection_eq, sectionKeyword_features]
  rw [if_neg (by decide), if_neg (by decide), if_neg (by decide), if_pos rfl,
    parseFeatures_section (f :: fs) hwf]

theorem applySection_origin (pr : PartialRecord) (s : Line) (hs : s ≠ [])
    (hres : s.all isResidue = true) :
    applySection pr (originSection s) = .ok { pr with sequence := s } := by
  rw [applySection_eq, sectionKeyword_origin s hs]
  rw [if_neg (by decide), if_neg (by decide), if_neg (by decide),
    if_neg (by decide), if_pos rfl, parseOrigin_originSection s hres]

theorem foldlM_segA (seg rest : List (List Line)) (p q : PartialRecord)
    (h : seg.foldlM applySection p = .ok q) :
    (seg ++ rest).foldlM applySection p = rest.foldlM applySection q := by
  rw [foldlM_append_except, h]
  rfl

theorem foldlM_refs (rs : List Reference) : ∀ (i : Nat) (pr : PartialRecord),
    rs.all wfReference = true →
    ((rs.enumFrom i).map (fun p => referenceLines p.1 p.2)).foldlM
        applySection pr =
      .ok { pr with references := pr.references ++ rs } := by
  induction rs with
  | nil =>
    intro i pr _
    rw [show pr.references ++ [] = pr.references from by simp]
    rfl
  | cons a as ih =>
    intro i pr hwf
    rw [List.all_cons, Bool.and_eq_true] at hwf
    rw [show ((a :: as).enumFrom i).map (fun p => referenceLines p.1 p.2) =
      referenceLines i a :: ((as.enumFrom (i + 1)).map
        (fun p => referenceLines p.1 p.2)) from rfl]
    rw [show (referenceLines i a :: ((as.enumFrom (i + 1)).map
        (fun p => referenceLines p.1 p.2))).foldlM applySection pr =
      applySection pr (referenceLines i a) >>= fun pr1 =>
        ((as.enumFrom (i + 1)).map (fun p => referenceLines p.1 p.2)).foldlM
          applySection pr1 from rfl]
    rw [applySection_reference pr i a hwf.1]
    show ((as.enumFrom (i + 1)).map (fun p => referenceLines p.1 p.2)).foldlM
      applySection { pr with references := pr.references ++ [a] } = _
    rw [ih (i + 1) _ hwf.2]
    rw [show (pr.references ++ [a]) ++ as = pr.references ++ a :: as from by simp]

theorem isContLine_locus (r : Record) (n : Nat) :
    isContLine (locusLineD r n) = false := rfl

theorem dumpBody_groups (r : Record) (n : Nat) (hwf : WFRecord r = true) :
    groupByLabel (fun l => !(isContLine l)) (dumpBodyD r n).length
        (dumpBodyD r n) =
      [locusLineD r n] ::
        (optGroup (optSection "DEFINITION  " r.definition) ++
         optGroup (sourceLines r.source) ++
         (r.references.enumFrom 1).map (fun p => referenceLines p.1 p.2) ++
         optGroup (featuresSection r.features) ++
         optGroup (originSection r.sequence)) := by
  obtain ⟨hname, hmol, hdiv, hdate, hsrc, hrefs, hfeats, hres, hlen⟩ :=
    WFRecord_spec hwf
  have hflat : ([locusLineD r n] ::
      (optGroup (optSection "DEFINITION  " r.definition) ++
       optGroup (sourceLines r.source) ++
       (r.references.enumFrom 1).map (fun p => referenceLines p.1 p.2) ++
       optGroup (featuresSection r.features) ++
       optGroup (originSection r.sequence))).flatten = dumpBodyD r n := by
    simp only [List.flatten_cons, List.flatten_append, optGroup_flatten]
    rw [dumpBodyD, referencesLines]
    simp [List.flatMap_def]
  have hgood : GoodBlocks (fun l => !(isContLine l))
      ([locusLineD r n] ::
        (optGroup (optSection "DEFINITION  " r.definition) ++
         optGroup (sourceLines r.source) ++
         (r.references.enumFrom 1).map (fun p => referenceLines p.1 p.2) ++
         optGroup (featuresSection r.features) ++
         optGroup (originSection r.sequence))) := by
    intro g hg
    rw [List.mem_cons] at hg
    rcases hg with rfl | hg
    · exact ⟨by simp, rfl, by simp⟩
    simp only [List.mem_append] at hg
    rcases hg with ((((hg | hg) | hg) | hg) | hg)
    · obtain ⟨rfl, hne⟩ := mem_optGroup hg
      rcases hd : r.definition with _ | d
      · rw [hd] at hne
        exact absurd rfl hne
      · rw [hd] at hne
        exact ⟨by simp [optSection], rfl, by simp [optSection]⟩
    · obtain ⟨rfl, hne⟩ := mem_optGroup hg
      rcases hs : r.source with _ | s
      · rw [hs] at hne
        exact absurd rfl hne
      · rw [hs] at hne
        obtain ⟨sname, slin⟩ := s
        refine ⟨by simp [sourceLines], rfl, ?_⟩
        · intro l hl
          rw [show (sourceLines (some ⟨sname, slin⟩)).tail =
            (if slin = [] then []
             else [str "  ORGANISM  " ++ joinSepSp ';' slin]) from rfl] at hl
          by_cases hsl : slin = []
          · rw [if_pos hsl] at hl
            simp at hl
          · rw [if_neg hsl] at hl
            simp only [List.mem_singleton] at hl
            subst hl
            rfl
    · rw [List.mem_map] at hg
      obtain ⟨⟨idx, ref⟩, hmem, rfl⟩ := hg
      refine ⟨by simp [referenceLines], rfl, ?_⟩
      · intro l hl
        rw [show (referenceLines idx ref).tail =
          ((if ref.authors = [] then []
            else [str "  AUTHORS   " ++ joinSepSp ',' ref.authors]) ++
           optSection "  TITLE     " ref.title ++
           optSection "  JOURNAL   " ref.journal ++
           pubmedSeg ref.pubmed ++
           optSection "  REMARK    " ref.remark) from rfl] at hl
        simp only [List.mem_append] at hl
        rcases hl with ((((hl | hl) | hl) | hl) | hl)
        · by_cases hra : ref.authors = []
          · rw [if_pos hra] at hl
            simp at hl
          · rw [if_neg hra] at hl
            simp only [List.mem_singleton] at hl
            subst hl
            rfl
        · obtain ⟨x, rfl⟩ := mem_optSection hl
          rfl
        · obtain ⟨x, rfl⟩ := mem_optSection hl
          rfl
        · rcases hp : ref.pubmed with _ | pn
          · rw [hp] at hl
            simp [pubmedSeg] at hl
          · rw [hp] at hl
            simp only [pubmedSeg, List.mem_singleton] at hl
            subst hl
            rfl
        · obtain ⟨x, rfl⟩ := mem_optSection hl
          rfl
    · obtain ⟨rfl, hne⟩ := mem_optGroup hg
      rcases hf : r.features with _ | ⟨f, fs⟩
      · rw [hf] at hne
        exact absurd rfl hne
      · rw [hf] at hne
        refine ⟨by simp [featuresSection], rfl, ?_⟩
        · intro l hl
          rw [show (featuresSection (f :: fs)).tail =
            (f :: fs).flatMap featureLines from rfl] at hl
          rw [List.mem_flatMap] at hl
          obtain ⟨ft, _, hlf⟩ := hl
          rw [featureLines, List.mem_cons] at hlf
          rcases hlf with rfl | hlf
          · show (!(isContLine (spaces 5 ++ padRight ft.kind 16 ++
              locChars ft.location))) = false
            rw [show isContLine (spaces 5 ++ padRight ft.kind 16 ++
              locChars ft.location) = true from by
                rw [List.append_assoc]
                exact isContLine_space 5 _ (by omega)]
            rfl
          · rw [List.mem_flatMap] at hlf
            obtain ⟨q, _, hlq⟩ := hlf
            rw [qualLines_eq, List.mem_map] at hlq
            obtain ⟨raw, _, rfl⟩ := hlq
            show (!(isContLine (spaces 21 ++ raw))) = false
            rw [isContLine_space 21 raw (by omega)]
            rfl
    · obtain ⟨rfl, hne⟩ := mem_optGroup hg
      have hsne : r.sequence ≠ [] := by
        intro he
        rw [originSection, if_pos he] at hne
        exact hne rfl
      rw [originSection, if_neg hsne]
      refine ⟨by simp, rfl, ?_⟩
      intro l hl
      rw [List.tail_cons] at hl
      have hc := originBodyAux_cont r.sequence.length 1 r.sequence (by omega)
        (by omega) l hl
      show (!(isContLine l)) = false
      rw [hc]
      rfl
  calc groupByLabel (fun l => !(isContLine l)) (dumpBodyD r n).length
        (dumpBodyD r n)
      = groupByLabel (fun l => !(isContLine l)) (dumpBodyD r n).length
          ([locusLineD r n] ::
            (optGroup (optSection "DEFINITION  " r.definition) ++
             optGroup (sourceLines r.source) ++
             (r.references.enumFrom 1).map (fun p => referenceLines p.1 p.2) ++
             optGroup (featuresSection r.features) ++
             optGroup (originSection r.sequence))).flatten := by rw [hflat]
    _ = _ := by
        apply groupByLabel_flatten _ _ hgood
        have hne : ∀ g ∈ ([locusLineD r n] ::
            (optGroup (optSection "DEFINITION  " r.definition) ++
             optGroup (sourceLines r.source) ++
             (r.references.enumFrom 1).map (fun p => referenceLines p.1 p.2) ++
             optGroup (featuresSection r.features) ++
             optGroup (originSection r.sequence))), g ≠ [] :=
          fun g hg => (hgood g hg).1
        have hge := length_flatten_ge _ hne
        rw [hflat] at hge
        exact hge

theorem foldlM_singletonA (g : List Line) (p : PartialRecord) :
    ([g] : List (List Line)).foldlM applySection p = applySection p g := by
  show applySection p g >>= (fun b => pure b) = applySection p g
  cases applySection p g <;> rfl

theorem parseRecordBody_dumpBodyD (r : Record) (n : Nat)
    (hwf : WFRecord r = true) (hn : n < 100000000) :
    parseRecordBody (dumpBodyD r n) =
      if n = r.sequence.length then .ok r
      else .error (.lengthMismatch n r.sequence.length) := by
  obtain ⟨hname, hmol, hdiv, hdate, hsrc, hrefs, hfeats, hres, hlen⟩ :=
    WFRecord_spec hwf
  have hmolW : match r.molecule_type with
      | none => True
      | some m => isWordTok m = true := by
    cases hm : r.molecule_type with
    | none => trivial
    | some m =>
      rw [hm] at hmol
      exact hmol.1
  have hnlen : (natChars n).length ≤ 11 := by
    have h8 : (10 : Nat) ^ 8 = 100000000 := by norm_num
    have := natChars_length_le (n := n) (k := 8) (by omega) (by omega)
    omega
  have hsk : sectionKeyword [locusLineD r n] = str "LOCUS" := by
    show (tokens (locusLineD r n)).headI = str "LOCUS"
    rw [tokens_locusLineD r n hname hmolW hdate hdiv hnlen]
    rfl
  have hloc := parseLocus_locusLineD r n hname hmol hdate hdiv hnlen
  show (match groupByLabel (fun l => !(isContLine l)) (dumpBodyD r n).length
      (dumpBodyD r n) with
    | [] => Except.error ParseErr.noLocus
    | g :: gs =>
      if sectionKeyword g = str "LOCUS" then
        match parseLocus g.headI with
        | .ok locus =>
          (match gs.foldlM applySection ⟨locus, none, none, [], [], []⟩ with
           | .ok pr => finalize pr
           | .error e => Except.error e)
        | .error e => Except.error e
      else Except.error ParseErr.noLocus) =
    if n = r.sequence.length then .ok r
    else .error (.lengthMismatch n r.sequence.length)
  rw [dumpBody_groups r n hwf]
  show (if sectionKeyword [locusLineD r n] = str "LOCUS" then
      match parseLocus ([locusLineD r n] : List Line).headI with
      | .ok locus =>
        (match (optGroup (optSection "DEFINITION  " r.definition) ++
            optGroup (sourceLines r.source) ++
            (r.references.enumFrom 1).map (fun p => referenceLines p.1 p.2) ++
            optGroup (featuresSection r.features) ++
            optGroup (originSection r.sequence)).foldlM applySection
              ⟨locus, none, none, [], [], []⟩ with
         | .ok pr => finalize pr
         | .error e => Except.error e)
      | .error e => Except.error e
    else Except.error ParseErr.noLocus) =
    if n = r.sequence.length then .ok r
    else .error (.lengthMismatch n r.sequence.length)
  rw [hsk, if_pos rfl,
    show ([locusLineD r n] : List Line).headI = locusLineD r n from rfl, hloc]
  show (match (optGroup (optSection "DEFINITION  " r.definition) ++
      optGroup (sourceLines r.source) ++
      (r.references.enumFrom 1).map (fun p => referenceLines p.1 p.2) ++
      optGroup (featuresSection r.features) ++
      optGroup (originSection r.sequence)).foldlM applySection
        ⟨⟨r.name, n, r.molecule_type, r.topology, r.division, r.date⟩,
          none, none, [], [], []⟩ with
    | .ok pr => finalize pr
    | .error e => Except.error e) =
    if n = r.sequence.length then .ok r
    else .error (.lengthMismatch n r.sequence.length)
  simp only [List.append_assoc]
  have hD : (optGroup (optSection "DEFINITION  " r.definition)).foldlM
      applySection ⟨⟨r.name, n, r.molecule_type, r.topology, r.division, r.date⟩,
        none, none, [], [], []⟩ =
      .ok ⟨⟨r.name, n, r.molecule_type, r.topology, r.division, r.date⟩,
        r.definition, none, [], [], []⟩ := by
    rcases hd : r.definition with _ | d
    · rfl
    · rw [show optGroup (optSection "DEFINITION  " (some d)) =
        [[str "DEFINITION  " ++ d]] from rfl, foldlM_singletonA,
        applySection_definition]
  have hS : (optGroup (sourceLines r.source)).foldlM applySection
      ⟨⟨r.name, n, r.molecule_type, r.topology, r.division, r.date⟩,
        r.definition, none, [], [], []⟩ =
      .ok ⟨⟨r.name, n, r.molecule_type, r.topology, r.division, r.date⟩,
        r.definition, r.source, [], [], []⟩ := by
    rcases hs : r.source with _ | s
    · rfl
    · rw [hs] at hsrc
      rw [show optGroup (sourceLines (some s)) = [sourceLines (some s)] from by
        obtain ⟨sn, sl⟩ := s
        rfl, foldlM_singletonA, applySection_source _ s hsrc]
  have hR : (((r.references.enumFrom 1).map
      (fun p => referenceLines p.1 p.2)).foldlM applySection
      ⟨⟨r.name, n, r.molecule_type, r.topology, r.division, r.date⟩,
        r.definition, r.source, [], [], []⟩) =
      .ok ⟨⟨r.name, n, r.molecule_type, r.topology, r.division, r.date⟩,
        r.definition, r.source, r.references, [], []⟩ := by
    rw [foldlM_refs r.references 1 _ hrefs]
    rfl
  have hF : (optGroup (featuresSection r.features)).foldlM applySection
      ⟨⟨r.name, n, r.molecule_type, r.topology, r.division, r.date⟩,
        r.definition, r.source, r.references, [], []⟩ =
      .ok ⟨⟨r.name, n, r.molecule_type, r.topology, r.division, r.date⟩,
        r.definition, r.source, r.references, r.features, []⟩ := by
    rcases hf : r.features with _ | ⟨f, fs⟩
    · rfl
    · rw [hf] at hfeats
      rw [show optGroup (featuresSection (f :: fs)) =
        [featuresSection (f :: fs)] from rfl, foldlM_singletonA,
        applySection_features _ f fs hfeats]
  have hO : (optGroup (originSection r.sequence)).foldlM applySection
      ⟨⟨r.name, n, r.molecule_type, r.topology, r.division, r.date⟩,
        r.definition, r.source, r.references, r.features, []⟩ =
      .ok ⟨⟨r.name, n, r.molecule_type, r.topology, r.division, r.date⟩,
        r.definition, r.source, r.references, r.features, r.sequence⟩ := by
    rcases hq : r.sequence with _ | ⟨c, cs⟩
    · rfl
    · rw [hq] at hres
      rw [show optGroup (originSection (c :: cs)) =
        [originSection (c :: cs)] from by
          rw [originSection, if_neg (by simp)]
          rfl,
        foldlM_singletonA,
        applySection_origin _ (c :: cs) (by simp) hres]
  rw [foldlM_segA _ _ _ _ hD, foldlM_segA _ _ _ _ hS, foldlM_segA _ _ _ _ hR,
    foldlM_segA _ _ _ _ hF, hO]
  rfl

theorem originBodyAux_shape : ∀ (fuel pos : Nat) (s : Line) (l : Line),
    l ∈ originBodyAux fuel pos s → ∃ p G, l = padLeft (natChars p) 9 ++ G := by
  intro fuel
  induction fuel with
  | zero =>
    intro pos s l hl
    cases s with
    | nil => simp [originBodyAux] at hl
    | cons c cs =>
      rw [show originBodyAux 0 pos (c :: cs) =
        [padLeft (natChars pos) 9 ++
          ((chunkList 10 (c :: cs)).map (fun g => ' ' :: g)).flatten] from rfl] at hl
      simp only [List.mem_singleton] at hl
      exact ⟨pos, _, hl⟩
  | succ fuel ih =>
    intro pos s l hl
    cases s with
    | nil => simp [originBodyAux] at hl
    | cons c cs =>
      rw [show originBodyAux (fuel + 1) pos (c :: cs) =
        (padLeft (natChars pos) 9 ++
          ((chunkList 10 (c :: cs.take 59)).map (fun g => ' ' :: g)).flatten) ::
          originBodyAux fuel (pos + 60) (cs.drop 59) from rfl] at hl
      rw [List.mem_cons] at hl
      rcases hl with rfl | hl
      · exact ⟨pos, _, rfl⟩
      · exact ih _ _ l hl

theorem padLeft_headI_ne (pos : Nat) (G : Line) :
    (padLeft (natChars pos) 9 ++ G).headI ≠ '/' := by
  rw [padLeft, List.append_assoc]
  rcases hk : 9 - (natChars pos).length with _ | k
  · rw [show spaces 0 = ([] : Line) from rfl, List.nil_append]
    rw [headI_append_ne_nil _ _ (natChars_ne_nil pos)]
    intro he
    have hd := natChars_headI_digit pos
    rw [he] at hd
    exact absurd hd (by decide)
  · rw [spaces_succ_cons, List.cons_append, List.headI_cons]
    decide

theorem dumpBody_headI (r : Record) (n : Nat) :
    ∀ l ∈ dumpBodyD r n, l.headI ≠ '/' := by
  intro l hl
  rw [dumpBodyD, List.mem_cons] at hl
  rcases hl with rfl | hl
  · rw [show (locusLineD r n).headI = 'L' from rfl]
    decide
  simp only [List.mem_append] at hl
  rcases hl with ((((hl | hl) | hl) | hl) | hl)
  · obtain ⟨x, rfl⟩ := mem_optSection hl
    rw [show (str "DEFINITION  " ++ x).headI = 'D' from rfl]
    decide
  · rcases hs : r.source with _ | s
    · rw [hs] at hl
      simp [sourceLines] at hl
    · rw [hs] at hl
      obtain ⟨sn, sl⟩ := s
      rw [show sourceLines (some ⟨sn, sl⟩) =
        (str "SOURCE      " ++ sn) ::
          (if sl = [] then []
           else [str "  ORGANISM  " ++ joinSepSp ';' sl]) from rfl,
        List.mem_cons] at hl
      rcases hl with rfl | hl
      · rw [show (str "SOURCE      " ++ sn).headI = 'S' from rfl]
        decide
      · by_cases hsl : sl = []
        · rw [if_pos hsl] at hl
          simp at hl
        · rw [if_neg hsl] at hl
          simp only [List.mem_singleton] at hl
          subst hl
          rw [show (str "  ORGANISM  " ++ joinSepSp ';' sl).headI = ' ' from rfl]
          decide
  · rw [referencesLines, List.mem_flatMap] at hl
    obtain ⟨⟨idx, ref⟩, _, hl⟩ := hl
    rw [referenceLines, List.mem_cons] at hl
    rcases hl with rfl | hl
    · rw [show (str "REFERENCE   " ++ natChars idx).headI = 'R' from rfl]
      decide
    simp only [List.mem_append] at hl
    rcases hl with ((((hl | hl) | hl) | hl) | hl)
    · by_cases hra : ref.authors = []
      · rw [if_pos hra] at hl
        simp at hl
      · rw [if_neg hra] at hl
        simp only [List.mem_singleton] at hl
        subst hl
        rw [show (str "  AUTHORS   " ++ joinSepSp ',' ref.authors).headI =
          ' ' from rfl]
        decide
    · obtain ⟨x, rfl⟩ := mem_optSection hl
      rw [show (str "  TITLE     " ++ x).headI = ' ' from rfl]
      decide
    · obtain ⟨x, rfl⟩ := mem_optSection hl
      rw [show (str "  JOURNAL   " ++ x).headI = ' ' from rfl]
      decide
    · rcases hp : ref.pubmed with _ | pn
      · rw [hp] at hl
        simp [pubmedSeg] at hl
      · rw [hp] at hl
        simp only [pubmedSeg, List.mem_singleton] at hl
        subst hl
        rw [show (str "   PUBMED   " ++ natChars pn).headI = ' ' from rfl]
        decide
    · obtain ⟨x, rfl⟩ := mem_optSection hl
      rw [show (str "  REMARK    " ++ x).headI = ' ' from rfl]
      decide
  · rcases hf : r.features with _ | ⟨f, fs⟩
    · rw [hf] at hl
      simp [featuresSection] at hl
    · rw [hf, featuresSection, List.mem_cons] at hl
      rcases hl with rfl | hl
      · rw [show (str "FEATURES             Location/Qualifiers").headI =
          'F' from rfl]
        decide
      · rw [List.mem_flatMap] at hl
        obtain ⟨ft, _, hlf⟩ := hl
        rw [featureLines, List.mem_cons] at hlf
        rcases hlf with rfl | hlf
        · rw [show (spaces 5 ++ padRight ft.kind 16 ++
            locChars ft.location).headI = ' ' from rfl]
          decide
        · rw [List.mem_flatMap] at hlf
          obtain ⟨q, _, hlq⟩ := hlf
          rw [qualLines_eq, List.mem_map] at hlq
          obtain ⟨raw, _, rfl⟩ := hlq
          rw [show (spaces 21 ++ raw).headI = ' ' from rfl]
          decide
  · by_cases hq : r.sequence = []
    · rw [originSection, if_pos hq] at hl
      simp at hl
    · rw [originSection, if_neg hq, List.mem_cons] at hl
      rcases hl with rfl | hl
      · rw [show (str "ORIGIN      ").headI = 'O' from rfl]
        decide
      · obtain ⟨p, G, rfl⟩ := originBodyAux_shape _ _ _ l hl
        exact padLeft_headI_ne p G

theorem dumpBody_ne_term (r : Record) (n : Nat) :
    ∀ l ∈ dumpBodyD r n, ¬ l = str "//" := by
  intro l hl he
  have := dumpBody_headI r n l hl
  rw [he] at this
  exact this rfl

theorem takeBody_no_term : ∀ (lines : List Line),
    (∀ l ∈ lines, ¬ l = str "//") → takeBody lines = (lines, none) := by
  intro lines
  induction lines with
  | nil => intro _; rfl
  | cons l ls ih =>
    intro h
    have hl : ¬ l = str "//" := h l (by simp)
    rw [takeBody, if_neg hl, ih (fun x hx => h x (by simp [hx]))]

theorem takeBody_append (body rest : List Line)
    (h : ∀ l ∈ body, ¬ l = str "//") :
    takeBody (body ++ (str "//" :: rest)) = (body, some rest) := by
  induction body with
  | nil =>
    rw [List.nil_append, takeBody, if_pos rfl]
  | cons l ls ih =>
    have hl : ¬ l = str "//" := h l (by simp)
    rw [List.cons_append, takeBody, if_neg hl,
      ih (fun x hx => h x (by simp [hx]))]

theorem takeBody_some : ∀ (lines body rest : List Line),
    takeBody lines = (body, some rest) → lines = body ++ str "//" :: rest := by
  intro lines
  induction lines with
  | nil =>
    intro body rest h
    simp [takeBody] at h
  | cons l ls ih =>
    intro body rest h
    by_cases hl : l = str "//"
    · rw [takeBody, if_pos hl] at h
      rw [Prod.mk.injEq] at h
      obtain ⟨rfl, h2⟩ := h
      rw [Option.some.injEq] at h2
      subst h2
      rw [hl]
      rfl
    · rw [takeBody, if_neg hl] at h
      rw [Prod.mk.injEq] at h
      obtain ⟨rfl, h2⟩ := h
      have h3 := ih (takeBody ls).1 rest ?_
      · rw [List.cons_append, ← h3]
      · rw [← h2]
    

theorem splitRecsF_no_term (fuel : Nat) (lines : List Line)
    (h : ∀ l ∈ lines, ¬ l = str "//") :
    splitRecsF fuel lines = ([], lines) := by
  cases lines with
  | nil => cases fuel <;> rfl
  | cons l ls =>
    cases fuel with
    | zero => rfl
    | succ f =>
      rw [show splitRecsF (f + 1) (l :: ls) =
        (match takeBody (l :: ls) with
         | (body, some rest) =>
           ((body :: (splitRecsF f rest).1), (splitRecsF f rest).2)
         | (_, none) => ([], l :: ls)) from rfl]
      rw [takeBody_no_term (l :: ls) h]

theorem splitRecsF_fuel : ∀ (k : Nat) (lines : List Line), lines.length ≤ k →
    ∀ f1 f2, lines.length ≤ f1 → lines.length ≤ f2 →
      splitRecsF f1 lines = splitRecsF f2 lines := by
  intro k
  induction k with
  | zero =>
    intro lines hk f1 f2 _ _
    have : lines = [] := by
      cases lines with
      | nil => rfl
      | cons a as => simp at hk
    subst this
    cases f1 <;> cases f2 <;> rfl
  | succ k ih =>
    intro lines hk f1 f2 h1 h2
    cases lines with
    | nil => cases f1 <;> cases f2 <;> rfl
    | cons l ls =>
      simp only [List.length_cons] at hk h1 h2
      obtain ⟨g1, rfl⟩ : ∃ g1, f1 = g1 + 1 := ⟨f1 - 1, by omega⟩
      obtain ⟨g2, rfl⟩ : ∃ g2, f2 = g2 + 1 := ⟨f2 - 1, by omega⟩
      rw [show splitRecsF (g1 + 1) (l :: ls) =
        (match takeBody (l :: ls) with
         | (body, some rest) =>
           ((body :: (splitRecsF g1 rest).1), (splitRecsF g1 rest).2)
         | (_, none) => ([], l :: ls)) from rfl]
      rw [show splitRecsF (g2 + 1) (l :: ls) =
        (match takeBody (l :: ls) with
         | (body, some rest) =>
           ((body :: (splitRecsF g2 rest).1), (splitRecsF g2 rest).2)
         | (_, none) => ([], l :: ls)) from rfl]
      rcases htb : takeBody (l :: ls) with ⟨body, _ | rest⟩
      · rfl
      · have hrec := takeBody_some (l :: ls) body rest htb
        have hlen : rest.length ≤ k ∧ rest.length ≤ g1 ∧ rest.length ≤ g2 := by
          have := congrArg List.length hrec
          simp only [List.length_cons, List.length_append] at this
          omega
        show (body :: (splitRecsF g1 rest).1, (splitRecsF g1 rest).2) =
          (body :: (splitRecsF g2 rest).1, (splitRecsF g2 rest).2)
        rw [ih rest hlen.1 g1 g2 hlen.2.1 hlen.2.2]

theorem splitRecs_dump : ∀ (rs : List Record), rs.all WFRecord = true →
    ∀ fuel, (dump rs).length ≤ fuel →
      splitRecsF fuel (dump rs) =
        (rs.map (fun r => dumpBodyD r r.sequence.length), []) := by
  intro rs
  induction rs with
  | nil =>
    intro _ fuel _
    cases fuel <;> rfl
  | cons r rs ih =>
    intro hwf fuel hfuel
    rw [List.all_cons, Bool.and_eq_true] at hwf
    have hshape : dump (r :: rs) =
        dumpBodyD r r.sequence.length ++ (str "//" :: dump rs) := by
      rw [show dump (r :: rs) = dumpRecordLines r ++ dump rs from by
        simp [dump], dumpRecordLines]
      simp
    obtain ⟨l0, body, hbody⟩ : ∃ l0 body,
        dumpBodyD r r.sequence.length = l0 :: body :=
      ⟨_, _, rfl⟩
    have hlen1 : 1 ≤ (dump (r :: rs)).length := by
      rw [hshape, hbody]
      simp
    obtain ⟨f, rfl⟩ : ∃ f, fuel = f + 1 := ⟨fuel - 1, by omega⟩
    rw [hshape, hbody, List.cons_append]
    rw [show splitRecsF (f + 1) (l0 :: (body ++ str "//" :: dump rs)) =
      (match takeBody (l0 :: (body ++ str "//" :: dump rs)) with
       | (b, some rest) =>
         ((b :: (splitRecsF f rest).1), (splitRecsF f rest).2)
       | (_, none) => ([], l0 :: (body ++ str "//" :: dump rs))) from rfl]
    rw [show (l0 :: (body ++ str "//" :: dump rs)) =
      ((l0 :: body) ++ str "//" :: dump rs) from rfl]
    rw [takeBody_append (l0 :: body) (dump rs) ?hterm]
    case hterm =>
      rw [← hbody]
      exact dumpBody_ne_term r r.sequence.length
    have hflen : (dump rs).length ≤ f := by
      have := congrArg List.length hshape
      rw [hbody] at this
      simp only [List.length_cons, List.length_append] at this hfuel
      omega
    show ((l0 :: body) :: (splitRecsF f (dump rs)).1,
      (splitRecsF f (dump rs)).2) = _
    rw [ih hwf.2 f hflen, ← hbody, List.map_cons]

theorem parseRecordBody_self (r : Record) (hwf : WFRecord r = true) :
    parseRecordBody (dumpBodyD r r.sequence.length) = .ok r := by
  have hlen : r.sequence.length < 100000000 := (WFRecord_spec hwf).2.2.2.2.2.2.2.2
  rw [parseRecordBody_dumpBodyD r r.sequence.length hwf hlen, if_pos rfl]

theorem mapM_parseRecordBody (rs : List Record) (h : rs.all WFRecord = true) :
    (rs.map (fun r => dumpBodyD r r.sequence.length)).mapM parseRecordBody =
      .ok rs := by
  induction rs with
  | nil => rfl
  | cons r rs ih =>
    rw [List.all_cons, Bool.and_eq_true] at h
    rw [List.map_cons, List.mapM_cons, parseRecordBody_self r h.1, ih h.2]
    rfl

theorem load_dump (rs : List Record) (h : rs.all WFRecord = true) :
    load (dump rs) = .ok rs := by
  show (if (splitRecsF (dump rs).length (dump rs)).2.all isBlank then
      (splitRecsF (dump rs).length (dump rs)).1.mapM parseRecordBody
    else Except.error ParseErr.truncated) = .ok rs
  rw [splitRecs_dump rs h (dump rs).length le_rfl]
  show (if ([] : List Line).all isBlank then
      (rs.map (fun r => dumpBodyD r r.sequence.length)).mapM parseRecordBody
    else Except.error ParseErr.truncated) = .ok rs
  rw [if_pos (show ([] : List Line).all isBlank = true from rfl),
    mapM_parseRecordBody rs h]

theorem load_mismatch (r : Record) (n : Nat) (hwf : WFRecord r = true)
    (hn : n < 100000000) (hne : n ≠ r.sequence.length) :
    load (dumpBodyD r n ++ [str "//"]) =
      .error (.lengthMismatch n r.sequence.length) := by
  obtain ⟨l0, body, hbody⟩ : ∃ l0 body, dumpBodyD r n = l0 :: body := ⟨_, _, rfl⟩
  have hsp : splitRecsF (dumpBodyD r n ++ [str "//"]).length
      (dumpBodyD r n ++ [str "//"]) = ([dumpBodyD r n], []) := by
    rw [hbody]
    have hlen : ((l0 :: body) ++ [str "//"]).length = body.length + 2 := by
      simp
    rw [hlen]
    rw [show ((l0 :: body) ++ [str "//"]) =
      l0 :: (body ++ str "//" :: []) from rfl]
    rw [show splitRecsF (body.length + 2) (l0 :: (body ++ str "//" :: [])) =
      (match takeBody (l0 :: (body ++ str "//" :: [])) with
       | (b, some rest) =>
         ((b :: (splitRecsF (body.length + 1) rest).1),
           (splitRecsF (body.length + 1) rest).2)
       | (_, none) => ([], l0 :: (body ++ str "//" :: []))) from rfl]
    rw [show (l0 :: (body ++ str "//" :: [])) =
      ((l0 :: body) ++ str "//" :: []) from rfl]
    rw [takeBody_append (l0 :: body) [] ?hterm]
    case hterm =>
      rw [← hbody]
      exact dumpBody_ne_term r n
    rfl
  show (if (splitRecsF (dumpBodyD r n ++ [str "//"]).length
      (dumpBodyD r n ++ [str "//"])).2.all isBlank then
      (splitRecsF (dumpBodyD r n ++ [str "//"]).length
        (dumpBodyD r n ++ [str "//"])).1.mapM parseRecordBody
    else Except.error ParseErr.truncated) = _
  rw [hsp]
  show ([dumpBodyD r n] : List (List Line)).mapM parseRecordBody = _
  rw [List.mapM_cons, parseRecordBody_dumpBodyD r n hwf hn, if_neg hne]
  rfl

theorem loadChunks_io {ε : Type} (e : ε) (chunk : List Line)
    (rest : List (Except ε (List Line)))
    (h : ∀ l ∈ chunk, ¬ l = str "//") :
    loadStream ((.ok chunk) :: .error e :: rest) = .error (.io e) := by
  show (match (splitRecsF ([] ++ chunk).length ([] ++ chunk)).1.mapM
      parseRecordBody with
    | .error e2 => Except.error (LoadErr.syntaxErr e2)
    | .ok rs =>
      match loadChunks (.error e :: rest)
          (splitRecsF ([] ++ chunk).length ([] ++ chunk)).2 with
      | .ok rs2 => Except.ok (rs ++ rs2)
      | .error e2 => Except.error e2) = Except.error (LoadErr.io e)
  rw [List.nil_append, splitRecsF_no_term chunk.length chunk h]
  rfl

theorem iterAux_eq_mapM : ∀ (k : Nat) (lines : List Line), lines.length ≤ k →
    ∀ fuel, lines.length < fuel →
    (splitRecsF lines.length lines).2.all isBlank = true →
    iterAux fuel lines =
      (splitRecsF lines.length lines).1.mapM parseRecordBody := by
  intro k
  induction k with
  | zero =>
    intro lines hk fuel hf _
    have hnil : lines = [] := by
      cases lines with
      | nil => rfl
      | cons a as => simp at hk
    subst hnil
    obtain ⟨f, rfl⟩ : ∃ f, fuel = f + 1 := ⟨fuel - 1, by omega⟩
    rfl
  | succ k ih =>
    intro lines hk fuel hf hblank
    obtain ⟨f, rfl⟩ : ∃ f, fuel = f + 1 := ⟨fuel - 1, by omega⟩
    cases lines with
    | nil => rfl
    | cons l ls =>
      show (match readerNext (l :: ls) with
        | none => Except.ok []
        | some (.error e, _) => Except.error e
        | some (.ok r, rest) =>
          match iterAux f rest with
          | .ok rs => Except.ok (r :: rs)
          | .error e => Except.error e) = _
      rw [readerNext]
      rcases htb : takeBody (l :: ls) with ⟨body, _ | rest⟩
      · rw [show (match ((body, none) : List Line × Option (List Line)) with
          | (body, some rest) => some (parseRecordBody body, rest)
          | (_, none) => if (l :: ls).all isBlank then none
              else some (Except.error ParseErr.truncated, [])) =
          (if (l :: ls).all isBlank then none
           else some (Except.error ParseErr.truncated, [])) from rfl]
        have hsp : splitRecsF (l :: ls).length (l :: ls) = ([], l :: ls) := by
          rw [show splitRecsF (l :: ls).length (l :: ls) =
            (match takeBody (l :: ls) with
             | (b, some rest) =>
               ((b :: (splitRecsF ls.length rest).1),
                 (splitRecsF ls.length rest).2)
             | (_, none) => ([], l :: ls)) from rfl, htb]
        rw [hsp] at hblank
        rw [if_pos hblank, hsp]
        rfl
      · have hrec := takeBody_some (l :: ls) body rest htb
        have hlen : rest.length ≤ ls.length := by
          have := congrArg List.length hrec
          simp only [List.length_cons, List.length_append] at this
          omega
        have hsp : splitRecsF (l :: ls).length (l :: ls) =
            (body :: (splitRecsF rest.length rest).1,
              (splitRecsF rest.length rest).2) := by
          rw [show splitRecsF (l :: ls).length (l :: ls) =
            (match takeBody (l :: ls) with
             | (b, some rest) =>
               ((b :: (splitRecsF ls.length rest).1),
                 (splitRecsF ls.length rest).2)
             | (_, none) => ([], l :: ls)) from rfl, htb]
          show (body :: (splitRecsF ls.length rest).1,
            (splitRecsF ls.length rest).2) = _
          rw [splitRecsF_fuel ls.length rest hlen ls.length rest.length hlen
            le_rfl]
        rw [hsp] at hblank ⊢
        rw [show (match ((body, some rest) :
            List Line × Option (List Line)) with
          | (body, some rest) => some (parseRecordBody body, rest)
          | (_, none) => if (l :: ls).all isBlank then none
              else some (Except.error ParseErr.truncated, [])) =
          some (parseRecordBody body, rest) from rfl]
        rw [List.mapM_cons]
        cases hpb : parseRecordBody body with
        | error e => rfl
        | ok r =>
          show (match iterAux f rest with
            | .ok rs => Except.ok (r :: rs)
            | .error e => Except.error e) = _
          have hk2 : rest.length ≤ k := by
            simp only [List.length_cons] at hk
            omega
          have hf2 : rest.length < f := by
            simp only [List.length_cons] at hf
            omega
          rw [ih rest hk2 f hf2 hblank]
          cases hmm : (splitRecsF rest.length rest).1.mapM parseRecordBody with
          | error e => rfl
          | ok rs => rfl

theorem iter_eq_load (lines : List Line)
    (h : (splitRecsF lines.length lines).2.all isBlank = true) :
    iter lines = load lines := by
  rw [iter, iterAux_eq_mapM lines.length lines le_rfl (lines.length + 1)
    (by omega) h]
  show _ = (if (splitRecsF lines.length lines).2.all isBlank then
      (splitRecsF lines.length lines).1.mapM parseRecordBody
    else Except.error ParseErr.truncated)
  rw [if_pos h]

theorem Strand.flip_flip (s : Strand) : s.flip.flip = s := by
  cases s <;> rfl

theorem strand_nest (k : Nat) (l : Location) :
    Location.strand (nestComplement k l) =
      (if k % 2 = 0 then Location.strand l else (Location.strand l).flip) := by
  induction k with
  | zero => rfl
  | succ k ih =>
    rw [show nestComplement (k + 1) l = .complement (nestComplement k l) from rfl]
    rw [show Location.strand (Location.complement (nestComplement k l)) =
      (Location.strand (nestComplement k l)).flip from rfl, ih]
    rcases Nat.even_or_odd k with he | ho
    · have h1 : k % 2 = 0 := Nat.even_iff.1 he
      have h2 : (k + 1) % 2 = 1 := by omega
      rw [if_pos h1, if_neg (by omega)]
    · have h1 : k % 2 = 1 := Nat.odd_iff.1 ho
      have h2 : (k + 1) % 2 = 0 := by omega
      rw [if_neg (by omega), if_pos h2, Strand.flip_flip]

theorem compDepth_nest (k : Nat) (l : Location) :
    Location.compDepth (nestComplement k l) = k + Location.compDepth l := by
  induction k with
  | zero =>
    rw [show nestComplement 0 l = l from rfl]
    omega
  | succ k ih =>
    rw [show nestComplement (k + 1) l = .complement (nestComplement k l) from rfl]
    rw [show Location.compDepth (Location.complement (nestComplement k l)) =
      Location.compDepth (nestComplement k l) + 1 from rfl, ih]
    omega

theorem padLeft_len9 (pos : Nat) (h : (natChars pos).length ≤ 9) :
    (padLeft (natChars pos) 9).length = 9 := by
  rw [padLeft]
  simp only [List.length_append, spaces, List.length_replicate]
  omega

theorem originBodyAux_get : ∀ (fuel pos : Nat) (s : Line),
    pos + s.length ≤ 100000000 →
    ∀ i line, (originBodyAux fuel pos s).get? i = some line →
      line.take 9 = padLeft (natChars (pos + 60 * i)) 9 := by
  have hpad : ∀ (pos : Nat) (G : Line), pos ≤ 100000000 →
      (padLeft (natChars pos) 9 ++ G).take 9 = padLeft (natChars pos) 9 := by
    intro pos G hb
    have hlen : (natChars pos).length ≤ 9 := by
      have h9 : (10 : Nat) ^ 9 = 1000000000 := by norm_num
      exact natChars_length_le (by omega) (by omega)
    have h := take_prefix_append (padLeft (natChars pos) 9) G
    rw [padLeft_len9 pos hlen] at h
    exact h
  intro fuel
  induction fuel with
  | zero =>
    intro pos s hb i line hl
    cases s with
    | nil => simp [originBodyAux] at hl
    | cons c cs =>
      rw [show originBodyAux 0 pos (c :: cs) =
        [padLeft (natChars pos) 9 ++
          ((chunkList 10 (c :: cs)).map (fun g => ' ' :: g)).flatten] from rfl] at hl
      cases i with
      | zero =>
        rw [show ([padLeft (natChars pos) 9 ++
          ((chunkList 10 (c :: cs)).map (fun g => ' ' :: g)).flatten] :
            List Line).get? 0 = some (padLeft (natChars pos) 9 ++
          ((chunkList 10 (c :: cs)).map (fun g => ' ' :: g)).flatten) from rfl,
          Option.some.injEq] at hl
        subst hl
        rw [show pos + 60 * 0 = pos from by omega]
        exact hpad pos _ (by simp at hb; omega)
      | succ j => simp at hl
  | succ fuel ih =>
    intro pos s hb i line hl
    cases s with
    | nil => simp [originBodyAux] at hl
    | cons c cs =>
      rw [show originBodyAux (fuel + 1) pos (c :: cs) =
        (padLeft (natChars pos) 9 ++
          ((chunkList 10 (c :: cs.take 59)).map (fun g => ' ' :: g)).flatten) ::
          originBodyAux fuel (pos + 60) (cs.drop 59) from rfl] at hl
      cases i with
      | zero =>
        rw [show ((padLeft (natChars pos) 9 ++
          ((chunkList 10 (c :: cs.take 59)).map (fun g => ' ' :: g)).flatten) ::
            originBodyAux fuel (pos + 60) (cs.drop 59)).get? 0 =
          some (padLeft (natChars pos) 9 ++
            ((chunkList 10 (c :: cs.take 59)).map
              (fun g => ' ' :: g)).flatten) from rfl, Option.some.injEq] at hl
        subst hl
        rw [show pos + 60 * 0 = pos from by omega]
        exact hpad pos _ (by simp at hb; omega)
      | succ j =>
        rw [show ((padLeft (natChars pos) 9 ++
          ((chunkList 10 (c :: cs.take 59)).map (fun g => ' ' :: g)).flatten) ::
            originBodyAux fuel (pos + 60) (cs.drop 59)).get? (j + 1) =
          (originBodyAux fuel (pos + 60) (cs.drop 59)).get? j from rfl] at hl
        by_cases hcs : cs.drop 59 = []
        · rw [hcs] at hl
          simp [originBodyAux] at hl
        · have hlen : 59 < cs.length := by
            by_contra hc
            exact hcs (List.drop_eq_nil_of_le (by omega))
          have hb2 : pos + 60 + (cs.drop 59).length ≤ 100000000 := by
            have : (cs.drop 59).length = cs.length - 59 := by simp
            simp only [List.length_cons] at hb
            omega
          have := ih (pos + 60) (cs.drop 59) hb2 j line hl
          rw [this, show pos + 60 + 60 * j = pos + 60 * (j + 1) from by omega]

/-- The record used as witness input: every optional section present,
a feature with a compound location and repeated "/db_xref" qualifiers,
and a ten-residue sequence. -/
def w1 : Record :=
  { name := str "TEST1"
    molecule_type := some (str "DNA")
    topology := .circular
    division := str "PRI"
    date := some ⟨2024, 4, 1⟩
    definition := some (str "A test record with every section present.")
    source := some ⟨str "Homo sapiens", [str "Eukaryota", str "Metazoa"]⟩
    references := [⟨[str "Smith J.", str "Doe J."], some (str "A title"),
      some (str "A journal"), some 12345, some (str "Remarkable")⟩]
    features := [⟨str "CDS", .complement (.range (.exact 1) (.exact 9)),
      [⟨str "db_xref", some (str "TAXON:1")⟩,
       ⟨str "db_xref", some (str "TAXON:2")⟩,
       ⟨str "translation", some (str "MK")⟩,
       ⟨str "pseudo", none⟩]⟩]
    sequence := str "ATGCATGCAT" }

/-- A well-formed record with eight residues, for the declared-length
mismatch witness. -/
def w4 : Record :=
  { name := str "TEST2"
    molecule_type := none
    topology := .linear
    division := str "UNK"
    date := none
    definition := none
    source := none
    references := []
    features := []
    sequence := str "ATGCATGC" }

/-- The residues of the `i`-th ORIGIN body line: the sixty-residue
slice of the sequence starting at offset `60 * i`. -/
def originSlice (s : Line) (i : Nat) : Line := (s.drop (60 * i)).take 60

/-- The space-separated groups of the `i`-th ORIGIN body line: the
ten-residue chunks of its slice. -/
def originGroups (s : Line) (i : Nat) : List Line :=
  chunkList 10 (originSlice s i)

theorem chunkAux10_count : ∀ (fuel : Nat) (t : Line), t.length ≤ fuel →
    (chunkAux 10 fuel t).length = (t.length + 9) / 10 := by
  intro fuel
  induction fuel with
  | zero =>
    intro t ht
    have hnil : t = [] := by
      cases t with
      | nil => rfl
      | cons c cs => simp at ht
    subst hnil
    decide
  | succ fuel ih =>
    intro t ht
    cases t with
    | nil =>
      show (0 : Nat) = (0 + 9) / 10
      decide
    | cons c cs =>
      rw [show chunkAux 10 (fuel + 1) (c :: cs) =
        (c :: cs.take 9) :: chunkAux 10 fuel (cs.drop 9) from rfl]
      rw [List.length_cons, ih (cs.drop 9) ?_]
      · simp only [List.length_drop, List.length_cons]
        omega
      · simp only [List.length_drop]
        simp only [List.length_cons] at ht
        omega

theorem chunkAux10_sizes : ∀ (fuel : Nat) (t : Line), t.length ≤ fuel →
    ∀ g ∈ chunkAux 10 fuel t, g.length ≤ 10 := by
  intro fuel
  induction fuel with
  | zero =>
    intro t ht g hg
    have hnil : t = [] := by
      cases t with
      | nil => rfl
      | cons c cs => simp at ht
    subst hnil
    simp [chunkAux] at hg
  | succ fuel ih =>
    intro t ht g hg
    cases t with
    | nil => simp [chunkAux] at hg
    | cons c cs =>
      rw [show chunkAux 10 (fuel + 1) (c :: cs) =
        (c :: cs.take 9) :: chunkAux 10 fuel (cs.drop 9) from rfl,
        List.mem_cons] at hg
      rcases hg with rfl | hg
      · simp only [List.length_cons, List.length_take]
        omega
      · refine ih (cs.drop 9) ?_ g hg
        simp only [List.length_drop]
        simp only [List.length_cons] at ht
        omega

theorem chunkAux10_exact : ∀ (fuel : Nat) (t : Line), t.length ≤ fuel →
    t.length % 10 = 0 → ∀ g ∈ chunkAux 10 fuel t, g.length = 10 := by
  intro fuel
  induction fuel with
  | zero =>
    intro t ht _ g hg
    have hnil : t = [] := by
      cases t with
      | nil => rfl
      | cons c cs => simp at ht
    subst hnil
    simp [chunkAux] at hg
  | succ fuel ih =>
    intro t ht hmod g hg
    cases t with
    | nil => simp [chunkAux] at hg
    | cons c cs =>
      simp only [List.length_cons] at ht hmod
      have h9 : 9 ≤ cs.length := by omega
      rw [show chunkAux 10 (fuel + 1) (c :: cs) =
        (c :: cs.take 9) :: chunkAux 10 fuel (cs.drop 9) from rfl,
        List.mem_cons] at hg
      rcases hg with rfl | hg
      · simp only [List.length_cons, List.length_take]
        omega
      · refine ih (cs.drop 9) ?_ ?_ g hg
        · simp only [List.length_drop]
          omega
        · simp only [List.length_drop]
          omega

theorem originBodyAux_line : ∀ (fuel pos : Nat) (s : Line),
    s.length ≤ 60 * fuel + 60 →
    ∀ i line, (originBodyAux fuel pos s).get? i = some line →
      line = padLeft (natChars (pos + 60 * i)) 9 ++
        ((chunkList 10 ((s.drop (60 * i)).take 60)).map
          (fun g => ' ' :: g)).flatten := by
  intro fuel
  induction fuel with
  | zero =>
    intro pos s hb i line hl
    cases s with
    | nil => simp [originBodyAux] at hl
    | cons c cs =>
      rw [show originBodyAux 0 pos (c :: cs) =
        [padLeft (natChars pos) 9 ++
          ((chunkList 10 (c :: cs)).map (fun g => ' ' :: g)).flatten] from rfl] at hl
      cases i with
      | zero =>
        rw [show ([padLeft (natChars pos) 9 ++
          ((chunkList 10 (c :: cs)).map (fun g => ' ' :: g)).flatten] :
            List Line).get? 0 = some (padLeft (natChars pos) 9 ++
          ((chunkList 10 (c :: cs)).map (fun g => ' ' :: g)).flatten) from rfl,
          Option.some.injEq] at hl
        subst hl
        rw [show (60 : Nat) * 0 = 0 from rfl, List.drop_zero,
          List.take_of_length_le (by simpa [Nat.mul_zero] using hb)]
        rw [show pos + 0 = pos from rfl]
      | succ j => simp at hl
  | succ fuel ih =>
    intro pos s hb i line hl
    cases s with
    | nil => simp [originBodyAux] at hl
    | cons c cs =>
      rw [show originBodyAux (fuel + 1) pos (c :: cs) =
        (padLeft (natChars pos) 9 ++
          ((chunkList 10 (c :: cs.take 59)).map (fun g => ' ' :: g)).flatten) ::
          originBodyAux fuel (pos + 60) (cs.drop 59) from rfl] at hl
      cases i with
      | zero =>
        rw [show ((padLeft (natChars pos) 9 ++
          ((chunkList 10 (c :: cs.take 59)).map (fun g => ' ' :: g)).flatten) ::
            originBodyAux fuel (pos + 60) (cs.drop 59)).get? 0 =
          some (padLeft (natChars pos) 9 ++
            ((chunkList 10 (c :: cs.take 59)).map
              (fun g => ' ' :: g)).flatten) from rfl, Option.some.injEq] at hl
        subst hl
        rw [show (60 : Nat) * 0 = 0 from rfl, List.drop_zero,
          show ((c :: cs).take 60) = c :: cs.take 59 from rfl]
        rw [show pos + 0 = pos from rfl]
      | succ j =>
        rw [show ((padLeft (natChars pos) 9 ++
          ((chunkList 10 (c :: cs.take 59)).map (fun g => ' ' :: g)).flatten) ::
            originBodyAux fuel (pos + 60) (cs.drop 59)).get? (j + 1) =
          (originBodyAux fuel (pos + 60) (cs.drop 59)).get? j from rfl] at hl
        have hb2 : (cs.drop 59).length ≤ 60 * fuel + 60 := by
          simp only [List.length_drop]
          simp only [List.length_cons] at hb
          omega
        have h := ih (pos + 60) (cs.drop 59) hb2 j line hl
        rw [h]
        have hdrop : (cs.drop 59).drop (60 * j) = (c :: cs).drop (60 * (j + 1)) := by
          rw [List.drop_drop]
          rw [show (c :: cs).drop (60 * (j + 1)) = cs.drop (60 * j + 59) from by
            rw [show (60 : Nat) * (j + 1) = (60 * j + 59) + 1 from by omega]
            rfl]
          congr 1
          omega
        rw [hdrop, show pos + 60 + 60 * j = pos + 60 * (j + 1) from by omega]

/-- A well-formed record with seventy residues, so that its ORIGIN
block has a full line of six ten-residue groups and a second line
starting at position 61. -/
def w5 : Record :=
  { name := str "TEST3"
    molecule_type := none
    topology := .linear
    division := str "UNK"
    date := none
    definition := none
    source := none
    references := []
    features := []
    sequence :=
      str "AAAAAAAAAACCCCCCCCCCGGGGGGGGGGTTTTTTTTTTAAAAAAAAAACCCCCCCCCCGGGGGGGGGG" }

/-!
The claims, settled against the development above.
-/

set_option maxRecDepth 1000000

/-- C1: writing any list of writer-representable records with `dump` and
re-parsing the output with `load` returns exactly the same records, all
typed fields included (sequence, features with qualifiers in original
order, references, source, dates). -/
theorem claim1_round_trip (rs : List Record) (h : rs.all WFRecord = true) :
    load (dump rs) = .ok rs :=
  load_dump rs h

/-- Witness for C1: a record with every optional section present and a
feature carrying two "/db_xref" qualifiers round-trips unchanged. -/
theorem claim1_round_trip_witness :
    ([w1].all WFRecord = true) ∧ load (dump [w1]) = .ok [w1] :=
  ⟨by decide, claim1_round_trip [w1] (by decide)⟩

/-- C2: on the record of `test_python_record` (sequence ATGC, name
"Test sequence", source "Testus organismae", date 2024-04-01, one CDS
over [0,3) with translation "M") the writer emits exactly the eight
expected lines. -/
theorem claim2_exact_lines : dump [testRecord] =
    [str "LOCUS       Test sequence              4 bp            linear UNK 01-APR-2024",
     str "SOURCE      Testus organismae",
     str "FEATURES             Location/Qualifiers",
     str "     CDS             1..3",
     str "                     /translation=\"M\"",
     str "ORIGIN      ",
     str "        1 ATGC",
     str "//"] := by decide

/-- C3: when the underlying source fails after supplying a chunk that
contains no record terminator (for example a partial LOCUS header), the
stream loader reports exactly that error object, wrapped only in the
I/O constructor — never replaced by a syntax error. -/
theorem claim3_io_error_propagation {ε : Type} (e : ε) (chunk : List Line)
    (rest : List (Except ε (List Line)))
    (h : ∀ l ∈ chunk, ¬ l = str "//") :
    loadStream ((.ok chunk) :: .error e :: rest) = .error (.io e) :=
  loadChunks_io e chunk rest h

/-- Witness for C3: a reader that yields the bare header "LOCUS" and
then fails with the custom error 42 surfaces exactly that error. -/
theorem claim3_io_error_propagation_witness :
    (∀ l ∈ [str "LOCUS"], ¬ l = str "//") ∧
    loadStream ((Except.ok [str "LOCUS"]) :: .error (42 : Nat) :: []) =
      .error (.io 42) :=
  ⟨by decide, claim3_io_error_propagation 42 [str "LOCUS"] [] (by decide)⟩

/-- C4: a record body whose LOCUS line declares a residue count
different from the assembled ORIGIN sequence length is rejected with a
validation error naming both numbers; no record is produced and the
mismatch is never silently corrected. -/
theorem claim4_length_mismatch (r : Record) (n : Nat)
    (hwf : WFRecord r = true) (hn : n < 100000000)
    (hne : n ≠ r.sequence.length) :
    load (dumpBodyD r n ++ [str "//"]) =
      .error (.lengthMismatch n r.sequence.length) :=
  load_mismatch r n hwf hn hne

/-- Witness for C4: a LOCUS line declaring 10 over an ORIGIN block of 8
residues is a validation error. -/
theorem claim4_length_mismatch_witness :
    (WFRecord w4 = true ∧ (10 : Nat) < 100000000 ∧
      (10 : Nat) ≠ w4.sequence.length) ∧
    load (dumpBodyD w4 10 ++ [str "//"]) = .error (.lengthMismatch 10 8) :=
  ⟨⟨by decide, by decide, by decide⟩,
    claim4_length_mismatch w4 10 (by decide) (by decide) (by decide)⟩

/-- C5 counterexample: the writer renders the ORIGIN block with the
residue case preserved, not lowercased — for the sequence "ATGC" of the
repository's own `test_python_record` the body line is "        1 ATGC",
which differs from the lowercase rendering "        1 atgc" the spec
describes. -/
theorem claim5_counterexample :
    originSection (str "ATGC") = [str "ORIGIN      ", str "        1 ATGC"] ∧
    ¬ (str "        1 ATGC" = str "        1 atgc") := by decide

/-- C5 (amended): for every writer-representable record with a
non-empty sequence, the ORIGIN block opens with the "ORIGIN" header and
its `i`-th body line is exactly the right-justified 1-based position
`60 * i + 1` in a nine-column field followed by the ten-residue groups
of the `i`-th sixty-residue slice, each group preceded by one space —
at most six groups per line, none longer than ten residues, and exactly
six groups of exactly ten residues whenever a full slice remains; the
groups concatenate to the slice exactly as stored (case preserved),
stripping the position prefixes and spacing recovers the whole sequence
verbatim, and the record's lines end with the "//" terminator. -/
theorem claim5_origin_layout (r : Record) (hwf : WFRecord r = true)
    (hne : r.sequence ≠ []) :
    (originSection r.sequence).headI = str "ORIGIN      " ∧
    (∀ i line, (originSection r.sequence).tail.get? i = some line →
      line = padLeft (natChars (60 * i + 1)) 9 ++
        ((originGroups r.sequence i).map (fun g => ' ' :: g)).flatten ∧
      (originGroups r.sequence i).flatten = originSlice r.sequence i ∧
      (originGroups r.sequence i).length ≤ 6 ∧
      (∀ g ∈ originGroups r.sequence i, g ≠ [] ∧ g.length ≤ 10) ∧
      (60 * i + 60 ≤ r.sequence.length →
        (originGroups r.sequence i).length = 6 ∧
        ∀ g ∈ originGroups r.sequence i, g.length = 10)) ∧
    (originSection r.sequence).tail.flatMap parseSeqLine = r.sequence ∧
    (dumpRecordLines r).getLast? = some (str "//") := by
  obtain ⟨-, -, -, -, -, -, -, hres, hlen⟩ := WFRecord_spec hwf
  rw [originSection, if_neg hne]
  refine ⟨rfl, ?_, ?_, ?_⟩
  · rw [List.tail_cons]
    intro i line hl
    have hslice : (originSlice r.sequence i).length ≤ 60 := by
      rw [originSlice]
      simp
    have hcount := chunkAux10_count (originSlice r.sequence i).length
      (originSlice r.sequence i) le_rfl
    refine ⟨?_, chunkList_flatten 10 _, ?_, ?_, ?_⟩
    · have h := originBodyAux_line r.sequence.length 1 r.sequence (by omega)
        i line hl
      rw [h, show 1 + 60 * i = 60 * i + 1 from by omega]
      rfl
    · rw [originGroups, chunkList, hcount]
      omega
    · intro g hg
      exact ⟨chunkAux_ne_nil 10 _ _ g hg,
        chunkAux10_sizes (originSlice r.sequence i).length
          (originSlice r.sequence i) le_rfl g hg⟩
    · intro hfull
      have hlen60 : (originSlice r.sequence i).length = 60 := by
        rw [originSlice]
        simp only [List.length_take, List.length_drop]
        omega
      constructor
      · rw [originGroups, chunkList, hcount, hlen60]
      · intro g hg
        exact chunkAux10_exact (originSlice r.sequence i).length
          (originSlice r.sequence i) le_rfl (by rw [hlen60]) g hg
  · rw [List.tail_cons]
    exact originBody_parse r.sequence.length r.sequence 1 (residues_no_space hres)
  · rw [dumpRecordLines]
    simp

/-- Witness for C5 (amended): on a seventy-residue record the layout
facts hold, and the two concrete body lines — a full line of six
ten-residue groups at position 1 and a second line at position 61 —
are computed by the kernel, exercising both a group boundary and a
line boundary. -/
theorem claim5_origin_layout_witness :
    (WFRecord w5 = true ∧ w5.sequence ≠ []) ∧
    (originSection w5.sequence).tail =
      [str "        1 AAAAAAAAAA CCCCCCCCCC GGGGGGGGGG TTTTTTTTTT AAAAAAAAAA CCCCCCCCCC",
       str "       61 GGGGGGGGGG"] ∧
    ((originSection w5.sequence).headI = str "ORIGIN      " ∧
     (∀ i line, (originSection w5.sequence).tail.get? i = some line →
       line = padLeft (natChars (60 * i + 1)) 9 ++
         ((originGroups w5.sequence i).map (fun g => ' ' :: g)).flatten ∧
       (originGroups w5.sequence i).flatten = originSlice w5.sequence i ∧
       (originGroups w5.sequence i).length ≤ 6 ∧
       (∀ g ∈ originGroups w5.sequence i, g ≠ [] ∧ g.length ≤ 10) ∧
       (60 * i + 60 ≤ w5.sequence.length →
         (originGroups w5.sequence i).length = 6 ∧
         ∀ g ∈ originGroups w5.sequence i, g.length = 10)) ∧
     (originSection w5.sequence).tail.flatMap parseSeqLine = w5.sequence ∧
     (dumpRecordLines w5).getLast? = some (str "//")) :=
  ⟨⟨by decide, by decide⟩, by decide,
    claim5_origin_layout w5 (by decide) (by decide)⟩

/-- C6: a Range has strand "+" by default; one Complement flips the
reported strand; an odd number of nested Complements reports "-" and an
even number "+", while the nesting itself is preserved (the Complement
depth of the wrapped location is exactly the number of wrappers). -/
theorem claim6_strand (l : Location) (lo hi : Pos) (k : Nat) :
    Location.strand (.range lo hi) = .plus ∧
    Location.strand (.complement l) = (Location.strand l).flip ∧
    Location.strand (nestComplement k (.range lo hi)) =
      (if k % 2 = 0 then .plus else .minus) ∧
    Location.compDepth (nestComplement k (.range lo hi)) = k := by
  refine ⟨rfl, rfl, ?_, ?_⟩
  · rw [strand_nest]
    by_cases hk : k % 2 = 0
    · rw [if_pos hk, if_pos hk]
      rfl
    · rw [if_neg hk, if_neg hk]
      rfl
  · rw [compDepth_nest]
    rfl

/-- C7: on any stream that consists of complete, terminated records
(with only blank lines after the last terminator), the lazy record
iterator and the eager loader produce the same ordered result. -/
theorem claim7_iter_eq_load (lines : List Line)
    (h : (splitRecsF lines.length lines).2.all isBlank = true) :
    iter lines = load lines :=
  iter_eq_load lines h

/-- Witness for C7: the iterator and the loader agree on the dumped
witness record's lines. -/
theorem claim7_iter_eq_load_witness :
    ((splitRecsF (dump [w1]).length (dump [w1])).2.all isBlank = true) ∧
    iter (dump [w1]) = load (dump [w1]) :=
  ⟨by decide, claim7_iter_eq_load (dump [w1]) (by decide)⟩

/-- C8: a path naming a directory or a missing file makes `load` fail
with the corresponding OS error, and a directory or unwritable
destination makes `dump` fail with the corresponding OS error; neither
ever silently succeeds as a no-op. -/
theorem claim8_path_errors (rs : List Record) :
    loadPath .directory = .error (.os .isADirectory) ∧
    loadPath .missing = .error (.os .notFound) ∧
    dumpPath .directory rs = .error .isADirectory ∧
    dumpPath .unwritable rs = .error .permissionDenied :=
  ⟨rfl, rfl, rfl, rfl⟩

end GB
